import Mathlib

/-!
Verification development for the EJS view-generation subsystem of the
`uncluster` repository (Go package `nodejs`, function `generateEJSViews` and
its helpers, together with the `formatter` package).

Strings are modelled as `List Char` (`Str`).  Go standard-library string
helpers (`strings.TrimSpace`, `strings.Fields`, `strings.Contains`,
`strings.ToLower`, `strings.EqualFold`, `strings.ReplaceAll`, `fmt.Sprintf`
with `%d`) are modelled by executable Lean functions with the same behaviour
on the ASCII html inputs this subsystem handles.

The DOM node type of `golang.org/x/net/html` is modelled by the inductive
`HNode` (node kind, data, ordered attribute list, ordered children).  Node
identity and in-place mutation are modelled by addressing nodes through
paths (lists of child indices) from the document root, exactly as the
design notes of the specification suggest; `nodeDepth`, which in Go counts
`Parent` pointers up to the document root, is the length of such a path.
-/

namespace Uncluster

abbrev Str := List Char

def str (s : String) : Str := s.data

/-- Model of Go `unicode.IsSpace` (the whitespace set used by
`strings.TrimSpace` and `strings.Fields`). -/
def isGoSpace (c : Char) : Bool :=
  c == ' ' || c == '\t' || c == '\n' || c == '\r' ||
  c == Char.ofNat 11 || c == Char.ofNat 12 ||
  c == Char.ofNat 0x85 || c == Char.ofNat 0xA0

/-- Model of Go `strings.TrimSpace`. -/
def trimSpace (s : Str) : Str :=
  ((s.dropWhile isGoSpace).reverse.dropWhile isGoSpace).reverse

/-- Model of Go `strings.ToLower` (ASCII range, sufficient for html input). -/
def lowerStr (s : Str) : Str := s.map Char.toLower

/-- Model of Go `strings.EqualFold` (ASCII case folding). -/
def eqFold (a b : Str) : Bool := lowerStr a == lowerStr b

def fieldsAux : Str → Str → List Str
  | acc, [] => if acc.isEmpty then [] else [acc.reverse]
  | acc, c :: rest =>
    if isGoSpace c then
      if acc.isEmpty then fieldsAux [] rest else acc.reverse :: fieldsAux [] rest
    else fieldsAux (c :: acc) rest

/-- Model of Go `strings.Fields`. -/
def fieldsGo (s : Str) : List Str := fieldsAux [] s

def isPrefixL : Str → Str → Bool
  | [], _ => true
  | _ :: _, [] => false
  | a :: as, b :: bs => a == b && isPrefixL as bs

def isInfixL (pat : Str) : Str → Bool
  | [] => pat.isEmpty
  | c :: rest => isPrefixL pat (c :: rest) || isInfixL pat rest

/-- Model of Go `strings.Contains s pat`. -/
def containsStr (s pat : Str) : Bool := isInfixL pat s

/-- Model of Go `strings.HasPrefix`. -/
def hasPrefixGo (s pat : Str) : Bool := isPrefixL pat s

/-- Byte-wise lexicographic order on ASCII strings, as used by Go
`sort.Strings`. -/
def strLe : Str → Str → Bool
  | [], _ => true
  | _ :: _, [] => false
  | a :: as, b :: bs => if a == b then strLe as bs else decide (a < b)

def natToDecAux : Nat → Nat → Str → Str
  | 0, _, acc => acc
  | fuel + 1, n, acc =>
    let d := Char.ofNat (48 + n % 10)
    if n < 10 then d :: acc else natToDecAux fuel (n / 10) (d :: acc)

/-- Model of Go `fmt.Sprintf` with `%d` for a natural number: decimal
digits (fuelled structural recursion; `n + 1` digits always suffice). -/
def natToDec (n : Nat) : Str := natToDecAux (n + 1) n []

def lookupA {β : Type} (l : List (Str × β)) (k : Str) : Option β :=
  match l.find? (fun kv => kv.1 == k) with
  | some kv => some kv.2
  | none => none

def updateA (l : List (Str × Nat)) (k : Str) (v : Nat) : List (Str × Nat) :=
  l.map (fun kv => if kv.1 == k then (kv.1, v) else kv)

/-! ## The DOM model -/

inductive NType where
  | documentNode | elementNode | textNode | commentNode | doctypeNode
  deriving DecidableEq, BEq, Repr

/-- Model of `*html.Node` from `golang.org/x/net/html`: node kind, `Data`
(tag name, text or comment payload), ordered attributes, ordered children. -/
inductive HNode where
  | mk (ntype : NType) (data : Str) (attrs : List (Str × Str)) (children : List HNode)

def HNode.ntype : HNode → NType
  | .mk t _ _ _ => t

def HNode.data : HNode → Str
  | .mk _ d _ _ => d

def HNode.attrs : HNode → List (Str × Str)
  | .mk _ _ a _ => a

def HNode.children : HNode → List HNode
  | .mk _ _ _ c => c

/-- Convenience constructor for element nodes. -/
def elemN (tag : String) (attrs : List (String × String)) (children : List HNode) : HNode :=
  .mk .elementNode (str tag) (attrs.map (fun kv => (str kv.1, str kv.2))) children

def textN (s : String) : HNode := .mk .textNode (str s) [] []

/-- `getAttributeValue` from the source: first attribute whose key matches
case-insensitively. -/
def getAttributeValue (n : HNode) (key : Str) : Str :=
  match n.attrs.find? (fun kv => eqFold kv.1 key) with
  | some kv => kv.2
  | none => []

/-- A path of child indices addressing a node from a root. -/
abbrev Path := List Nat

def getNode : HNode → Path → Option HNode
  | n, [] => some n
  | n, i :: p =>
    match n.children.get? i with
    | some c => getNode c p
    | none => none

/-! ## Tree surgery (the `TreeRewriter` mutations of `x/net/html`) -/

/-- `Parent.InsertBefore(newChild, n)` where `n` sits at index `i`:
insert `newChild` immediately before index `i`. -/
def insertBefore (children : List HNode) (i : Nat) (newChild : HNode) : List HNode :=
  children.take i ++ newChild :: children.drop i

/-- `Parent.RemoveChild` of the child at index `i` (also clearing its parent
pointer, which in this path-addressed model is its removal from the list). -/
def removeChild (children : List HNode) (i : Nat) : List HNode :=
  children.eraseIdx i

def placeholderComment (name : Str) : HNode :=
  .mk .commentNode (str "EJS_INCLUDE:" ++ name) [] []

/-- `replaceNodeWithIncludeMarker` at the level of the parent's child list:
`InsertBefore(comment, n)` puts the comment at `n`'s index `i`, then
`RemoveChild(n)` removes `n`, now at index `i + 1`. -/
def replaceChildWithMarker (children : List HNode) (i : Nat) (name : Str) : List HNode :=
  removeChild (insertBefore children i (placeholderComment name)) (i + 1)

/-- `replaceNodeWithIncludeMarker` on the whole tree, the node addressed by a
path.  The empty path is the `n.Parent == nil` guard: no mutation. -/
def replaceMarker : HNode → Path → Str → HNode
  | tree, [], _ => tree
  | .mk t d a ch, [i], name => .mk t d a (replaceChildWithMarker ch i name)
  | .mk t d a ch, i :: j :: p, name =>
    match ch.get? i with
    | some c => .mk t d a (ch.set i (replaceMarker c (j :: p) name))
    | none => .mk t d a ch

/-! ## Candidate predicates (from `part_006`) -/

def nonContentTags : List Str :=
  [str "script", str "style", str "link", str "meta", str "title", str "noscript",
   str "svg", str "path", str "circle", str "rect", str "line", str "polygon",
   str "polyline", str "defs", str "g", str "use"]

def isNonContentElement (n : HNode) : Bool :=
  if n.ntype != NType.elementNode then true
  else nonContentTags.contains n.data

def embedLoop : List HNode → Bool → Bool
  | [], hasElement => hasElement
  | c :: rest, hasElement =>
    if c.ntype == NType.elementNode then
      if c.data == str "style" || c.data == str "script" || c.data == str "link" then
        embedLoop rest true
      else false
    else if c.ntype == NType.textNode then
      if !(trimSpace c.data).isEmpty then true else embedLoop rest hasElement
    else embedLoop rest hasElement

def isEmbedOnlyNode (n : HNode) : Bool :=
  if n.ntype != NType.elementNode then false
  else if !containsStr (lowerStr (getAttributeValue n (str "class"))) (str "w-embed") then false
  else embedLoop n.children false

def isComponentCandidate (n : HNode) : Bool :=
  if n.ntype != NType.elementNode then false
  else if isNonContentElement n || isEmbedOnlyNode n then false
  else if !(getAttributeValue n (str "data-component")).isEmpty then true
  else if n.data == str "html" || n.data == str "head" || n.data == str "body" then false
  else true

/-- `isWrapperElement`: for tags div/main/section the source's wrapper-hint
loop returns `true` on a hit and the subsequent statement returns `true`
anyway, so the predicate reduces to the tag test. -/
def isWrapperElement (n : HNode) : Bool :=
  if n.ntype != NType.elementNode then false
  else n.data == str "div" || n.data == str "main" || n.data == str "section"

/-- `contentChildren`, with each child paired with its index in the full
child list (the index addresses the child in the tree model). -/
def contentChildrenIdx (n : HNode) : List (Nat × HNode) :=
  n.children.enum.filter
    (fun ic => ic.2.ntype == NType.elementNode && !isNonContentElement ic.2)

def elementChildren (n : HNode) : List HNode :=
  n.children.filter (fun c => c.ntype == NType.elementNode)

def elementChildCount (n : HNode) : Nat := (elementChildren n).length

mutual

/-- `nodeTextLength`: total byte length of trimmed text content. -/
def nodeTextLength : HNode → Nat
  | .mk t d _ ch =>
    (if t == NType.textNode then
      let trimmed := trimSpace d
      if trimmed.isEmpty then 0 else (trimmed.map Char.utf8Size).sum
    else 0) + forestTextLength ch

def forestTextLength : List HNode → Nat
  | [] => 0
  | n :: rest => nodeTextLength n + forestTextLength rest

end

def sectionTags : List Str :=
  [str "nav", str "header", str "footer", str "section", str "main", str "aside"]

def sectionKeywords : List Str :=
  [str "navbar", str "nav", str "menu", str "header", str "footer", str "hero",
   str "section", str "cta", str "pricing", str "gallery", str "grid", str "slider",
   str "carousel", str "tabs", str "accordion", str "form"]

def isSectionBoundary (n : HNode) : Bool :=
  if isNonContentElement n || isEmbedOnlyNode n then false
  else if sectionTags.contains n.data then true
  else
    let classAttr := lowerStr (getAttributeValue n (str "class"))
    let idAttr := lowerStr (getAttributeValue n (str "id"))
    let combined := classAttr ++ str " " ++ idAttr
    if combined == str " " then false
    else sectionKeywords.any (fun kw => containsStr combined kw)

def isStateClass (className : Str) : Bool :=
  className == str "active" || className == str "current" || className == str "open" ||
  className == str "closed" || className == str "selected" ||
  hasPrefixGo className (str "is-") || hasPrefixGo className (str "has-") ||
  hasPrefixGo className (str "js-") || hasPrefixGo className (str "w--")

def normalizeAux : List Str → List Str → List Str
  | [], acc => acc.reverse
  | c :: rest, acc =>
    let c' := lowerStr (trimSpace c)
    if c'.isEmpty || isStateClass c' then normalizeAux rest acc
    else if acc.contains c' then normalizeAux rest acc
    else normalizeAux rest (c' :: acc)

def normalizeClassList (classes : List Str) : List Str :=
  (normalizeAux classes []).insertionSort (fun a b => strLe a b = true)

def componentPatternKey (n : HNode) : Str :=
  if n.ntype != NType.elementNode then []
  else
    let classes := normalizeClassList (fieldsGo (getAttributeValue n (str "class")))
    if classes.isEmpty then n.data
    else n.data ++ str "." ++ (str ".").intercalate classes

def componentKeywords : List Str :=
  [str "navbar", str "nav", str "menu", str "header", str "footer", str "hero",
   str "section", str "cta", str "button", str "btn", str "card", str "tile",
   str "banner", str "pricing", str "gallery", str "feature", str "testimonial",
   str "form", str "input", str "field", str "dropdown", str "modal", str "popup",
   str "slider", str "carousel", str "tabs", str "accordion"]

def hasComponentKeyword (n : HNode) : Bool :=
  let classAttr := lowerStr (getAttributeValue n (str "class"))
  let idAttr := lowerStr (getAttributeValue n (str "id"))
  let combined := classAttr ++ str " " ++ idAttr
  if (trimSpace combined).isEmpty then false
  else componentKeywords.any (fun kw => containsStr combined kw)

def isButtonElement (n : HNode) : Bool :=
  if n.ntype != NType.elementNode then false
  else if n.data == str "button" then true
  else if lowerStr (getAttributeValue n (str "role")) == str "button" then true
  else if n.data == str "a" then
    let classAttr := lowerStr (getAttributeValue n (str "class"))
    containsStr classAttr (str "button") || containsStr classAttr (str "btn")
  else false

def wrapperHints : List Str :=
  [str "wrapper", str "container", str "page", str "layout", str "root",
   str "app", str "site", str "content"]

def isLayoutContainer (n : HNode) : Bool :=
  if n.ntype != NType.elementNode then false
  else
    let classAttr := lowerStr (getAttributeValue n (str "class"))
    let idAttr := lowerStr (getAttributeValue n (str "id"))
    wrapperHints.any (fun h => containsStr classAttr h || containsStr idAttr h)

def hasIdentifyingClassOrID (n : HNode) : Bool :=
  !(getAttributeValue n (str "class")).isEmpty || !(getAttributeValue n (str "id")).isEmpty

def hasMeaningfulContent (n : HNode) : Bool :=
  elementChildCount n ≥ 2 || nodeTextLength n ≥ 20

def shouldSelectNestedComponent (n : HNode) (patternCount : Nat) : Bool :=
  if isNonContentElement n || isEmbedOnlyNode n then false
  else
    let keywordMatch := hasComponentKeyword n
    if isLayoutContainer n && !keywordMatch then false
    else if isButtonElement n then true
    else if keywordMatch && (elementChildCount n > 0 || nodeTextLength n > 10) then true
    else if patternCount ≥ 2 && hasIdentifyingClassOrID n && hasMeaningfulContent n then true
    else false

/-! ## Root and boundary selection -/

/-- `selectComponentRoot` as the path (relative to `body`) of the chosen
root: descend through a sole wrapper-shaped content child, up to 4 levels. -/
def selectComponentRootAux : HNode → Nat → Path
  | _, 0 => []
  | root, fuel + 1 =>
    match contentChildrenIdx root with
    | [(i, child)] =>
      if isWrapperElement child then i :: selectComponentRootAux child fuel
      else []
    | _ => []

def selectComponentRoot (body : HNode) : Path := selectComponentRootAux body 4

mutual

def collectSectionWalk : HNode → Nat → Nat → List Path
  | .mk _ _ _ ch, depth, maxDepth =>
    if depth ≥ maxDepth then []
    else collectSectionChildren ch 0 depth maxDepth

def collectSectionChildren : List HNode → Nat → Nat → Nat → List Path
  | [], _, _, _ => []
  | c :: rest, i, depth, maxDepth =>
    (if c.ntype == NType.elementNode then
      if isSectionBoundary c then [[i]]
      else (collectSectionWalk c (depth + 1) maxDepth).map (fun p => i :: p)
    else []) ++ collectSectionChildren rest (i + 1) depth maxDepth

end

def collectSectionComponents (root : HNode) (maxDepth : Nat) : List Path :=
  collectSectionWalk root 0 maxDepth

/-- `selectComponentNodes`, as paths relative to `root`. -/
def selectComponentNodes (root : HNode) : List Path :=
  let sections := collectSectionComponents root 5
  if sections.length > 1 then sections
  else
    let children := (contentChildrenIdx root).filter (fun ic => isComponentCandidate ic.2)
    if children.length > 1 then children.map (fun ic => [ic.1])
    else
      match children with
      | [(i, child)] =>
        let deeper := (contentChildrenIdx child).filter (fun ic => isComponentCandidate ic.2)
        if deeper.length > 1 then deeper.map (fun ic => [i, ic.1])
        else [[i]]
      | _ => []

/-! ## Nested component collection -/

mutual

def walkCountNode : HNode → Nat → Nat → List Str
  | .mk t d a ch, depth, maxDepth =>
    if depth > maxDepth then []
    else
      (if depth > 0 && isComponentCandidate (.mk t d a ch) then
        let key := componentPatternKey (.mk t d a ch)
        if key.isEmpty then [] else [key]
      else []) ++ walkCountForest ch depth maxDepth

def walkCountForest : List HNode → Nat → Nat → List Str
  | [], _, _ => []
  | c :: rest, depth, maxDepth =>
    (if c.ntype == NType.elementNode then walkCountNode c (depth + 1) maxDepth else []) ++
      walkCountForest rest depth maxDepth

end

def patternCountOf (keys : List Str) (key : Str) : Nat :=
  (keys.filter (fun k => k == key)).length

mutual

def walkSelectNode : HNode → Nat → Nat → List Str → List Path
  | .mk t d a ch, depth, maxDepth, keys =>
    if depth > maxDepth then []
    else
      (if depth > 0 && isComponentCandidate (.mk t d a ch) then
        if shouldSelectNestedComponent (.mk t d a ch)
            (patternCountOf keys (componentPatternKey (.mk t d a ch))) then [[]]
        else []
      else []) ++ walkSelectForest ch 0 depth maxDepth keys

def walkSelectForest : List HNode → Nat → Nat → Nat → List Str → List Path
  | [], _, _, _, _ => []
  | c :: rest, i, depth, maxDepth, keys =>
    (if c.ntype == NType.elementNode then
      (walkSelectNode c (depth + 1) maxDepth keys).map (fun p => i :: p)
    else []) ++ walkSelectForest rest (i + 1) depth maxDepth keys

end

def collectNestedComponentsInRoot (root : HNode) (maxDepth : Nat) : List Path :=
  walkSelectNode root 0 maxDepth (walkCountNode root 0 maxDepth)

def collectNestedComponents (doc : HNode) (roots : List Path) (maxDepth : Nat) : List Path :=
  roots.flatMap (fun rp =>
    match getNode doc rp with
    | some rn => (collectNestedComponentsInRoot rn maxDepth).map (fun p => rp ++ p)
    | none => [])

/-! ## Candidate merge and ordering -/

/-- `nodeDepth`: number of `Parent` links up to the document root; for a node
addressed by an absolute path this is the path length. -/
def nodeDepth (p : Path) : Nat := p.length

def uniqueAux : List Path → List Path → List Path
  | [], _ => []
  | p :: rest, seen =>
    if seen.contains p then uniqueAux rest seen
    else p :: uniqueAux rest (p :: seen)

/-- `uniqueNodes`: deduplicate by node identity, keeping first occurrences. -/
def uniqueNodes (paths : List Path) : List Path := uniqueAux paths []

/-- The merged, deduplicated, depth-descending candidate list of
`collectBodyComponents` (absolute paths from the document node).  The order
among candidates of equal depth is one resolution of the order Go's
unstable `sort.Slice` leaves unspecified. -/
def mergedCandidatePaths (doc : HNode) (rootPath : Path) : List Path :=
  match getNode doc rootPath with
  | none => []
  | some root =>
    let primary := (selectComponentNodes root).map (fun p => rootPath ++ p)
    if primary.isEmpty then []
    else
      let nested := collectNestedComponents doc primary 6
      let nodes := uniqueNodes (nested ++ primary)
      nodes.insertionSort (fun a b => nodeDepth b ≤ nodeDepth a)

/-- `collectBodyComponents`: the merged list filtered by
`isComponentCandidate`. -/
def collectBodyComponents (doc : HNode) (rootPath : Path) : List Path :=
  (mergedCandidatePaths doc rootPath).filter (fun p =>
    match getNode doc p with
    | some n => isComponentCandidate n
    | none => false)

/-! ## Name assignment -/

def sanitizeAux : Str → Bool → Str
  | [], _ => []
  | r :: rest, lastDash =>
    let r' := if 'A' ≤ r ∧ r ≤ 'Z' then Char.ofNat (r.toNat - 65 + 97) else r
    if ('a' ≤ r' ∧ r' ≤ 'z') ∨ ('0' ≤ r' ∧ r' ≤ '9') then r' :: sanitizeAux rest false
    else if !lastDash then '-' :: sanitizeAux rest true
    else sanitizeAux rest lastDash

def trimDashes (s : Str) : Str :=
  ((s.dropWhile (fun c => c == '-')).reverse.dropWhile (fun c => c == '-')).reverse

def sanitizeComponentName (name : Str) : Str := trimDashes (sanitizeAux name false)

def buildBase (n : HNode) : Str :=
  let idAttr := getAttributeValue n (str "id")
  if !idAttr.isEmpty then n.data ++ str "-" ++ idAttr
  else
    let classAttr := getAttributeValue n (str "class")
    if !classAttr.isEmpty then
      match fieldsGo classAttr with
      | f :: _ => n.data ++ str "-" ++ f
      | [] => n.data
    else n.data

/-- `buildComponentName`: returns the chosen name and the updated per-run
usage counter map. -/
def buildComponentName (n : HNode) (index : Nat) (used : List (Str × Nat)) :
    Str × List (Str × Nat) :=
  let base := sanitizeComponentName (buildBase n)
  let base := if base.isEmpty then str "component-" ++ natToDec (index + 1) else base
  match lookupA used base with
  | some count =>
    (base ++ str "-" ++ natToDec (count + 1), updateA used base (count + 1))
  | none => (base, (base, 1) :: used)

/-! ## The renderer (external collaborator `html.Render`, modelled)

The serializer of `golang.org/x/net/html` is an external collaborator of
this subsystem; it is modelled here: text escaped, attributes quoted and
escaped, comments rendered verbatim between markers, void elements
self-closed, raw-text elements (script/style/…) rendered without escaping.
(The leading-newline special case for pre/textarea is omitted.) -/

def escChar (c : Char) : Str :=
  if c == '&' then str "&amp;"
  else if c == '\'' then str "&#39;"
  else if c == '<' then str "&lt;"
  else if c == '>' then str "&gt;"
  else if c == '"' then str "&#34;"
  else if c == '\r' then str "&#13;"
  else [c]

def escapeStr (s : Str) : Str := s.flatMap escChar

def voidTags : List Str :=
  [str "area", str "base", str "br", str "col", str "embed", str "hr", str "img",
   str "input", str "link", str "meta", str "param", str "source", str "track", str "wbr"]

def rawTextTags : List Str :=
  [str "iframe", str "noembed", str "noframes", str "noscript", str "plaintext",
   str "script", str "style", str "xmp"]

def renderAttrs : List (Str × Str) → Str
  | [] => []
  | (k, v) :: rest => ' ' :: (k ++ '=' :: '"' :: escapeStr v ++ ['"']) ++ renderAttrs rest

mutual

def renderNode : HNode → Str
  | .mk t d attrs ch =>
    match t with
    | .textNode => escapeStr d
    | .commentNode => str "<!--" ++ d ++ str "-->"
    | .doctypeNode => str "<!DOCTYPE " ++ d ++ str ">"
    | .documentNode => renderForest ch
    | .elementNode =>
      let opening := '<' :: (d ++ renderAttrs attrs)
      if voidTags.contains d then opening ++ str "/>"
      else if rawTextTags.contains d then
        opening ++ '>' :: (renderRawForest ch ++ str "</" ++ d ++ str ">")
      else opening ++ '>' :: (renderForest ch ++ str "</" ++ d ++ str ">")

def renderForest : List HNode → Str
  | [] => []
  | c :: rest => renderNode c ++ renderForest rest

def renderRawForest : List HNode → Str
  | [] => []
  | c :: rest =>
    (if c.ntype == NType.textNode then c.data else renderNode c) ++ renderRawForest rest

end

/-- `renderNodeHTML`: in the source this returns an error only for node
kinds that cannot occur in this model, so it is total here. -/
def renderNodeHTML (n : HNode) : Str := renderNode n

/-! ## Placeholder resolution -/

def replaceAllFuel (pat rep : Str) : Nat → Str → Str
  | 0, s => s
  | _ + 1, [] => []
  | fuel + 1, c :: rest =>
    if isPrefixL pat (c :: rest) then
      rep ++ replaceAllFuel pat rep fuel ((c :: rest).drop pat.length)
    else c :: replaceAllFuel pat rep fuel rest

/-- Model of Go `strings.ReplaceAll`: leftmost, non-overlapping (fuelled
structural recursion; the scan consumes at least one character per step, so
`s.length` fuel suffices for a nonempty pattern.  Go's behaviour for an
empty pattern, interleaved insertion, never arises here: every placeholder
pattern is nonempty, and an empty pattern is returned unchanged). -/
def replaceAllL (s pat rep : Str) : Str :=
  match pat with
  | [] => s
  | _ :: _ => replaceAllFuel pat rep s.length s

def placeholderFor (name : Str) : Str := str "<!--EJS_INCLUDE:" ++ name ++ str "-->"

def includeFor (name : Str) : Str :=
  str "<%- include(" ++ '\'' :: str "partials/" ++ name ++ '\'' :: str ") %>"

structure ResolvedComponent where
  name : Str
  html : Str
  path : Path
  deriving DecidableEq

/-- `buildIncludeReplacements`: one placeholder → include pair per distinct
name (the Go map keyed by placeholder literal, here an ordered list). -/
def buildIncludeReplacements (components : List ResolvedComponent) : List (Str × Str) :=
  components.foldl (fun acc comp =>
    if acc.any (fun pr => pr.1 == placeholderFor comp.name) then acc
    else acc ++ [(placeholderFor comp.name, includeFor comp.name)]) []

/-- `applyIncludeReplacements`: apply every replacement pair, in list order
(one resolution of Go's unspecified map-iteration order; see the
order-independence theorem). -/
def applyIncludeReplacements (content : Str) (reps : List (Str × Str)) : Str :=
  reps.foldl (fun s pr => replaceAllL s pr.1 pr.2) content

/-! ## The extraction loop of `generateEJSViews` -/

structure ResolveState where
  used : List (Str × Nat)
  byContent : List (Str × Str)
  resolved : List ResolvedComponent
  tree : HNode

def resolveStep (st : ResolveState) (idx : Nat) (p : Path) : ResolveState :=
  match getNode st.tree p with
  | none => st
  | some node =>
    let content := renderNodeHTML node
    let trimmed := trimSpace content
    if trimmed.isEmpty then st
    else
      match lookupA st.byContent trimmed with
      | some name =>
        { st with resolved := st.resolved ++ [⟨name, content, p⟩],
                  tree := replaceMarker st.tree p name }
      | none =>
        let nu := buildComponentName node idx st.used
        { st with used := nu.2,
                  byContent := (trimmed, nu.1) :: st.byContent,
                  resolved := st.resolved ++ [⟨nu.1, content, p⟩],
                  tree := replaceMarker st.tree p nu.1 }

def resolveComponents (tree : HNode) (comps : List Path) : ResolveState :=
  comps.enum.foldl (fun st ip => resolveStep st ip.1 ip.2) ⟨[], [], [], tree⟩

/-- The deduplicating construction of the partials map (insertion order). -/
def buildPartialsMap (resolved : List ResolvedComponent) (reps : List (Str × Str)) :
    List (Str × Str) :=
  resolved.foldl (fun acc comp =>
    if acc.any (fun kv => kv.1 == comp.name) then acc
    else acc ++ [(comp.name, applyIncludeReplacements comp.html reps)]) []

structure ViewsResult where
  main : Str
  parts : List (Str × Str)

mutual

/-- `findElement`, returning the path of the first matching node in
preorder. -/
def findElementPathD : HNode → Str → Option Path
  | .mk t d _ ch, tag =>
    if t == NType.elementNode && d == tag then some []
    else findElementForest ch tag 0

def findElementForest : List HNode → Str → Nat → Option Path
  | [], _, _ => none
  | c :: rest, tag, i =>
    match findElementPathD c tag with
    | some p => some (i :: p)
    | none => findElementForest rest tag (i + 1)

end

/-- `generateEJSViews`.  The input arrives already parsed (`doc`), parsing
being a collaborator; `htmlContent` is the original input string the
function returns on its no-candidate paths.  `format` is the formatter
collaborator boundary: `none` models a formatter error, in which case the
unformatted rendering is kept, exactly as in the source. -/
def generateEJSViews (format : Str → Option Str) (htmlContent : Str) (doc : HNode) :
    ViewsResult :=
  match findElementPathD doc (str "body") with
  | none => ⟨htmlContent, []⟩
  | some bodyPath =>
    match getNode doc bodyPath with
    | none => ⟨htmlContent, []⟩
    | some body =>
      let rootPath := bodyPath ++ selectComponentRoot body
      let comps := collectBodyComponents doc rootPath
      if comps.isEmpty then ⟨htmlContent, []⟩
      else
        let st := resolveComponents doc comps
        let rendered := renderNode st.tree
        let rendered := match format rendered with | some f => f | none => rendered
        let reps := buildIncludeReplacements st.resolved
        ⟨applyIncludeReplacements rendered reps, buildPartialsMap st.resolved reps⟩

/-! ## The formatter (`internal/formatter/formatter.go`)

`formatter.Format` re-parses its input and pretty-prints the tree with tab
indentation; parsing is the collaborator boundary, so the model
`formatTree` takes the parsed tree.  Text nodes need the parent's
only-text-children flag, threaded through the forest walk. -/

def tabs (depth : Nat) : Str := List.replicate depth '\t'

def fmtAttrs : List (Str × Str) → Str
  | [] => []
  | (k, v) :: rest =>
    ' ' :: (k ++ (if v.isEmpty then [] else '=' :: '"' :: v ++ ['"'])) ++ fmtAttrs rest

def hasOnlyTextChildrenL (ch : List HNode) : Bool :=
  ch.all (fun c => c.ntype != NType.elementNode)

mutual

def formatNodeM : HNode → Nat → Bool → Str
  | .mk t d attrs ch, depth, parentOnlyText =>
    match t with
    | .documentNode => formatForestM ch depth (hasOnlyTextChildrenL ch)
    | .elementNode =>
      if voidTags.contains (lowerStr d) then
        tabs depth ++ '<' :: (d ++ fmtAttrs attrs) ++ str " />" ++ ['\n']
      else
        let hasOnlyText := hasOnlyTextChildrenL ch
        let hasCh := !ch.isEmpty
        tabs depth ++ '<' :: (d ++ fmtAttrs attrs) ++ str ">" ++
          (if !hasOnlyText && hasCh then ['\n'] else []) ++
          formatForestM ch (depth + 1) hasOnlyText ++
          (if !hasOnlyText && hasCh then tabs depth else []) ++
          str "</" ++ d ++ str ">" ++ ['\n']
    | .textNode =>
      let text := trimSpace d
      if text.isEmpty then []
      else
        (if !parentOnlyText then tabs depth else []) ++ text ++
          (if !parentOnlyText then ['\n'] else [])
    | .commentNode => tabs depth ++ str "<!--" ++ d ++ str "-->" ++ ['\n']
    | .doctypeNode => str "<!DOCTYPE " ++ d ++ str ">" ++ ['\n']

def formatForestM : List HNode → Nat → Bool → Str
  | [], _, _ => []
  | c :: rest, depth, parentOnlyText =>
    formatNodeM c depth parentOnlyText ++ formatForestM rest depth parentOnlyText

end

/-- `formatter.Format` on an already-parsed document tree. -/
def formatTree (doc : HNode) : Str := formatNodeM doc 0 true

/-! ## Concrete documents used to instantiate and to refute claims -/

def secN (id txt : String) : HNode := elemN "section" [("id", id)] [textN txt]

/-- Four sibling sections: two share the base name `section-b` with distinct
contents, the third has id `b-2` (colliding with the suffixed name of the
second), and the fourth is byte-identical to the third. -/
def docCollide : HNode :=
  .mk .documentNode [] [] [elemN "html" [] [elemN "head" [] [],
    elemN "body" [] [secN "b" "1", secN "b" "2", secN "b-2" "3", secN "b-2" "3"]]]

/-- The parse tree of the input string `hello` (the html parser collaborator
wraps bare text in `html/head/body`). -/
def docHello : HNode :=
  .mk .documentNode [] [] [elemN "html" [] [elemN "head" [] [], elemN "body" [] [textN "hello"]]]

/-- Two sibling `<section>` elements buried more than 5 levels below the
selected component root. -/
def docDeepSections : HNode :=
  .mk .documentNode [] [] [elemN "html" [] [elemN "head" [] [],
    elemN "body" [] [elemN "article" [] [elemN "div" [] [elemN "div" [] [elemN "div" [] [
      elemN "div" [] [secN "s1" "aa", secN "s2" "bb"]]]]]]]]

/-- A clickable control carrying a layout-container class and no component
keyword. -/
def btnWrapper : HNode := elemN "button" [("class", "wrapper")] [textN "Go"]

def plainButton : HNode := elemN "button" [] [textN "Go"]

/-- A component-keyword node with no element children and exactly 10 trimmed
text characters. -/
def cardTen : HNode := elemN "div" [("class", "card")] [textN "abcdefghij"]

def cardEleven : HNode := elemN "div" [("class", "card")] [textN "abcdefghijk"]

/-- An input document whose text already contains the internal marker. -/
def docLeak : HNode :=
  .mk .documentNode [] [] [elemN "html" [] [elemN "head" [] [],
    elemN "body" [] [elemN "section" [("id", "s1")] [textN "EJS_INCLUDE:boom"],
                     elemN "section" [("id", "s2")] [textN "x"]]]]

/-- Formatter collaborator instances used at concrete inputs: the identity
formatter and the always-failing formatter (on error the source keeps the
unformatted rendering). -/
def fmtIdF : Str → Option Str := fun s => some s

def fmtNoneF : Str → Option Str := fun _ => none

/-- The marker string whose absence from final output C2 asserts. -/
def markerL : Str := str "EJS_INCLUDE:"

/-! ## The slug predicate (C9's "filesystem-safe slug") -/

def isSlugChar (c : Char) : Bool :=
  ('a' ≤ c && c ≤ 'z') || ('0' ≤ c && c ≤ '9')

/-- No two consecutive dashes. -/
def noDoubleDash : Str → Bool
  | [] => true
  | [_] => true
  | a :: b :: t => !(a == '-' && b == '-') && noDoubleDash (b :: t)

/-- A filesystem-safe slug: nonempty; lowercase letters, digits and dashes
only; no leading or trailing dash; no two consecutive dashes. -/
def isSlug (s : Str) : Bool :=
  !s.isEmpty && s.all (fun c => isSlugChar c || c == '-') &&
  s.head? != some '-' && s.getLast? != some '-' && noDoubleDash s

/-! ## Segment decomposition and marker predicates

Placeholders and include directives both start with `<` and contain no
further `<`; splitting a string at every `<` therefore turns
`strings.ReplaceAll` of a placeholder into an independent action on each
segment.  These definitions support the proofs about
`applyIncludeReplacements`. -/

def splitLT : Str → Str × List Str
  | [] => ([], [])
  | c :: rest =>
    let pr := splitLT rest
    if c == '<' then ([], pr.1 :: pr.2) else (c :: pr.1, pr.2)

def joinLT (pre : Str) (segs : List Str) : Str :=
  pre ++ (segs.map (fun t => '<' :: t)).flatten

/-- The action of one replacement pair on one `<`-segment. -/
def segRep (q r t : Str) : Str :=
  if isPrefixL q t then r ++ t.drop q.length else t

/-- Append `u` to the last element of a segment list (the effect on the
`<`-decomposition of appending a `<`-less string). -/
def extLast : List Str → Str → List Str
  | [], _ => []
  | [t], u => [t ++ u]
  | t :: s :: ss, u => t :: extLast (s :: ss) u

/-- The placeholder literal after its leading `<`. -/
def qOf (name : Str) : Str := str "!--EJS_INCLUDE:" ++ name ++ str "-->"

/-- The include directive after its leading `<`. -/
def rOf (name : Str) : Str :=
  str "%- include(" ++ '\'' :: str "partials/" ++ name ++ '\'' :: str ") %>"

def markerFree (s : Str) : Bool := !(isInfixL markerL s)

/-- A `<`-segment is good when it is marker-free, or is a placeholder of a
known name followed by marker-free text. -/
def goodSeg (names : List Str) (t : Str) : Bool :=
  markerFree t ||
    names.any (fun nm => isPrefixL (qOf nm) t && markerFree (t.drop (qOf nm).length))

/-- A string is good when its pre-`<` part is marker-free and every
`<`-segment is good. -/
def goodStr (names : List Str) (s : Str) : Bool :=
  markerFree (splitLT s).1 && (splitLT s).2.all (goodSeg names)

/-! ## Tree-level marker predicates (for the no-leakage property) -/

def adjacentTextFree : List HNode → Bool
  | [] => true
  | [_] => true
  | a :: b :: t =>
    !(a.ntype == NType.textNode && b.ntype == NType.textNode) && adjacentTextFree (b :: t)

mutual

/-- Every data field of the tree is marker-free, except that comment nodes
may be exact placeholders of a known name. -/
def cleanNode (names : List Str) : HNode → Bool
  | .mk t d attrs ch =>
    (match t with
     | NType.commentNode =>
       markerFree d || names.any (fun nm => d == str "EJS_INCLUDE:" ++ nm)
     | _ => markerFree d) &&
    attrs.all (fun kv => markerFree kv.1 && markerFree kv.2) &&
    cleanForest names ch

def cleanForest (names : List Str) : List HNode → Bool
  | [] => true
  | c :: rest => cleanNode names c && cleanForest names rest

end

mutual

/-- Parser-shaped trees: no document-kind node below the root and no two
adjacent text siblings (the parser merges character data). -/
def normalNode : HNode → Bool
  | .mk _ _ _ ch =>
    adjacentTextFree ch &&
    ch.all (fun c => c.ntype != NType.documentNode) &&
    normalForest ch

def normalForest : List HNode → Bool
  | [] => true
  | c :: rest => normalNode c && normalForest rest

end

/-- Two resolved components with distinct slug names, used to instantiate
the order-independence theorem. -/
def permComps : List ResolvedComponent :=
  [⟨str "a", str "x", []⟩, ⟨str "b", str "y", []⟩]

/-! ## Basic lemmas about the string model -/

theorem isPrefixL_iff (p s : Str) : isPrefixL p s = true ↔ p <+: s := by
  induction p generalizing s with
  | nil => simp [isPrefixL]
  | cons a as ih =>
    cases s with
    | nil => simp [isPrefixL]
    | cons b bs =>
      simp only [isPrefixL, Bool.and_eq_true, beq_iff_eq, ih]
      constructor
      · rintro ⟨rfl, t, rfl⟩
        exact ⟨t, rfl⟩
      · rintro ⟨t, h⟩
        cases h
        exact ⟨rfl, t, rfl⟩

theorem isInfixL_iff (p s : Str) : isInfixL p s = true ↔ p <:+: s := by
  induction s with
  | nil =>
    simp only [isInfixL, List.isEmpty_iff]
    constructor
    · rintro rfl; exact List.infix_rfl
    · intro h; exact List.eq_nil_of_infix_nil h
  | cons c rest ih =>
    simp only [isInfixL, Bool.or_eq_true, isPrefixL_iff, ih]
    constructor
    · rintro (h | h)
      · exact h.isInfix
      · exact List.infix_cons h
    · intro h
      rcases h with ⟨t₁, t₂, he⟩
      cases t₁ with
      | nil => left; exact ⟨t₂, by simpa using he⟩
      | cons x xs =>
        right
        have ht : xs ++ p ++ t₂ = rest := by
          have := congrArg List.tail he
          simpa using this
        exact ⟨xs, t₂, ht⟩

theorem containsStr_iff (s pat : Str) : containsStr s pat = true ↔ pat <:+: s :=
  isInfixL_iff pat s

/-- Totality of the prefix order on common extensions (wrapper with a
scan-safe name). -/
theorem prefixTotal {α : Type} {l₁ l₂ l₃ : List α} (h₁ : l₁ <+: l₃) (h₂ : l₂ <+: l₃) :
    l₁ <+: l₂ ∨ l₂ <+: l₁ :=
  List.prefix_or_prefix_of_prefix h₁ h₂

/-! ## C4: the placeholder replacement is an in-place child substitution -/

theorem replaceChildWithMarker_eq_set (children : List HNode) (i : Nat) (name : Str)
    (h : i < children.length) :
    replaceChildWithMarker children i name = children.set i (placeholderComment name) := by
  induction children generalizing i with
  | nil => simp at h
  | cons c cs ih =>
    cases i with
    | zero =>
      simp [replaceChildWithMarker, insertBefore, removeChild, List.eraseIdx]
    | succ j =>
      have hj : j < cs.length := by simpa using h
      have := ih j hj
      simp only [replaceChildWithMarker, insertBefore, removeChild] at this ⊢
      simp [List.take_succ_cons, List.drop_succ_cons, List.eraseIdx, this]

/-- C4 — When a candidate node at sibling index `i` is replaced, the
placeholder comment carrying `EJS_INCLUDE:<name>` occupies exactly index
`i`, every other child of the parent is unchanged, the number of children
is unchanged, and the original node no longer occupies its slot (its
removal from the child list is the model of detaching it and clearing its
parent pointer). -/
theorem candidate_replacement_in_place (children : List HNode) (i : Nat) (name : Str)
    (h : i < children.length) :
    (replaceChildWithMarker children i name).get? i = some (placeholderComment name) ∧
    (∀ j, j ≠ i → (replaceChildWithMarker children i name).get? j = children.get? j) ∧
    (replaceChildWithMarker children i name).length = children.length := by
  rw [replaceChildWithMarker_eq_set children i name h]
  refine ⟨?_, ?_, by simp⟩
  · rw [List.get?_eq_getElem?]
    rw [List.getElem?_set_self (by simpa using h)]
  · intro j hj
    rw [List.get?_eq_getElem?, List.get?_eq_getElem?]
    exact List.getElem?_set_ne (fun hh => hj hh.symm)

/-- Witness for C4 at a concrete child list. -/
theorem candidate_replacement_in_place_witness :
    ((replaceChildWithMarker [textN "a", textN "b", textN "c"] 1 (str "nm")).get? 1 =
        some (placeholderComment (str "nm")) ∧
      (∀ j, j ≠ 1 → (replaceChildWithMarker [textN "a", textN "b", textN "c"] 1 (str "nm")).get? j =
        [textN "a", textN "b", textN "c"].get? j) ∧
      (replaceChildWithMarker [textN "a", textN "b", textN "c"] 1 (str "nm")).length = 3) :=
  candidate_replacement_in_place [textN "a", textN "b", textN "c"] 1 (str "nm") (by simp)

/-! ## C3: the merged candidate list -/

theorem uniqueAux_sub (l : List Path) (seen : List Path) :
    ∀ p ∈ uniqueAux l seen, p ∉ seen := by
  induction l generalizing seen with
  | nil => simp [uniqueAux]
  | cons q rest ih =>
    intro p hp
    by_cases hq : seen.contains q
    · rw [uniqueAux, if_pos hq] at hp
      exact ih seen p hp
    · rw [uniqueAux, if_neg hq] at hp
      rcases List.mem_cons.mp hp with hp' | hp'
      · subst hp'
        simpa using hq
      · intro hmem
        exact ih (q :: seen) p hp' (List.mem_cons_of_mem q hmem)

theorem uniqueAux_nodup (l : List Path) (seen : List Path) : (uniqueAux l seen).Nodup := by
  induction l generalizing seen with
  | nil => simp [uniqueAux]
  | cons q rest ih =>
    by_cases hq : seen.contains q
    · rw [uniqueAux, if_pos hq]; exact ih seen
    · rw [uniqueAux, if_neg hq]
      refine List.nodup_cons.mpr ⟨?_, ih (q :: seen)⟩
      intro hmem
      exact uniqueAux_sub rest (q :: seen) q hmem (List.mem_cons_self q seen)

theorem uniqueNodes_nodup (l : List Path) : (uniqueNodes l).Nodup :=
  uniqueAux_nodup l []

theorem merged_nodup (doc : HNode) (rootPath : Path) :
    (mergedCandidatePaths doc rootPath).Nodup := by
  unfold mergedCandidatePaths
  cases getNode doc rootPath with
  | none => simp
  | some root =>
    simp only
    by_cases he : ((selectComponentNodes root).map (fun p => rootPath ++ p)).isEmpty
    · rw [if_pos he]; simp
    · rw [if_neg he]
      exact ((List.perm_insertionSort _ _).nodup_iff).mpr (uniqueNodes_nodup _)

theorem merged_sorted (doc : HNode) (rootPath : Path) :
    (mergedCandidatePaths doc rootPath).Pairwise
      (fun a b => nodeDepth b ≤ nodeDepth a) := by
  unfold mergedCandidatePaths
  cases getNode doc rootPath with
  | none => simp
  | some root =>
    simp only
    by_cases he : ((selectComponentNodes root).map (fun p => rootPath ++ p)).isEmpty
    · rw [if_pos he]; simp
    · rw [if_neg he]
      haveI : IsTotal Path (fun a b => nodeDepth b ≤ nodeDepth a) :=
        ⟨fun a b => Nat.le_total (nodeDepth b) (nodeDepth a)⟩
      haveI : IsTrans Path (fun a b => nodeDepth b ≤ nodeDepth a) :=
        ⟨fun _ _ _ hab hbc => Nat.le_trans hbc hab⟩
      exact List.sorted_insertionSort (fun a b => nodeDepth b ≤ nodeDepth a) _

/-- C3 — The merged candidate list (`nested ++ primary`, deduplicated by
node identity, depth-sorted) contains each node at most once, is ordered
by tree depth descending, and hence no candidate is followed by a strict
descendant candidate: every candidate is processed before any of its
ancestor candidates.  The same holds of the final filtered component
list. -/
theorem merged_candidates_nodup_sorted (doc : HNode) (rootPath : Path) :
    (mergedCandidatePaths doc rootPath).Nodup ∧
    (mergedCandidatePaths doc rootPath).Pairwise
      (fun a b => nodeDepth b ≤ nodeDepth a) ∧
    (mergedCandidatePaths doc rootPath).Pairwise
      (fun a b => ¬(a <+: b ∧ a ≠ b)) ∧
    (collectBodyComponents doc rootPath).Nodup ∧
    (collectBodyComponents doc rootPath).Pairwise
      (fun a b => nodeDepth b ≤ nodeDepth a) := by
  have hn := merged_nodup doc rootPath
  have hs := merged_sorted doc rootPath
  have hanc : (mergedCandidatePaths doc rootPath).Pairwise
      (fun a b => ¬(a <+: b ∧ a ≠ b)) := by
    refine hs.imp ?_
    intro a b hle
    rintro ⟨hpre, hne⟩
    have hlen : a.length ≤ b.length := hpre.length_le
    have : a.length = b.length := Nat.le_antisymm hlen hle
    exact hne (List.IsPrefix.eq_of_length hpre this)
  refine ⟨hn, hs, hanc, ?_, ?_⟩
  · exact hn.sublist (List.filter_sublist _)
  · exact hs.sublist (List.filter_sublist _)

/-! ## C5: the no-candidate paths -/

theorem no_candidates_returns_input (format : Str → Option Str) (htmlContent : Str)
    (doc : HNode)
    (h : ∀ bodyPath body, findElementPathD doc (str "body") = some bodyPath →
      getNode doc bodyPath = some body →
      collectBodyComponents doc (bodyPath ++ selectComponentRoot body) = []) :
    generateEJSViews format htmlContent doc = ⟨htmlContent, []⟩ := by
  cases hf : findElementPathD doc (str "body") with
  | none => unfold generateEJSViews; rw [hf]
  | some bp =>
    cases hg : getNode doc bp with
    | none => unfold generateEJSViews; simp only [hf, hg]
    | some body =>
      unfold generateEJSViews
      simp only [hf, hg, h bp body hf hg]
      rfl

/-- C5 counterexample — On the parsed input `hello` no candidate qualifies;
view generation returns the empty partial map together with the *raw* input
string, which differs from the formatter's output on that document: the
returned main document does not equal the formatted input. -/
theorem claim_C5_counterexample :
    (generateEJSViews fmtIdF (str "hello") docHello).main = str "hello" ∧
    (generateEJSViews fmtIdF (str "hello") docHello).parts = [] ∧
    formatTree docHello ≠ str "hello" := by
  refine ⟨by decide, by decide, by decide⟩

/-- C5 (amended) — When no candidate qualifies (or the document has no
body), view generation succeeds with an empty partial map and the caller
receives the input document unchanged: the returned main document equals
the input string itself (the formatter is not applied on this path). -/
theorem claim_C5_no_candidates (format : Str → Option Str) (htmlContent : Str) (doc : HNode)
    (h : ∀ bodyPath body, findElementPathD doc (str "body") = some bodyPath →
      getNode doc bodyPath = some body →
      collectBodyComponents doc (bodyPath ++ selectComponentRoot body) = []) :
    generateEJSViews format htmlContent doc = ⟨htmlContent, []⟩ :=
  no_candidates_returns_input format htmlContent doc h

/-- Witness for C5 at the concrete document `docHello`. -/
theorem claim_C5_no_candidates_witness :
    generateEJSViews fmtIdF (str "hello") docHello = ⟨str "hello", []⟩ :=
  claim_C5_no_candidates fmtIdF (str "hello") docHello (by
    intro bp body hf hg
    have hbp : bp = [0, 1] := by
      have : some ([0, 1] : Path) = some bp := by
        rw [← hf]; rfl
      simpa using this.symm
    subst hbp
    have hb : some body = some (elemN "body" [] [textN "hello"]) := by
      rw [← hg]; rfl
    have hbody : body = elemN "body" [] [textN "hello"] := by
      injection hb
    subst hbody
    decide)

/-! ## C8: sibling sections and the depth-limited boundary walk -/

/-- C8 counterexample — `docDeepSections` contains two sibling `<section>`
elements (children 0 and 1 of the node at path `[0,1,0,0,0,0]`, hence at the
same depth), yet top-level candidate selection at the selected component
root yields exactly one candidate, and the whole candidate pass yields one
component: the sections sit below the depth-5 boundary walk, so the claimed
"at least two top-level candidates" fails. -/
theorem claim_C8_counterexample :
    (HNode.data <$> getNode docDeepSections [0, 1, 0, 0, 0, 0, 0, 0] = some (str "section")) ∧
    (HNode.data <$> getNode docDeepSections [0, 1, 0, 0, 0, 0, 0, 1] = some (str "section")) ∧
    (HNode.ntype <$> getNode docDeepSections [0, 1, 0, 0, 0, 0, 0, 0] = some NType.elementNode) ∧
    (HNode.ntype <$> getNode docDeepSections [0, 1, 0, 0, 0, 0, 0, 1] = some NType.elementNode) ∧
    ((match getNode docDeepSections [0, 1] with
      | some body =>
        match getNode docDeepSections ([0, 1] ++ selectComponentRoot body) with
        | some root => (selectComponentNodes root).length
        | none => 99
      | none => 99) = 1) ∧
    (collectBodyComponents docDeepSections [0, 1]).length = 1 := by
  refine ⟨by decide, by decide, by decide, by decide, by decide, by decide⟩

/-- C8 (amended) — When the depth-limited walk (depth < 5 from the selected
component root) finds two or more section boundaries, exactly those
boundaries, in walk order, are the top-level candidate set.  The
unconditional "≥ 2 sibling sections yield ≥ 2 candidates" holds only for
sections within the walk's depth limit. -/
theorem claim_C8_boundaries_used (root : HNode)
    (h : (collectSectionComponents root 5).length > 1) :
    selectComponentNodes root = collectSectionComponents root 5 := by
  unfold selectComponentNodes
  simp only [if_pos h]

/-- Witness for C8 at a body with two shallow sibling sections. -/
theorem claim_C8_boundaries_used_witness :
    (collectSectionComponents (elemN "body" [] [secN "a" "x", secN "b" "y"]) 5).length > 1 ∧
    selectComponentNodes (elemN "body" [] [secN "a" "x", secN "b" "y"]) =
      collectSectionComponents (elemN "body" [] [secN "a" "x", secN "b" "y"]) 5 :=
  ⟨by decide, claim_C8_boundaries_used (elemN "body" [] [secN "a" "x", secN "b" "y"]) (by decide)⟩

/-! ## C6 and C7: the nested-selection rules -/

/-- C6 counterexample — `<button class="wrapper">Go</button>` is a clickable
control (`isButtonElement` holds), yet it is not selected as a nested
candidate: the layout-container exclusion runs before the button rule, so
selection is not unconditional "regardless of any other classes". -/
theorem claim_C6_counterexample :
    isButtonElement btnWrapper = true ∧
    (∀ c : Nat, c ≤ 5 → shouldSelectNestedComponent btnWrapper c = false) ∧
    collectNestedComponentsInRoot (elemN "div" [] [btnWrapper]) 6 = [] := by
  refine ⟨by decide, by decide, by decide⟩

/-- C6 (amended) — A clickable control (button tag, `role="button"`, or
anchor with a button/btn class) that survives the unconditional exclusions
— it is a content element, not embed-only, and not a layout container
lacking a component keyword — is selected regardless of its pattern
frequency and content size. -/
theorem claim_C6_button_selected (n : HNode) (c : Nat)
    (h₁ : isNonContentElement n = false) (h₂ : isEmbedOnlyNode n = false)
    (h₃ : isLayoutContainer n = true → hasComponentKeyword n = true)
    (hb : isButtonElement n = true) :
    shouldSelectNestedComponent n c = true := by
  unfold shouldSelectNestedComponent
  cases hl : isLayoutContainer n with
  | false => simp [h₁, h₂, hl, hb]
  | true => simp [h₁, h₂, hl, h₃ hl, hb]

/-- Witness for C6 at a plain `<button>` element. -/
theorem claim_C6_button_selected_witness :
    isNonContentElement plainButton = false ∧ isEmbedOnlyNode plainButton = false ∧
    isButtonElement plainButton = true ∧
    shouldSelectNestedComponent plainButton 0 = true :=
  ⟨by decide, by decide, by decide,
    claim_C6_button_selected plainButton 0 (by decide) (by decide)
      (by intro h; exact absurd h (by decide)) (by decide)⟩

/-- C7 counterexample — `<div class="card">abcdefghij</div>` matches the
component-keyword list, has no element child and exactly 10 trimmed text
characters, yet is not selected: the source requires strictly more than 10
characters, not "at least 10". -/
theorem claim_C7_counterexample :
    hasComponentKeyword cardTen = true ∧
    elementChildCount cardTen = 0 ∧
    nodeTextLength cardTen = 10 ∧
    (∀ c : Nat, c ≤ 5 → shouldSelectNestedComponent cardTen c = false) ∧
    collectNestedComponentsInRoot (elemN "div" [] [cardTen]) 6 = [] := by
  refine ⟨by decide, by decide, by decide, by decide, by decide⟩

/-- C7 (amended) — A nested descendant that is a content element, not
embed-only, and whose class or id matches the component-keyword list is
selected whenever it has at least one element child or strictly more than
10 trimmed text characters (at exactly 10 characters and no element child
it is not selected). -/
theorem claim_C7_keyword_selected (n : HNode) (c : Nat)
    (h₁ : isNonContentElement n = false) (h₂ : isEmbedOnlyNode n = false)
    (hk : hasComponentKeyword n = true)
    (hc : elementChildCount n > 0 ∨ nodeTextLength n > 10) :
    shouldSelectNestedComponent n c = true := by
  unfold shouldSelectNestedComponent
  cases hb : isButtonElement n with
  | true => simp [h₁, h₂, hk, hb]
  | false =>
    rcases hc with hc | hc
    · simp [h₁, h₂, hk, hb, hc]
    · simp [h₁, h₂, hk, hb, Nat.lt_of_lt_of_le (by omega : (10:Nat) < 11) hc]

/-- Witness for C7 at a keyword node with 11 trimmed text characters. -/
theorem claim_C7_keyword_selected_witness :
    hasComponentKeyword cardEleven = true ∧ nodeTextLength cardEleven = 11 ∧
    shouldSelectNestedComponent cardEleven 0 = true :=
  ⟨by decide, by decide,
    claim_C7_keyword_selected cardEleven 0 (by decide) (by decide) (by decide)
      (Or.inr (by decide))⟩

/-! ## C9: slug structure of generated names -/

theorem isSlugChar_ne_dash {c : Char} (h : isSlugChar c = true) : c ≠ '-' := by
  intro hc
  subst hc
  exact absurd h (by decide)

theorem noDD_iff_chain (s : Str) :
    noDoubleDash s = true ↔ List.Chain' (fun a b : Char => ¬(a = '-' ∧ b = '-')) s := by
  induction s with
  | nil => simp [noDoubleDash]
  | cons a t ih =>
    cases t with
    | nil => simp [noDoubleDash]
    | cons b t' =>
      rw [noDoubleDash, List.chain'_cons, Bool.and_eq_true, ← ih]
      constructor
      · rintro ⟨h₁, h₂⟩
        refine ⟨?_, h₂⟩
        rintro ⟨rfl, rfl⟩
        simp at h₁
      · rintro ⟨h₁, h₂⟩
        refine ⟨?_, h₂⟩
        simp only [Bool.not_eq_true', Bool.and_eq_false_iff, beq_eq_false_iff_ne]
        by_cases ha : a = '-'
        · right; intro hb; exact h₁ ⟨ha, hb⟩
        · left; exact ha

theorem chain_dash_symm {l : List Char}
    (h : List.Chain' (fun a b : Char => ¬(a = '-' ∧ b = '-')) l) :
    List.Chain' (flip (fun a b : Char => ¬(a = '-' ∧ b = '-'))) l :=
  h.imp (fun _ _ hr => fun hh => hr ⟨hh.2, hh.1⟩)

theorem noDD_reverse {s : Str} (h : noDoubleDash s = true) :
    noDoubleDash s.reverse = true := by
  rw [noDD_iff_chain] at h ⊢
  exact List.chain'_reverse.mpr (chain_dash_symm h)

theorem noDD_dropWhile {s : Str} (p : Char → Bool) (h : noDoubleDash s = true) :
    noDoubleDash (s.dropWhile p) = true := by
  rw [noDD_iff_chain] at h ⊢
  exact h.suffix (List.dropWhile_suffix p)

/-- Characters of `trimDashes s` come from `s`. -/
theorem trimDashes_mem {s : Str} {c : Char} (h : c ∈ trimDashes s) : c ∈ s := by
  unfold trimDashes at h
  rw [List.mem_reverse] at h
  have h₁ := (List.dropWhile_sublist (l := (s.dropWhile (fun c => c == '-')).reverse)
    (fun c => c == '-')).mem h
  rw [List.mem_reverse] at h₁
  exact (List.dropWhile_sublist (fun c => c == '-')).mem h₁

theorem trimDashes_head {s : Str} :
    (trimDashes s).head? ≠ some '-' := by
  unfold trimDashes
  rw [List.head?_reverse]
  intro hlast
  have hsuf := List.dropWhile_suffix (l := (s.dropWhile (fun c => c == '-')).reverse)
    (fun c => c == '-')
  rcases hsuf with ⟨pre, heq⟩
  have hne : (s.dropWhile (fun c => c == '-')).reverse.dropWhile (fun c => c == '-') ≠ [] := by
    intro hnil
    rw [hnil] at hlast
    simp at hlast
  have hlast2 : ((s.dropWhile (fun c => c == '-')).reverse).getLast? = some '-' := by
    rw [← heq, List.getLast?_append]
    cases hg : ((s.dropWhile (fun c => c == '-')).reverse.dropWhile (fun c => c == '-')).getLast? with
    | none =>
      rw [hg] at hlast
      exact absurd hlast (by simp)
    | some x =>
      rw [hg] at hlast
      have hx : x = '-' := by simpa using hlast
      subst hx
      rfl
  rw [List.getLast?_reverse] at hlast2
  have := List.head?_dropWhile_not (fun c => c == '-') s
  rw [hlast2] at this
  simp at this

theorem trimDashes_last {s : Str} :
    (trimDashes s).getLast? ≠ some '-' := by
  unfold trimDashes
  rw [List.getLast?_reverse]
  intro hh
  have := List.head?_dropWhile_not (fun c => c == '-')
    ((s.dropWhile (fun c => c == '-')).reverse)
  rw [hh] at this
  simp at this

theorem trimDashes_noDD {s : Str} (h : noDoubleDash s = true) :
    noDoubleDash (trimDashes s) = true := by
  unfold trimDashes
  exact noDD_reverse (noDD_dropWhile _ (noDD_reverse (noDD_dropWhile _ h)))

theorem sanitizeAux_chars : ∀ (s : Str) (b : Bool) (c : Char),
    c ∈ sanitizeAux s b → isSlugChar c = true ∨ c = '-' := by
  intro s
  induction s with
  | nil => intro b c h; simp [sanitizeAux] at h
  | cons r rest ih =>
    intro b c h
    rw [sanitizeAux] at h
    by_cases h₁ : ('a' ≤ (if 'A' ≤ r ∧ r ≤ 'Z' then Char.ofNat (r.toNat - 65 + 97) else r) ∧
        (if 'A' ≤ r ∧ r ≤ 'Z' then Char.ofNat (r.toNat - 65 + 97) else r) ≤ 'z') ∨
        ('0' ≤ (if 'A' ≤ r ∧ r ≤ 'Z' then Char.ofNat (r.toNat - 65 + 97) else r) ∧
        (if 'A' ≤ r ∧ r ≤ 'Z' then Char.ofNat (r.toNat - 65 + 97) else r) ≤ '9')
    · rw [if_pos h₁] at h
      rcases List.mem_cons.mp h with rfl | h₂
      · left
        simp only [isSlugChar, Bool.or_eq_true, Bool.and_eq_true, decide_eq_true_eq]
        rcases h₁ with h₁ | h₁
        · left; exact h₁
        · right; exact h₁
      · exact ih false c h₂
    · rw [if_neg h₁] at h
      cases b with
      | false =>
        rw [if_pos (by rfl)] at h
        rcases List.mem_cons.mp h with rfl | h₃
        · right; rfl
        · exact ih true c h₃
      | true =>
        rw [if_neg (by simp)] at h
        exact ih true c h

theorem sanitizeAux_noDD : ∀ s : Str,
    (noDoubleDash (sanitizeAux s false) = true ∧
     noDoubleDash (sanitizeAux s true) = true ∧
     (sanitizeAux s true).head? ≠ some '-') := by
  intro s
  have noDD_cons_ok : ∀ (x : Char) (l : Str), x ≠ '-' → noDoubleDash l = true →
      noDoubleDash (x :: l) = true := by
    intro x l hx hl
    cases l with
    | nil => rfl
    | cons y t =>
      rw [noDoubleDash, Bool.and_eq_true]
      refine ⟨?_, hl⟩
      simp only [Bool.not_eq_true', Bool.and_eq_false_iff, beq_eq_false_iff_ne]
      left; exact hx
  have noDD_dash_cons : ∀ l : Str, l.head? ≠ some '-' → noDoubleDash l = true →
      noDoubleDash ('-' :: l) = true := by
    intro l hh hl
    cases l with
    | nil => rfl
    | cons y t =>
      rw [noDoubleDash, Bool.and_eq_true]
      refine ⟨?_, hl⟩
      simp only [Bool.not_eq_true', Bool.and_eq_false_iff, beq_eq_false_iff_ne]
      right
      intro hy
      exact hh (by rw [hy]; rfl)
  induction s with
  | nil => exact ⟨rfl, rfl, by simp [sanitizeAux]⟩
  | cons r rest ih =>
    obtain ⟨ihF, ihT, ihH⟩ := ih
    constructor
    · rw [sanitizeAux]
      by_cases h₁ : ('a' ≤ (if 'A' ≤ r ∧ r ≤ 'Z' then Char.ofNat (r.toNat - 65 + 97) else r) ∧
          (if 'A' ≤ r ∧ r ≤ 'Z' then Char.ofNat (r.toNat - 65 + 97) else r) ≤ 'z') ∨
          ('0' ≤ (if 'A' ≤ r ∧ r ≤ 'Z' then Char.ofNat (r.toNat - 65 + 97) else r) ∧
          (if 'A' ≤ r ∧ r ≤ 'Z' then Char.ofNat (r.toNat - 65 + 97) else r) ≤ '9')
      · rw [if_pos h₁]
        refine noDD_cons_ok _ _ ?_ ihF
        apply isSlugChar_ne_dash
        simp only [isSlugChar, Bool.or_eq_true, Bool.and_eq_true, decide_eq_true_eq]
        exact h₁
      · rw [if_neg h₁]
        rw [if_pos (by rfl)]
        exact noDD_dash_cons _ ihH ihT
    constructor
    · rw [sanitizeAux]
      by_cases h₁ : ('a' ≤ (if 'A' ≤ r ∧ r ≤ 'Z' then Char.ofNat (r.toNat - 65 + 97) else r) ∧
          (if 'A' ≤ r ∧ r ≤ 'Z' then Char.ofNat (r.toNat - 65 + 97) else r) ≤ 'z') ∨
          ('0' ≤ (if 'A' ≤ r ∧ r ≤ 'Z' then Char.ofNat (r.toNat - 65 + 97) else r) ∧
          (if 'A' ≤ r ∧ r ≤ 'Z' then Char.ofNat (r.toNat - 65 + 97) else r) ≤ '9')
      · rw [if_pos h₁]
        refine noDD_cons_ok _ _ ?_ ihF
        apply isSlugChar_ne_dash
        simp only [isSlugChar, Bool.or_eq_true, Bool.and_eq_true, decide_eq_true_eq]
        exact h₁
      · rw [if_neg h₁]
        rw [if_neg (by simp)]
        exact ihT
    · rw [sanitizeAux]
      by_cases h₁ : ('a' ≤ (if 'A' ≤ r ∧ r ≤ 'Z' then Char.ofNat (r.toNat - 65 + 97) else r) ∧
          (if 'A' ≤ r ∧ r ≤ 'Z' then Char.ofNat (r.toNat - 65 + 97) else r) ≤ 'z') ∨
          ('0' ≤ (if 'A' ≤ r ∧ r ≤ 'Z' then Char.ofNat (r.toNat - 65 + 97) else r) ∧
          (if 'A' ≤ r ∧ r ≤ 'Z' then Char.ofNat (r.toNat - 65 + 97) else r) ≤ '9')
      · rw [if_pos h₁]
        intro hh
        have : (if 'A' ≤ r ∧ r ≤ 'Z' then Char.ofNat (r.toNat - 65 + 97) else r) = '-' := by
          simpa using hh
        refine isSlugChar_ne_dash ?_ this
        simp only [isSlugChar, Bool.or_eq_true, Bool.and_eq_true, decide_eq_true_eq]
        exact h₁
      · rw [if_neg h₁]
        rw [if_neg (by simp)]
        exact ihH

theorem natToDecAux_chars : ∀ (fuel n : Nat) (acc : Str) (c : Char),
    c ∈ natToDecAux fuel n acc → isSlugChar c = true ∨ c ∈ acc := by
  intro fuel
  induction fuel with
  | zero => intro n acc c h; right; exact h
  | succ f ih =>
    intro n acc c h
    rw [natToDecAux] at h
    have hd : isSlugChar (Char.ofNat (48 + n % 10)) = true := by
      have h10 : n % 10 < 10 := Nat.mod_lt _ (by omega)
      interval_cases h : n % 10 <;> decide
    by_cases hn : n < 10
    · rw [if_pos hn] at h
      rcases List.mem_cons.mp h with rfl | h₂
      · left; exact hd
      · right; exact h₂
    · rw [if_neg hn] at h
      rcases ih (n / 10) _ c h with h₂ | h₂
      · left; exact h₂
      · rcases List.mem_cons.mp h₂ with rfl | h₃
        · left; exact hd
        · right; exact h₃

theorem natToDecAux_ne_nil : ∀ (fuel n : Nat) (acc : Str),
    acc ≠ [] ∨ fuel ≠ 0 → natToDecAux fuel n acc ≠ [] := by
  intro fuel
  induction fuel with
  | zero =>
    intro n acc h
    rcases h with h | h
    · exact h
    · exact absurd rfl h
  | succ f ih =>
    intro n acc _
    rw [natToDecAux]
    by_cases hn : n < 10
    · rw [if_pos hn]; simp
    · rw [if_neg hn]
      exact ih (n / 10) _ (Or.inl (by simp))

theorem natToDec_chars {n : Nat} {c : Char} (h : c ∈ natToDec n) : isSlugChar c = true := by
  rcases natToDecAux_chars (n + 1) n [] c h with h₂ | h₂
  · exact h₂
  · simp at h₂

theorem natToDec_ne_nil (n : Nat) : natToDec n ≠ [] :=
  natToDecAux_ne_nil (n + 1) n [] (Or.inr (by omega))

theorem noDD_of_no_dash {s : Str} (h : ∀ c ∈ s, c ≠ '-') : noDoubleDash s = true := by
  rw [noDD_iff_chain]
  induction s with
  | nil => exact List.chain'_nil
  | cons a t ih =>
    cases t with
    | nil => exact List.chain'_singleton a
    | cons b t' =>
      rw [List.chain'_cons]
      refine ⟨?_, ih (fun c hc => h c (List.mem_cons_of_mem a hc))⟩
      rintro ⟨ha, _⟩
      exact h a (List.mem_cons_self a _) ha

/-- Appending a dash and a nonempty all-slug-char tail to a slug yields a
slug. -/
theorem slug_append_dash (b d : Str) (hb : isSlug b = true) (hd : d ≠ [])
    (hdc : ∀ c ∈ d, isSlugChar c = true) :
    isSlug (b ++ '-' :: d) = true := by
  simp only [isSlug, Bool.and_eq_true, List.all_eq_true, bne_iff_ne, ne_eq,
    Bool.not_eq_true'] at hb ⊢
  obtain ⟨⟨⟨⟨hne, hall⟩, hhead⟩, hlast⟩, hdd⟩ := hb
  have hbne : b ≠ [] := by
    intro hh
    rw [hh] at hne
    simp at hne
  refine ⟨⟨⟨⟨by simp, ?_⟩, ?_⟩, ?_⟩, ?_⟩
  · intro c hc
    rcases List.mem_append.mp hc with hc | hc
    · exact hall c hc
    · rcases List.mem_cons.mp hc with rfl | hc
      · simp
      · simp [hdc c hc]
  · rw [List.head?_append_of_ne_nil _ hbne]
    exact hhead
  · rw [List.getLast?_append]
    intro hx
    have hg : ('-' :: d).getLast? = some '-' := by
      cases hg2 : ('-' :: d).getLast? with
      | none => simp at hg2
      | some x =>
        rw [hg2] at hx
        simpa using hx
    have hg2 : d.getLast? = some '-' := by
      cases d with
      | nil => exact absurd rfl hd
      | cons e t => rw [← List.getLast?_cons_cons (a := '-')]; exact hg
    rcases List.mem_getLast?_eq_getLast (Option.mem_def.mpr hg2) with ⟨hh2, heq2⟩
    have hmem : '-' ∈ d := by
      rw [heq2]
      exact List.getLast_mem hh2
    exact isSlugChar_ne_dash (hdc _ hmem) rfl
  · rw [noDD_iff_chain, List.chain'_append]
    refine ⟨(noDD_iff_chain b).mp hdd, ?_, ?_⟩
    · rw [List.chain'_cons']
      refine ⟨?_, (noDD_iff_chain d).mp (noDD_of_no_dash (fun c hc => isSlugChar_ne_dash (hdc c hc)))⟩
      intro y hy
      rintro ⟨_, hy'⟩
      exact isSlugChar_ne_dash (hdc y (List.mem_of_mem_head? hy)) hy'
    · intro x hx y _
      rintro ⟨hx', _⟩
      exact hlast (by rw [Option.mem_def.mp hx, hx'])

theorem sanitize_slug (name : Str) (h : sanitizeComponentName name ≠ []) :
    isSlug (sanitizeComponentName name) = true := by
  unfold sanitizeComponentName at h ⊢
  have hchars : ∀ c ∈ trimDashes (sanitizeAux name false), isSlugChar c = true ∨ c = '-' :=
    fun c hc => sanitizeAux_chars name false c (trimDashes_mem hc)
  have hDD := trimDashes_noDD (s := sanitizeAux name false) (sanitizeAux_noDD name).1
  simp only [isSlug, Bool.and_eq_true, List.all_eq_true, bne_iff_ne, ne_eq, Bool.not_eq_true']
  refine ⟨⟨⟨⟨by simpa using h, ?_⟩, trimDashes_head⟩, trimDashes_last⟩, hDD⟩
  intro c hc
  rcases hchars c hc with h₂ | h₂
  · simp [h₂]
  · simp [h₂]

theorem fallback_slug (k : Nat) : isSlug (str "component-" ++ natToDec k) = true := by
  have h1 : str "component-" ++ natToDec k = str "component" ++ '-' :: natToDec k := by
    have h2 : str "component-" = str "component" ++ ['-'] := by decide
    rw [h2, List.append_assoc]
    rfl
  rw [h1]
  exact slug_append_dash _ _ (by decide) (natToDec_ne_nil k) (fun c hc => natToDec_chars hc)

theorem suffixed_slug (b : Str) (hb : isSlug b = true) (k : Nat) :
    isSlug (b ++ str "-" ++ natToDec k) = true := by
  have h1 : b ++ str "-" ++ natToDec k = b ++ '-' :: natToDec k := by
    rw [List.append_assoc]
    rfl
  rw [h1]
  exact slug_append_dash _ _ hb (natToDec_ne_nil k) (fun c hc => natToDec_chars hc)

theorem buildName_general (base : Str) (used : List (Str × Nat)) (hb : isSlug base = true) :
    isSlug (match lookupA used base with
      | some count => (base ++ str "-" ++ natToDec (count + 1), updateA used base (count + 1))
      | none => (base, (base, 1) :: used)).1 = true := by
  cases lookupA used base with
  | some count => exact suffixed_slug _ hb _
  | none => exact hb

theorem buildComponentName_slug (n : HNode) (idx : Nat) (used : List (Str × Nat)) :
    isSlug (buildComponentName n idx used).1 = true := by
  have hbB : isSlug (if (sanitizeComponentName (buildBase n)).isEmpty then
      str "component-" ++ natToDec (idx + 1) else sanitizeComponentName (buildBase n)) = true := by
    by_cases hE : (sanitizeComponentName (buildBase n)).isEmpty = true
    · rw [if_pos hE]
      exact fallback_slug (idx + 1)
    · rw [if_neg hE]
      refine sanitize_slug _ (fun hh => hE ?_)
      rw [hh]
      rfl
  exact buildName_general _ used hbB

theorem lookupA_mem {β : Type} (l : List (Str × β)) (k : Str) (v : β)
    (h : lookupA l k = some v) : ∃ kv ∈ l, kv.2 = v := by
  unfold lookupA at h
  cases hf : l.find? (fun kv => kv.1 == k) with
  | none => rw [hf] at h; exact absurd h (by simp)
  | some kv =>
    rw [hf] at h
    have h2 : some kv.2 = some v := h
    exact ⟨kv, List.mem_of_find?_eq_some hf, Option.some.inj h2⟩

theorem resolveStep_slug_inv (st : ResolveState) (idx : Nat) (p : Path)
    (hres : ∀ e ∈ st.resolved, isSlug e.name = true)
    (hbc : ∀ kv ∈ st.byContent, isSlug kv.2 = true) :
    (∀ e ∈ (resolveStep st idx p).resolved, isSlug e.name = true) ∧
    (∀ kv ∈ (resolveStep st idx p).byContent, isSlug kv.2 = true) := by
  unfold resolveStep
  cases hN : getNode st.tree p with
  | none => exact ⟨hres, hbc⟩
  | some node =>
    simp only
    by_cases hT : (trimSpace (renderNodeHTML node)).isEmpty = true
    · simp only [hT, if_true]
      exact ⟨hres, hbc⟩
    · simp only [hT, if_false]
      cases hL : lookupA st.byContent (trimSpace (renderNodeHTML node)) with
      | some nm =>
        refine ⟨?_, hbc⟩
        intro e he
        rcases List.mem_append.mp he with he | he
        · exact hres e he
        · rcases List.mem_singleton.mp he with rfl
          rcases lookupA_mem _ _ _ hL with ⟨kv, hkv, hkv2⟩
          exact hkv2 ▸ hbc kv hkv
      | none =>
        constructor
        · intro e he
          rcases List.mem_append.mp he with he | he
          · exact hres e he
          · rcases List.mem_singleton.mp he with rfl
            exact buildComponentName_slug node idx st.used
        · intro kv hkv
          rcases List.mem_cons.mp hkv with rfl | hkv
          · exact buildComponentName_slug node idx st.used
          · exact hbc kv hkv

theorem resolved_names_slug (tree : HNode) (comps : List Path) :
    ∀ e ∈ (resolveComponents tree comps).resolved, isSlug e.name = true := by
  unfold resolveComponents
  have h := List.foldlRecOn comps.enum (fun st ip => resolveStep st ip.1 ip.2)
    (⟨[], [], [], tree⟩ : ResolveState)
    (motive := fun st => (∀ e ∈ st.resolved, isSlug e.name = true) ∧
      (∀ kv ∈ st.byContent, isSlug kv.2 = true))
    ⟨by simp, by simp⟩ ?_
  · exact h.1
  · intro st hst ip _
    exact resolveStep_slug_inv st ip.1 ip.2 hst.1 hst.2

theorem buildPartialsMap_keys (resolved : List ResolvedComponent) (reps : List (Str × Str))
    (P : Str → Prop) (hP : ∀ e ∈ resolved, P e.name) :
    ∀ kv ∈ buildPartialsMap resolved reps, P kv.1 := by
  unfold buildPartialsMap
  refine List.foldlRecOn resolved
    (fun acc comp => if acc.any (fun kv => kv.1 == comp.name) then acc
      else acc ++ [(comp.name, applyIncludeReplacements comp.html reps)]) []
    (motive := fun acc => ∀ kv ∈ acc, P kv.1) (by simp) ?_
  intro acc hacc e he
  by_cases hc : acc.any (fun kv => kv.1 == e.name) = true
  · simp only [hc, if_true]
    exact hacc
  · simp only [hc, if_false]
    intro kv hkv
    rcases List.mem_append.mp hkv with hkv | hkv
    · exact hacc kv hkv
    · rcases List.mem_singleton.mp hkv with rfl
      exact hP e he

/-- C9 (amended) — Every partial name produced by an extraction run is a
filesystem-safe slug: nonempty, lowercase letters, digits and single dashes
only, with no leading or trailing dash; when two candidates produce the
same base name the per-run usage counter appends a numeric suffix to the
later one.  Pairwise distinctness, however, does not hold in general (see
the counterexample): a later base name can coincide with an earlier
suffixed name because suffixed names are not recorded in the usage map. -/
theorem claim_C9_names_slug (format : Str → Option Str) (htmlContent : Str) (doc : HNode) :
    ∀ kv ∈ (generateEJSViews format htmlContent doc).parts, isSlug kv.1 = true := by
  cases hf : findElementPathD doc (str "body") with
  | none => unfold generateEJSViews; rw [hf]; simp
  | some bp =>
    cases hg : getNode doc bp with
    | none => unfold generateEJSViews; simp only [hf, hg]; simp
    | some body =>
      unfold generateEJSViews
      simp only [hf, hg]
      by_cases hc : (collectBodyComponents doc (bp ++ selectComponentRoot body)).isEmpty = true
      · rw [if_pos hc]
        simp
      · rw [if_neg hc]
        exact buildPartialsMap_keys _ _ (fun s => isSlug s = true) (resolved_names_slug doc _)

/-- Witness for C9 at the concrete run on `docCollide`. -/
theorem claim_C9_names_slug_witness : isSlug (str "section-b") = true :=
  claim_C9_names_slug fmtNoneF (str "X") docCollide
    (str "section-b",
      applyIncludeReplacements (renderNode (secN "b" "1"))
        (buildIncludeReplacements
          (resolveComponents docCollide (collectBodyComponents docCollide [0, 1])).resolved))
    (by decide)

/-- C9 counterexample — In the run on `docCollide`, candidates 1 and 2 (the
second `section#b` and the first `section#b-2`) have different trimmed
contents yet receive the same name `section-b-2`: the partial names of one
run are not pairwise distinct. -/
theorem claim_C9_counterexample :
    ((resolveComponents docCollide (collectBodyComponents docCollide [0, 1])).resolved.map
      (fun e => e.name)) =
      [str "section-b", str "section-b-2", str "section-b-2", str "section-b-2"] ∧
    (((resolveComponents docCollide (collectBodyComponents docCollide [0, 1])).resolved.map
      (fun e => trimSpace e.html)).get? 1 ≠
     ((resolveComponents docCollide (collectBodyComponents docCollide [0, 1])).resolved.map
      (fun e => trimSpace e.html)).get? 2) ∧
    ¬ ((resolveComponents docCollide (collectBodyComponents docCollide [0, 1])).resolved.map
      (fun e => e.name)).Nodup := by
  refine ⟨by decide, by decide, by decide⟩

/-! ## C1: content-based name reuse -/

theorem lookupA_cons {β : Type} (k0 : Str) (v0 : β) (l : List (Str × β)) (k : Str) :
    lookupA ((k0, v0) :: l) k = if (k0 == k) = true then some v0 else lookupA l k := by
  unfold lookupA
  by_cases h : (k0 == k) = true
  · rw [List.find?_cons_of_pos _ (by simpa using h), if_pos h]
  · rw [List.find?_cons_of_neg _ (by simpa using h), if_neg h]

theorem resolveStep_content_inv (st : ResolveState) (idx : Nat) (p : Path)
    (hinv : ∀ e ∈ st.resolved, lookupA st.byContent (trimSpace e.html) = some e.name) :
    ∀ e ∈ (resolveStep st idx p).resolved,
      lookupA (resolveStep st idx p).byContent (trimSpace e.html) = some e.name := by
  unfold resolveStep
  cases hN : getNode st.tree p with
  | none => exact hinv
  | some node =>
    simp only
    by_cases hT : (trimSpace (renderNodeHTML node)).isEmpty = true
    · simp only [hT, if_true]
      exact hinv
    · simp only [hT, if_false]
      cases hL : lookupA st.byContent (trimSpace (renderNodeHTML node)) with
      | some nm =>
        intro e he
        rcases List.mem_append.mp he with he | he
        · exact hinv e he
        · rcases List.mem_singleton.mp he with rfl
          exact hL
      | none =>
        intro e he
        rcases List.mem_append.mp he with he | he
        · have hne : (trimSpace (renderNodeHTML node) == trimSpace e.html) = false := by
            rw [beq_eq_false_iff_ne]
            intro heq
            have h2 := hinv e he
            rw [← heq, hL] at h2
            exact absurd h2 (by simp)
          show lookupA ((trimSpace (renderNodeHTML node),
              (buildComponentName node idx st.used).1) :: st.byContent)
              (trimSpace e.html) = some e.name
          rw [lookupA_cons, if_neg (by simp [hne])]
          exact hinv e he
        · rcases List.mem_singleton.mp he with rfl
          show lookupA ((trimSpace (renderNodeHTML node),
              (buildComponentName node idx st.used).1) :: st.byContent)
              (trimSpace (renderNodeHTML node)) = some (buildComponentName node idx st.used).1
          rw [lookupA_cons, if_pos (by simp)]

theorem resolved_content_inv (tree : HNode) (comps : List Path) :
    ∀ e ∈ (resolveComponents tree comps).resolved,
      lookupA (resolveComponents tree comps).byContent (trimSpace e.html) = some e.name := by
  unfold resolveComponents
  exact List.foldlRecOn comps.enum (fun st ip => resolveStep st ip.1 ip.2)
    (⟨[], [], [], tree⟩ : ResolveState)
    (motive := fun st => ∀ e ∈ st.resolved, lookupA st.byContent (trimSpace e.html) = some e.name)
    (by simp) (fun st hst ip _ => resolveStep_content_inv st ip.1 ip.2 hst)

theorem buildPartialsMap_keys_nodup (resolved : List ResolvedComponent)
    (reps : List (Str × Str)) :
    ((buildPartialsMap resolved reps).map Prod.fst).Nodup := by
  unfold buildPartialsMap
  refine List.foldlRecOn resolved
    (fun acc comp => if acc.any (fun kv => kv.1 == comp.name) then acc
      else acc ++ [(comp.name, applyIncludeReplacements comp.html reps)]) []
    (motive := fun acc => (acc.map Prod.fst).Nodup) (by simp) ?_
  intro acc hacc e _
  show (List.map Prod.fst (if (acc.any fun kv => kv.1 == e.name) = true then acc
    else acc ++ [(e.name, applyIncludeReplacements e.html reps)])).Nodup
  by_cases hc : acc.any (fun kv => kv.1 == e.name) = true
  · rw [if_pos hc]
    exact hacc
  · rw [if_neg hc, List.map_append]
    rw [List.nodup_append]
    refine ⟨hacc, by simp, ?_⟩
    intro x hx
    simp only [List.map_cons, List.map_nil, List.mem_singleton]
    intro hx2
    apply hc
    rw [List.any_eq_true]
    rcases List.mem_map.mp hx with ⟨kv, hkv, rfl⟩
    exact ⟨kv, hkv, by simp [hx2]⟩

/-- C1 (amended) — Any two extracted candidates whose rendered HTML is
byte-identical after trimming receive the same partial name, and the
returned partials map never contains two entries under the same name (no
second Partial is created for content that already has a name).  However —
see the counterexample — because a name collision with a different-content
candidate is possible, the single entry stored under such a name need not
hold the content of these candidates. -/
theorem claim_C1_content_reuse (tree : HNode) (comps : List Path) (reps : List (Str × Str)) :
    (∀ e₁ ∈ (resolveComponents tree comps).resolved,
     ∀ e₂ ∈ (resolveComponents tree comps).resolved,
      trimSpace e₁.html = trimSpace e₂.html → e₁.name = e₂.name) ∧
    ((buildPartialsMap (resolveComponents tree comps).resolved reps).map Prod.fst).Nodup := by
  refine ⟨?_, buildPartialsMap_keys_nodup _ _⟩
  intro e₁ he₁ e₂ he₂ heq
  have h₁ := resolved_content_inv tree comps e₁ he₁
  have h₂ := resolved_content_inv tree comps e₂ he₂
  rw [heq] at h₁
  rw [h₁] at h₂
  exact Option.some.inj h₂

/-- Witness for C1: the two byte-identical `section#b-2` candidates of
`docCollide` receive the same name. -/
theorem claim_C1_content_reuse_witness :
    (⟨str "section-b-2", renderNode (secN "b-2" "3"), [0, 1, 2]⟩ : ResolvedComponent).name =
    (⟨str "section-b-2", renderNode (secN "b-2" "3"), [0, 1, 3]⟩ : ResolvedComponent).name :=
  (claim_C1_content_reuse docCollide (collectBodyComponents docCollide [0, 1]) []).1
    ⟨str "section-b-2", renderNode (secN "b-2" "3"), [0, 1, 2]⟩ (by decide)
    ⟨str "section-b-2", renderNode (secN "b-2" "3"), [0, 1, 3]⟩ (by decide)
    rfl

/-- C1 counterexample — In the run on `docCollide`, candidates 2 and 3 have
byte-identical rendered HTML, yet the returned partials map contains no
entry holding that content (raw or trimmed): the entry under their shared
name `section-b-2` holds the content of the earlier, different candidate
that collided on the name, so "exactly one entry for that content" fails. -/
theorem claim_C1_counterexample :
    (((resolveComponents docCollide (collectBodyComponents docCollide [0, 1])).resolved.map
       (fun e => e.html)).get? 2 =
     ((resolveComponents docCollide (collectBodyComponents docCollide [0, 1])).resolved.map
       (fun e => e.html)).get? 3) ∧
    ((resolveComponents docCollide (collectBodyComponents docCollide [0, 1])).resolved.map
       (fun e => e.html)).get? 2 = some (renderNode (secN "b-2" "3")) ∧
    ((generateEJSViews fmtNoneF (str "X") docCollide).parts.all
      (fun kv => kv.2 != renderNode (secN "b-2" "3"))) = true ∧
    ((generateEJSViews fmtNoneF (str "X") docCollide).parts.all
      (fun kv => trimSpace kv.2 != trimSpace (renderNode (secN "b-2" "3")))) = true := by
  refine ⟨by decide, by decide, by decide, by decide⟩

/-! ## C10: order-independence of placeholder substitution -/

theorem replaceAllFuel_congr (p : Char) (ps rep : Str) :
    ∀ (f₁ f₂ : Nat) (s : Str), s.length ≤ f₁ → s.length ≤ f₂ →
      replaceAllFuel (p :: ps) rep f₁ s = replaceAllFuel (p :: ps) rep f₂ s := by
  intro f₁
  induction f₁ with
  | zero =>
    intro f₂ s h₁ _
    have hs : s = [] := List.eq_nil_of_length_eq_zero (Nat.le_zero.mp h₁)
    subst hs
    cases f₂ <;> rfl
  | succ f ih =>
    intro f₂ s h₁ h₂
    cases s with
    | nil => cases f₂ <;> rfl
    | cons c rest =>
      cases f₂ with
      | zero => simp at h₂
      | succ f₂' =>
        rw [replaceAllFuel, replaceAllFuel]
        by_cases hp : isPrefixL (p :: ps) (c :: rest) = true
        · rw [if_pos hp, if_pos hp]
          congr 1
          apply ih
          · simp only [List.length_drop, List.length_cons] at h₁ ⊢
            omega
          · simp only [List.length_drop, List.length_cons] at h₂ ⊢
            omega
        · rw [if_neg hp, if_neg hp]
          congr 1
          apply ih
          · simp only [List.length_cons] at h₁
            omega
          · simp only [List.length_cons] at h₂
            omega

theorem replaceAllL_nil (p : Char) (ps rep : Str) : replaceAllL [] (p :: ps) rep = [] := rfl

theorem replaceAllL_cons (p : Char) (ps rep : Str) (c : Char) (rest : Str) :
    replaceAllL (c :: rest) (p :: ps) rep =
      if isPrefixL (p :: ps) (c :: rest) then
        rep ++ replaceAllL ((c :: rest).drop (p :: ps).length) (p :: ps) rep
      else c :: replaceAllL rest (p :: ps) rep := by
  show replaceAllFuel (p :: ps) rep (c :: rest).length (c :: rest) = _
  rw [show (c :: rest).length = rest.length + 1 from rfl, replaceAllFuel]
  by_cases hp : isPrefixL (p :: ps) (c :: rest) = true
  · rw [if_pos hp, if_pos hp]
    congr 1
    apply replaceAllFuel_congr
    · simp only [List.length_drop, List.length_cons]
      omega
    · simp
  · rw [if_neg hp, if_neg hp]
    rfl

/-- `<`-free strings pass through the replacement of a `<`-headed pattern. -/
theorem replaceAllL_passthrough (q rep : Str) :
    ∀ (u v : Str), '<' ∉ u →
      replaceAllL (u ++ v) ('<' :: q) rep = u ++ replaceAllL v ('<' :: q) rep := by
  intro u
  induction u with
  | nil => intro v _; rfl
  | cons c cs ih =>
    intro v hu
    have hc : c ≠ '<' := fun hh => hu (hh ▸ List.mem_cons_self c cs)
    rw [List.cons_append, replaceAllL_cons]
    rw [if_neg (by
      simp only [isPrefixL, Bool.and_eq_true, beq_iff_eq]
      rintro ⟨rfl, _⟩
      exact hc rfl)]
    rw [List.cons_append]
    congr 1
    exact ih v (fun hh => hu (List.mem_cons_of_mem c hh))

theorem joinLT_splitLT (s : Str) : joinLT (splitLT s).1 (splitLT s).2 = s := by
  induction s with
  | nil => rfl
  | cons c rest ih =>
    rw [splitLT]
    by_cases hc : (c == '<') = true
    · rw [if_pos hc]
      have hc' : c = '<' := by simpa using hc
      subst hc'
      show ([] : Str) ++
        (List.map (fun t => '<' :: t) ((splitLT rest).1 :: (splitLT rest).2)).flatten = '<' :: rest
      simp only [List.nil_append, List.map_cons, List.flatten_cons, List.cons_append]
      congr 1
    · rw [if_neg hc]
      simp only [joinLT, List.cons_append] at ih ⊢
      rw [ih]

theorem splitLT_free (s : Str) :
    '<' ∉ (splitLT s).1 ∧ ∀ t ∈ (splitLT s).2, '<' ∉ t := by
  induction s with
  | nil => exact ⟨by simp [splitLT], by simp [splitLT]⟩
  | cons c rest ih =>
    rw [splitLT]
    by_cases hc : (c == '<') = true
    · rw [if_pos hc]
      refine ⟨by simp, ?_⟩
      intro t ht
      rcases List.mem_cons.mp ht with rfl | ht
      · exact ih.1
      · exact ih.2 t ht
    · rw [if_neg hc]
      refine ⟨?_, ih.2⟩
      intro hm
      rcases List.mem_cons.mp hm with rfl | hm
      · simp at hc
      · exact ih.1 hm

theorem isPrefixL_stop (z : Str) (q : Str) (hq : '<' ∉ q) :
    ∀ seg : Str, isPrefixL q (seg ++ '<' :: z) = isPrefixL q seg := by
  induction q with
  | nil => intro seg; cases seg <;> rfl
  | cons a as ih =>
    intro seg
    cases seg with
    | nil =>
      simp only [List.nil_append, isPrefixL, Bool.and_eq_true, beq_iff_eq]
      have ha : a ≠ '<' := fun hh => hq (hh ▸ List.mem_cons_self a as)
      simp [ha]
    | cons b bs =>
      show (a == b && isPrefixL as (bs ++ '<' :: z)) = (a == b && isPrefixL as bs)
      rw [ih (fun hh => hq (List.mem_cons_of_mem a hh)) bs]

theorem isPrefixL_extend (q seg z : Str) (h : isPrefixL q seg = true) :
    isPrefixL q (seg ++ z) = true := by
  rw [isPrefixL_iff] at h ⊢
  exact h.trans (List.prefix_append seg z)

theorem drop_free {u : Str} (n : Nat) (h : '<' ∉ u) : '<' ∉ u.drop n :=
  fun hm => h ((List.drop_sublist n u).mem hm)

/-- The structural core: replacing a `<`-headed pattern by a `<`-headed
replacement acts independently on every `<`-segment. -/
theorem replaceAll_seg (q r : Str) (hq : '<' ∉ q) (_hr : '<' ∉ r) :
    ∀ (segs : List Str) (pre : Str), '<' ∉ pre → (∀ t ∈ segs, '<' ∉ t) →
      replaceAllL (joinLT pre segs) ('<' :: q) ('<' :: r) =
        joinLT pre (segs.map (segRep q r)) := by
  intro segs
  induction segs with
  | nil =>
    intro pre hpre _
    show replaceAllL (pre ++ []) ('<' :: q) ('<' :: r) = pre ++ []
    rw [replaceAllL_passthrough q ('<' :: r) pre [] hpre]
    rfl
  | cons t ts ih =>
    intro pre hpre hsegs
    have hts : ∀ u ∈ ts, '<' ∉ u := fun u hu => hsegs u (List.mem_cons_of_mem t hu)
    have ht : '<' ∉ t := hsegs t (List.mem_cons_self t ts)
    show replaceAllL (pre ++ ('<' :: t ++ (ts.map (fun u => '<' :: u)).flatten))
        ('<' :: q) ('<' :: r) = pre ++ ('<' :: segRep q r t ++
          ((ts.map (segRep q r)).map (fun u => '<' :: u)).flatten)
    rw [replaceAllL_passthrough q ('<' :: r) pre _ hpre]
    congr 1
    have hrest : (ts.map (fun u => '<' :: u)).flatten = joinLT [] ts := rfl
    have hjoin : ((ts.map (segRep q r)).map (fun u => '<' :: u)).flatten =
        joinLT [] (ts.map (segRep q r)) := rfl
    have hih := ih [] (by simp) hts
    rw [List.cons_append, replaceAllL_cons]
    by_cases hp : isPrefixL q t = true
    · have hp2 : isPrefixL ('<' :: q) ('<' :: (t ++ (ts.map (fun u => '<' :: u)).flatten)) = true := by
        show (('<' : Char) == '<' && isPrefixL q (t ++ (ts.map (fun u => '<' :: u)).flatten)) = true
        simp [isPrefixL_extend q t _ hp]
      rw [if_pos hp2]
      have hlen : q.length ≤ t.length := by
        rw [isPrefixL_iff] at hp
        exact hp.length_le
      have hdrop : ('<' :: (t ++ (ts.map (fun u => '<' :: u)).flatten)).drop ('<' :: q).length =
          t.drop q.length ++ (ts.map (fun u => '<' :: u)).flatten := by
        simp only [List.length_cons, List.drop_succ_cons]
        exact List.drop_append_of_le_length hlen
      rw [hdrop]
      rw [replaceAllL_passthrough q ('<' :: r) (t.drop q.length) _ (drop_free _ ht)]
      rw [hrest, hih, segRep, if_pos hp, hjoin]
      simp [joinLT, List.append_assoc]
    · have hpf : isPrefixL q t = false := by
        cases hv : isPrefixL q t with
        | true => exact absurd hv hp
        | false => rfl
      have hfalse : isPrefixL q (t ++ (ts.map (fun u => '<' :: u)).flatten) = false := by
        cases ts with
        | nil => simpa using hpf
        | cons w ws =>
          have : t ++ ((w :: ws).map (fun u => '<' :: u)).flatten =
              t ++ '<' :: (w ++ (ws.map (fun u => '<' :: u)).flatten) := by
            simp
          rw [this, isPrefixL_stop _ q hq t]
          exact hpf
      have hp2 : isPrefixL ('<' :: q) ('<' :: (t ++ (ts.map (fun u => '<' :: u)).flatten)) = false := by
        show (('<' : Char) == '<' && isPrefixL q (t ++ (ts.map (fun u => '<' :: u)).flatten)) = false
        simp [hfalse]
      rw [if_neg (by simp [hp2])]
      rw [replaceAllL_passthrough q ('<' :: r) t _ ht]
      rw [hrest, hih, segRep, if_neg (by simp [hpf]), hjoin]
      simp [joinLT]

theorem segRep_free {q r t : Str} (hr : '<' ∉ r) (ht : '<' ∉ t) : '<' ∉ segRep q r t := by
  unfold segRep
  by_cases hp : isPrefixL q t = true
  · rw [if_pos hp]
    intro hm
    rcases List.mem_append.mp hm with hm | hm
    · exact hr hm
    · exact drop_free _ ht hm
  · rw [if_neg hp]
    exact ht

/-- `applyIncludeReplacements` over `<`-shaped pairs acts segment-wise. -/
theorem applyAll_seg (pairs : List (Str × Str))
    (hsh : ∀ pr ∈ pairs, ∃ q r, pr = ('<' :: q, '<' :: r) ∧ '<' ∉ q ∧ '<' ∉ r) :
    ∀ (segs : List Str) (pre : Str), '<' ∉ pre → (∀ t ∈ segs, '<' ∉ t) →
      applyIncludeReplacements (joinLT pre segs) pairs =
        joinLT pre (segs.map (fun t =>
          pairs.foldl (fun u pr => segRep pr.1.tail pr.2.tail u) t)) := by
  induction pairs with
  | nil =>
    intro segs pre _ _
    show joinLT pre segs = joinLT pre (segs.map (fun t => t))
    rw [List.map_id']
  | cons pr rest ih =>
    intro segs pre hpre hsegs
    rcases hsh pr (List.mem_cons_self pr rest) with ⟨q, r, rfl, hq, hr⟩
    show applyIncludeReplacements
      (replaceAllL (joinLT pre segs) ('<' :: q) ('<' :: r)) rest = _
    rw [replaceAll_seg q r hq hr segs pre hpre hsegs]
    rw [ih (fun x hx => hsh x (List.mem_cons_of_mem _ hx)) (segs.map (segRep q r)) pre hpre
      (fun t htm => by
        rcases List.mem_map.mp htm with ⟨u, hu, rfl⟩
        exact segRep_free hr (hsegs u hu))]
    rw [List.map_map]
    rfl

/-- Two slugs whose marker suffixes are prefix-related (allowing extra
trailing text on the longer side) are equal: slug structure rules out both
the double-dash and the trailing-dash completions. -/
theorem prefix_getElemOpt {α : Type} {l₁ l₂ : List α} (h : l₁ <+: l₂) (i : Nat)
    (hi : i < l₁.length) : l₂[i]? = l₁[i]? := by
  rcases h with ⟨u, rfl⟩
  exact List.getElem?_append_left hi

theorem slug_marker_eq (n₁ n₂ t : Str) (h₁ : isSlug n₁ = true) (h₂ : isSlug n₂ = true)
    (hp : n₂ ++ str "-->" <+: n₁ ++ str "-->" ++ t) : n₂ = n₁ := by
  simp only [isSlug, Bool.and_eq_true, List.all_eq_true, bne_iff_ne, ne_eq,
    Bool.not_eq_true'] at h₁ h₂
  obtain ⟨⟨⟨⟨hne₁, _⟩, _⟩, hlast₁⟩, hdd₁⟩ := h₁
  obtain ⟨⟨⟨⟨hne₂, _⟩, _⟩, hlast₂⟩, hdd₂⟩ := h₂
  have hlen3 : (str "-->").length = 3 := by decide
  have hB : n₁ ++ str "-->" ++ t = n₁ ++ (str "-->" ++ t) := List.append_assoc _ _ _
  -- generic: a dash sits at positions |n₂| and |n₂|+1 of the left side
  have hAd0 : (n₂ ++ str "-->")[n₂.length]? = some '-' := by
    rw [List.getElem?_append_right (Nat.le_refl _)]
    simp [str]
  have hAd1 : (n₂ ++ str "-->")[n₂.length + 1]? = some '-' := by
    rw [List.getElem?_append_right (by omega)]
    have hh : n₂.length + 1 - n₂.length = 1 := by omega
    rw [hh]
    simp [str]
  rcases Nat.lt_trichotomy n₂.length n₁.length with hlt | heq | hgt
  · exfalso
    have hch₁ := (noDD_iff_chain n₁).mp hdd₁
    have hd0 : n₁[n₂.length]? = some '-' := by
      have e2 := prefix_getElemOpt hp n₂.length (by rw [List.length_append, hlen3]; omega)
      rw [hB, List.getElem?_append_left (by omega)] at e2
      rw [e2, hAd0]
    rcases Nat.lt_or_ge (n₂.length + 1) n₁.length with hlt2 | hge2
    · have hd1 : n₁[n₂.length + 1]? = some '-' := by
        have e2 := prefix_getElemOpt hp (n₂.length + 1) (by rw [List.length_append, hlen3]; omega)
        rw [hB, List.getElem?_append_left (by omega)] at e2
        rw [e2, hAd1]
      rw [List.chain'_iff_get] at hch₁
      refine hch₁ n₂.length (by omega) ⟨?_, ?_⟩
      · have := List.getElem?_eq_getElem (l := n₁) (show n₂.length < n₁.length by omega)
        rw [this] at hd0
        simpa using hd0
      · have := List.getElem?_eq_getElem (l := n₁) (show n₂.length + 1 < n₁.length by omega)
        rw [this] at hd1
        simpa using hd1
    · apply hlast₁
      rw [List.getLast?_eq_getElem?]
      have hh : n₁.length - 1 = n₂.length := by omega
      rw [hh, hd0]
  · apply List.ext_getElem?
    intro i
    rcases Nat.lt_or_ge i n₂.length with hi | hi
    · have e2 := prefix_getElemOpt hp i (by rw [List.length_append, hlen3]; omega)
      rw [hB, List.getElem?_append_left (show i < n₁.length by omega),
        List.getElem?_append_left (show i < n₂.length by omega)] at e2
      exact e2.symm
    · rw [List.getElem?_eq_none (by omega), List.getElem?_eq_none (by omega)]
  · exfalso
    have hch₂ := (noDD_iff_chain n₂).mp hdd₂
    have hd0 : n₂[n₁.length]? = some '-' := by
      have e2 := prefix_getElemOpt hp n₁.length (by rw [List.length_append, hlen3]; omega)
      rw [hB, List.getElem?_append_right (Nat.le_refl _)] at e2
      rw [List.getElem?_append_left (show n₁.length < n₂.length by omega)] at e2
      rw [← e2]
      simp [str]
    rcases Nat.lt_or_ge (n₁.length + 1) n₂.length with hlt2 | hge2
    · have hd1 : n₂[n₁.length + 1]? = some '-' := by
        have e2 := prefix_getElemOpt hp (n₁.length + 1) (by rw [List.length_append, hlen3]; omega)
        rw [hB, List.getElem?_append_right (by omega)] at e2
        rw [List.getElem?_append_left (show n₁.length + 1 < n₂.length by omega)] at e2
        rw [← e2]
        have hh : n₁.length + 1 - n₁.length = 1 := by omega
        rw [hh]
        simp [str]
      rw [List.chain'_iff_get] at hch₂
      refine hch₂ n₁.length (by omega) ⟨?_, ?_⟩
      · have := List.getElem?_eq_getElem (l := n₂) (show n₁.length < n₂.length by omega)
        rw [this] at hd0
        simpa using hd0
      · have := List.getElem?_eq_getElem (l := n₂) (show n₁.length + 1 < n₂.length by omega)
        rw [this] at hd1
        simpa using hd1
    · apply hlast₂
      rw [List.getLast?_eq_getElem?]
      have hh : n₂.length - 1 = n₁.length := by omega
      rw [hh, hd0]

theorem isPrefixL_head_ne {q u : Str} {a b : Char} (hq : q.head? = some a)
    (hu : u.head? = some b) (hab : a ≠ b) : isPrefixL q u = false := by
  cases q with
  | nil => simp at hq
  | cons x xs =>
    cases u with
    | nil => rfl
    | cons y ys =>
      have hx : x = a := by simpa using hq
      have hy : y = b := by simpa using hu
      show (x == y && isPrefixL xs ys) = false
      have hxy : x ≠ y := by
        rw [hx, hy]
        exact hab
      simp [hxy]

theorem segRep_comm (q₁ r₁ q₂ r₂ t : Str)
    (hq₁₂ : ¬ q₁ <+: q₂) (hq₂₁ : ¬ q₂ <+: q₁)
    (hh₁ : q₁.head? = some '!') (hh₂ : q₂.head? = some '!')
    (hrh₁ : r₁.head? = some '%') (hrh₂ : r₂.head? = some '%') :
    segRep q₁ r₁ (segRep q₂ r₂ t) = segRep q₂ r₂ (segRep q₁ r₁ t) := by
  have hr₁ne : r₁ ≠ [] := by intro hh; rw [hh] at hrh₁; simp at hrh₁
  have hr₂ne : r₂ ≠ [] := by intro hh; rw [hh] at hrh₂; simp at hrh₂
  by_cases hp₂ : isPrefixL q₂ t = true
  · by_cases hp₁ : isPrefixL q₁ t = true
    · exfalso
      rw [isPrefixL_iff] at hp₁ hp₂
      rcases prefixTotal hp₁ hp₂ with h | h
      · exact hq₁₂ h
      · exact hq₂₁ h
    · have hpf₁ : isPrefixL q₁ t = false := by
        cases hv : isPrefixL q₁ t with
        | true => exact absurd hv hp₁
        | false => rfl
      have hnop : isPrefixL q₁ (r₂ ++ t.drop q₂.length) = false := by
        refine isPrefixL_head_ne (a := '!') (b := '%') hh₁ ?_ (by decide)
        rw [List.head?_append_of_ne_nil _ hr₂ne]
        exact hrh₂
      have e₂ : segRep q₂ r₂ t = r₂ ++ t.drop q₂.length := by
        unfold segRep
        rw [if_pos hp₂]
      have e₁ : segRep q₁ r₁ t = t := by
        unfold segRep
        rw [if_neg (by simp [hpf₁])]
      rw [e₂, e₁, e₂]
      unfold segRep
      rw [if_neg (by simp [hnop])]
  · have hpf₂ : isPrefixL q₂ t = false := by
      cases hv : isPrefixL q₂ t with
      | true => exact absurd hv hp₂
      | false => rfl
    have e₂ : segRep q₂ r₂ t = t := by
      unfold segRep
      rw [if_neg (by simp [hpf₂])]
    by_cases hp₁ : isPrefixL q₁ t = true
    · have hnop : isPrefixL q₂ (r₁ ++ t.drop q₁.length) = false := by
        refine isPrefixL_head_ne (a := '!') (b := '%') hh₂ ?_ (by decide)
        rw [List.head?_append_of_ne_nil _ hr₁ne]
        exact hrh₁
      have e₁ : segRep q₁ r₁ t = r₁ ++ t.drop q₁.length := by
        unfold segRep
        rw [if_pos hp₁]
      rw [e₂, e₁]
      unfold segRep
      rw [if_neg (by simp [hnop])]
    · have hpf₁ : isPrefixL q₁ t = false := by
        cases hv : isPrefixL q₁ t with
        | true => exact absurd hv hp₁
        | false => rfl
      have e₁ : segRep q₁ r₁ t = t := by
        unfold segRep
        rw [if_neg (by simp [hpf₁])]
      rw [e₂, e₁, e₂]

theorem foldl_comm_perm {α β : Type} (f : β → α → β) :
    ∀ {l₁ l₂ : List α}, l₁.Perm l₂ →
      (∀ a ∈ l₁, ∀ b ∈ l₁, ∀ s : β, f (f s a) b = f (f s b) a) →
      ∀ init : β, l₁.foldl f init = l₂.foldl f init := by
  intro l₁ l₂ hperm
  induction hperm with
  | nil => intro _ _; rfl
  | cons x _ ih =>
    intro hcomm init
    simp only [List.foldl_cons]
    exact ih (fun a ha b hb s =>
      hcomm a (List.mem_cons_of_mem x ha) b (List.mem_cons_of_mem x hb) s) (f init x)
  | swap x y l =>
    intro hcomm init
    simp only [List.foldl_cons]
    rw [hcomm y (by simp) x (by simp) init]
  | trans h₁ _ ih₁ ih₂ =>
    intro hcomm init
    rw [ih₁ hcomm init]
    exact ih₂ (fun a ha b hb s =>
      hcomm a (h₁.mem_iff.mpr ha) b (h₁.mem_iff.mpr hb) s) init

theorem buildIncludeReplacements_mem (components : List ResolvedComponent) :
    ∀ pr ∈ buildIncludeReplacements components,
      ∃ e ∈ components, pr = (placeholderFor e.name, includeFor e.name) := by
  unfold buildIncludeReplacements
  refine List.foldlRecOn components
    (fun acc comp =>
      if acc.any (fun pr => pr.1 == placeholderFor comp.name) then acc
      else acc ++ [(placeholderFor comp.name, includeFor comp.name)])
    []
    (motive := fun acc => ∀ pr ∈ acc,
      ∃ e ∈ components, pr = (placeholderFor e.name, includeFor e.name)) (by simp) ?_
  intro acc hacc e he
  show ∀ pr ∈ (if acc.any (fun pr => pr.1 == placeholderFor e.name) then acc
    else acc ++ [(placeholderFor e.name, includeFor e.name)]), _
  by_cases hc : acc.any (fun pr => pr.1 == placeholderFor e.name) = true
  · rw [if_pos hc]
    exact hacc
  · rw [if_neg hc]
    intro pr hpr
    rcases List.mem_append.mp hpr with hpr | hpr
    · exact hacc pr hpr
    · rcases List.mem_singleton.mp hpr with rfl
      exact ⟨e, he, rfl⟩

theorem placeholderFor_shape (nm : Str) : placeholderFor nm = '<' :: qOf nm := by
  show str "<!--EJS_INCLUDE:" ++ nm ++ str "-->" = '<' :: (str "!--EJS_INCLUDE:" ++ nm ++ str "-->")
  have h : str "<!--EJS_INCLUDE:" = '<' :: str "!--EJS_INCLUDE:" := by decide
  rw [h]
  simp

theorem includeFor_shape (nm : Str) : includeFor nm = '<' :: rOf nm := by
  show str "<%- include(" ++ '\'' :: str "partials/" ++ nm ++ '\'' :: str ") %>" =
    '<' :: (str "%- include(" ++ '\'' :: str "partials/" ++ nm ++ '\'' :: str ") %>")
  have h : str "<%- include(" = '<' :: str "%- include(" := by decide
  rw [h]
  simp

theorem slug_no_lt {nm : Str} (h : isSlug nm = true) : '<' ∉ nm := by
  intro hm
  simp only [isSlug, Bool.and_eq_true, List.all_eq_true] at h
  have := h.1.1.1.2 '<' hm
  exact absurd this (by decide)

theorem qOf_free {nm : Str} (h : isSlug nm = true) : '<' ∉ qOf nm := by
  intro hm
  unfold qOf at hm
  rcases List.mem_append.mp hm with hm | hm
  · rcases List.mem_append.mp hm with hm | hm
    · exact absurd hm (by decide)
    · exact slug_no_lt h hm
  · exact absurd hm (by decide)

theorem rOf_free {nm : Str} (h : isSlug nm = true) : '<' ∉ rOf nm := by
  intro hm
  unfold rOf at hm
  rcases List.mem_append.mp hm with hm | hm
  · rcases List.mem_append.mp hm with hm | hm
    · rcases List.mem_append.mp hm with hm | hm
      · exact absurd hm (by decide)
      · rcases List.mem_cons.mp hm with hm | hm
        · exact absurd hm (by decide)
        · exact absurd hm (by decide)
    · exact slug_no_lt h hm
  · rcases List.mem_cons.mp hm with hm | hm
    · exact absurd hm (by decide)
    · exact absurd hm (by decide)

theorem qOf_head (nm : Str) : (qOf nm).head? = some '!' := by
  unfold qOf
  rw [List.append_assoc, List.head?_append_of_ne_nil _ (by decide)]
  decide

theorem rOf_head (nm : Str) : (rOf nm).head? = some '%' := by
  unfold rOf
  rw [List.append_assoc, List.append_assoc, List.head?_append_of_ne_nil _ (by decide)]
  decide

theorem qOf_notPrefix {n₁ n₂ : Str} (h₁ : isSlug n₁ = true) (h₂ : isSlug n₂ = true)
    (hne : n₁ ≠ n₂) : ¬ qOf n₁ <+: qOf n₂ := by
  intro hp
  unfold qOf at hp
  rw [List.append_assoc, List.append_assoc] at hp
  rw [List.prefix_append_right_inj] at hp
  have := slug_marker_eq n₂ n₁ [] h₂ h₁ (by simpa using hp)
  exact hne this

/-- C10 — For components whose names are slugs (as every extraction run
produces), the placeholder-substitution pass is independent of the order in
which the replacement pairs are applied: placeholders of distinct names
never overlap and no include directive contains a placeholder, so the
sequential string replacements commute and any permutation of the
replacement list yields the same result (in particular, Go's unspecified
map-iteration order is immaterial). -/
theorem claim_C10_order_independent (components : List ResolvedComponent) (content : Str)
    (hslug : ∀ e ∈ components, isSlug e.name = true)
    (pairs : List (Str × Str)) (hperm : (buildIncludeReplacements components).Perm pairs) :
    applyIncludeReplacements content pairs =
      applyIncludeReplacements content (buildIncludeReplacements components) := by
  have hsh : ∀ pr ∈ buildIncludeReplacements components,
      ∃ nm, isSlug nm = true ∧ pr = ('<' :: qOf nm, '<' :: rOf nm) := by
    intro pr hpr
    rcases buildIncludeReplacements_mem components pr hpr with ⟨e, he, rfl⟩
    exact ⟨e.name, hslug e he, by rw [placeholderFor_shape, includeFor_shape]⟩
  have hsh₂ : ∀ pr ∈ pairs, ∃ nm, isSlug nm = true ∧ pr = ('<' :: qOf nm, '<' :: rOf nm) :=
    fun pr hpr => hsh pr (hperm.mem_iff.mpr hpr)
  have hshape : ∀ pr ∈ buildIncludeReplacements components,
      ∃ q r, pr = ('<' :: q, '<' :: r) ∧ '<' ∉ q ∧ '<' ∉ r := by
    intro pr hpr
    rcases hsh pr hpr with ⟨nm, hnm, rfl⟩
    exact ⟨qOf nm, rOf nm, rfl, qOf_free hnm, rOf_free hnm⟩
  have hshape₂ : ∀ pr ∈ pairs, ∃ q r, pr = ('<' :: q, '<' :: r) ∧ '<' ∉ q ∧ '<' ∉ r :=
    fun pr hpr => hshape pr (hperm.mem_iff.mpr hpr)
  have hfree := splitLT_free content
  have hdecomp := joinLT_splitLT content
  rw [← hdecomp]
  rw [applyAll_seg pairs hshape₂ (splitLT content).2 (splitLT content).1 hfree.1 hfree.2]
  rw [applyAll_seg (buildIncludeReplacements components) hshape (splitLT content).2
    (splitLT content).1 hfree.1 hfree.2]
  unfold joinLT
  congr 2
  rw [List.map_map, List.map_map]
  apply List.map_congr_left
  intro t _
  show '<' :: (pairs.foldl (fun u pr => segRep pr.1.tail pr.2.tail u) t) =
    '<' :: ((buildIncludeReplacements components).foldl
      (fun u pr => segRep pr.1.tail pr.2.tail u) t)
  congr 1
  refine foldl_comm_perm _ hperm.symm ?_ t
  intro pr₁ hpr₁ pr₂ hpr₂ s
  rcases hsh₂ pr₁ hpr₁ with ⟨nm₁, hnm₁, rfl⟩
  rcases hsh₂ pr₂ hpr₂ with ⟨nm₂, hnm₂, rfl⟩
  show segRep (qOf nm₂) (rOf nm₂) (segRep (qOf nm₁) (rOf nm₁) s) =
    segRep (qOf nm₁) (rOf nm₁) (segRep (qOf nm₂) (rOf nm₂) s)
  by_cases hne : nm₁ = nm₂
  · subst hne
    rfl
  · exact segRep_comm (qOf nm₂) (rOf nm₂) (qOf nm₁) (rOf nm₁) s
      (qOf_notPrefix hnm₂ hnm₁ (fun hh => hne hh.symm))
      (qOf_notPrefix hnm₁ hnm₂ hne)
      (qOf_head nm₂) (qOf_head nm₁) (rOf_head nm₂) (rOf_head nm₁)

/-- Witness for C10: reversing the replacement list leaves the substituted
string unchanged. -/
theorem claim_C10_order_independent_witness :
    applyIncludeReplacements (str "<!--EJS_INCLUDE:a--><!--EJS_INCLUDE:b-->")
      ((buildIncludeReplacements permComps).reverse) =
    applyIncludeReplacements (str "<!--EJS_INCLUDE:a--><!--EJS_INCLUDE:b-->")
      (buildIncludeReplacements permComps) :=
  claim_C10_order_independent permComps (str "<!--EJS_INCLUDE:a--><!--EJS_INCLUDE:b-->")
    (by decide) ((buildIncludeReplacements permComps).reverse)
    ((buildIncludeReplacements permComps).reverse_perm).symm

/-! ## C2: the no-leakage property.

First the counterexample: an input document whose own text already contains
the literal `EJS_INCLUDE:` carries it verbatim into a partial body, which
the replacement pass (keyed on full placeholder comments only) does not
remove. -/

/-- C2 (counterexample) — On `docLeak`, whose section text contains the
literal `EJS_INCLUDE:boom`, a returned partial body contains the substring
`EJS_INCLUDE:`, refuting the claim that every partial body of every input
document contains zero occurrences of it. -/
theorem claim_C2_counterexample :
    ((generateEJSViews fmtIdF (str "irrelevant") docLeak).parts.any
      (fun kv => containsStr kv.2 markerL)) = true := by decide

/-! String-level machinery: occurrences of the marker across an append. -/

theorem infix_append_cases {pat x y : Str} (h : pat <:+: x ++ y) :
    pat <:+: x ∨ pat <:+: y ∨
      ∃ p₁ p₂, pat = p₁ ++ p₂ ∧ p₁ ≠ [] ∧ p₂ ≠ [] ∧ p₁ <:+ x ∧ p₂ <+: y := by
  rcases h with ⟨a, b, hab⟩
  have h1 : pat ++ b = (x ++ y).drop a.length := by
    rw [← hab, List.append_assoc, List.drop_left]
  rcases le_or_lt (a.length + pat.length) x.length with hle | hgt
  · left
    have hax : a.length ≤ x.length := by omega
    rw [List.drop_append_of_le_length hax] at h1
    have h3 : (pat ++ b).take pat.length = pat := List.take_left pat b
    rw [h1, List.take_append_of_le_length (by rw [List.length_drop]; omega)] at h3
    exact h3 ▸ ((List.take_prefix _ _).isInfix.trans (List.drop_suffix _ _).isInfix)
  · rcases le_or_lt x.length a.length with hxa | hax
    · right; left
      rw [List.drop_append_eq_append_drop, List.drop_eq_nil_of_le hxa, List.nil_append] at h1
      have h2 : pat <+: y.drop (a.length - x.length) := ⟨b, h1⟩
      exact h2.isInfix.trans (List.drop_suffix _ _).isInfix
    · right; right
      rw [List.drop_append_of_le_length (Nat.le_of_lt hax)] at h1
      have h3 : (pat ++ b).take pat.length = pat := List.take_left pat b
      rw [h1, List.take_append_eq_append_take,
        List.take_of_length_le (by rw [List.length_drop]; omega)] at h3
      refine ⟨x.drop a.length, y.take (pat.length - (x.drop a.length).length), h3.symm, ?_, ?_,
        List.drop_suffix _ _, List.take_prefix _ _⟩
      · intro hnil
        have h4 := congrArg List.length hnil
        rw [List.length_drop] at h4
        simp only [List.length_nil] at h4
        omega
      · intro hnil
        have h4 := congrArg List.length h3
        rw [hnil, List.append_nil, List.length_drop] at h4
        omega

theorem getLast_some_mem {l : Str} {a : Char} (h : l.getLast? = some a) : a ∈ l := by
  rcases List.mem_getLast?_eq_getLast (l := l) (x := a) (h ▸ rfl) with ⟨hne, heq⟩
  exact heq ▸ List.getLast_mem hne

theorem markerFree_iff (s : Str) : markerFree s = true ↔ ¬ markerL <:+: s := by
  rw [← isInfixL_iff]
  unfold markerFree
  cases isInfixL markerL s <;> simp

theorem markerFree_mono {s t : Str} (h : markerFree s = true) (hst : t <:+: s) :
    markerFree t = true := by
  rw [markerFree_iff] at h ⊢
  exact fun hm => h (hm.trans hst)

/-- The marker cannot straddle an append whose junction characters are
outside the marker alphabet. -/
theorem markerFree_append {x y : Str} (hx : markerFree x = true) (hy : markerFree y = true)
    (hj : (∃ c, x.getLast? = some c ∧ c ∉ markerL) ∨
          (∃ c, y.head? = some c ∧ c ∉ markerL) ∨ x = [] ∨ y = []) :
    markerFree (x ++ y) = true := by
  rw [markerFree_iff] at hx hy ⊢
  intro hm
  rcases infix_append_cases hm with hm | hm | ⟨p₁, p₂, hpe, h1n, h2n, h1s, h2p⟩
  · exact hx hm
  · exact hy hm
  · rcases hj with ⟨c, hcl, hcm⟩ | ⟨c, hch, hcm⟩ | rfl | rfl
    · apply hcm
      rcases h1s with ⟨u, rfl⟩
      rw [List.getLast?_append_of_ne_nil u h1n] at hcl
      exact hpe ▸ List.mem_append_left p₂ (getLast_some_mem hcl)
    · apply hcm
      rcases h2p with ⟨v, rfl⟩
      rw [List.head?_append_of_ne_nil _ h2n] at hch
      cases p₂ with
      | nil => exact absurd rfl h2n
      | cons z zs =>
        have hz : c = z := by simpa using hch.symm
        exact hpe ▸ List.mem_append_right p₁ (hz ▸ List.mem_cons_self z zs)
    · rcases h1s with ⟨u, hu⟩
      exact h1n (List.append_eq_nil.mp hu).2
    · rcases h2p with ⟨v, hv⟩
      rcases List.append_eq_nil.mp hv with ⟨h2, _⟩
      exact h2n h2

/-! The renderer's escaping neither creates nor destroys marker
occurrences: every marker character is left verbatim by `escChar`, and the
escaped replacements contain no marker character. -/

theorem escChar_cases (c : Char) : escChar c = [c] ∨
    ((escChar c).head? = some '&' ∧ (escChar c).length ≤ 5 ∧
      ∀ ch ∈ escChar c, ch ∉ markerL) := by
  unfold escChar
  split_ifs with h1 h2 h3 h4 h5 h6
  · exact Or.inr ⟨by decide, by decide, by decide⟩
  · exact Or.inr ⟨by decide, by decide, by decide⟩
  · exact Or.inr ⟨by decide, by decide, by decide⟩
  · exact Or.inr ⟨by decide, by decide, by decide⟩
  · exact Or.inr ⟨by decide, by decide, by decide⟩
  · exact Or.inr ⟨by decide, by decide, by decide⟩
  · exact Or.inl rfl

theorem escChar_length (c : Char) : (escChar c).length ≤ 5 := by
  rcases escChar_cases c with h | ⟨_, h, _⟩
  · rw [h]; simp
  · exact h

/-- A pattern made of marker characters survives escaping on the left: it is
a prefix of the escaped string iff it is a prefix of the original. -/
theorem escape_prefix : ∀ (d pat : Str), (∀ c ∈ pat, escChar c = [c]) →
    isPrefixL pat (escapeStr d) = isPrefixL pat d := by
  intro d
  induction d with
  | nil => intro pat _; rfl
  | cons c d' ih =>
    intro pat hpat
    have hesc : escapeStr (c :: d') = escChar c ++ escapeStr d' := by simp [escapeStr]
    cases pat with
    | nil => rfl
    | cons a pat' =>
      have ha : escChar a = [a] := hpat a (List.mem_cons_self a pat')
      rcases escChar_cases c with hc | ⟨hch, _, _⟩
      · rw [hesc, hc]
        show (a == c && isPrefixL pat' (escapeStr d')) = (a == c && isPrefixL pat' d')
        rw [ih pat' (fun x hx => hpat x (List.mem_cons_of_mem _ hx))]
      · have hane : a ≠ '&' := by
          intro h
          rw [h] at ha
          exact absurd ha (by decide)
        have hL : isPrefixL (a :: pat') (escChar c ++ escapeStr d') = false := by
          refine isPrefixL_head_ne rfl ?_ hane
          rw [List.head?_append_of_ne_nil _ (by
            intro hn
            rw [hn] at hch
            exact absurd hch (by decide))]
          exact hch
        have hR : isPrefixL (a :: pat') (c :: d') = false := by
          refine isPrefixL_head_ne rfl rfl ?_
          intro h
          rw [h] at ha
          rw [ha] at hch
          have hcamp : c = '&' := by simpa using hch
          rw [hcamp] at ha
          exact absurd ha (by decide)
        rw [hesc, hL, hR]

theorem escape_markerFree : ∀ d : Str, markerFree d = true → markerFree (escapeStr d) = true := by
  intro d
  induction d with
  | nil => intro _; decide
  | cons c d' ih =>
    intro hmf
    have hmf' : markerFree d' = true :=
      markerFree_mono hmf (List.suffix_cons c d').isInfix
    rw [markerFree_iff]
    intro hocc
    have hesc : escapeStr (c :: d') = escChar c ++ escapeStr d' := by simp [escapeStr]
    rw [hesc] at hocc
    rcases infix_append_cases hocc with hm | hm | ⟨p₁, p₂, hpe, h1n, h2n, h1s, h2p⟩
    · have hlen := hm.length_le
      have h5 : (escChar c).length ≤ 5 := escChar_length c
      have h12 : markerL.length = 12 := by decide
      omega
    · exact (markerFree_iff _).mp (ih hmf') hm
    · rcases escChar_cases c with hc | ⟨_, _, hmem⟩
      · have hp₁ : p₁ = [c] := by
          rcases h1s with ⟨u, hu⟩
          rw [hc] at hu
          cases u with
          | nil => simpa using hu
          | cons v vs =>
            have hlen := congrArg List.length hu
            simp only [List.length_append, List.length_cons, List.length_nil] at hlen
            exact absurd (List.eq_nil_of_length_eq_zero (by omega)) h1n
        have hmk : markerL = 'E' :: str "JS_INCLUDE:" := by decide
        rw [hp₁] at hpe
        rw [hmk] at hpe
        have hcE : c = 'E' := (List.cons.injEq _ _ _ _ ▸ hpe).1.symm
        have hp₂ : p₂ = str "JS_INCLUDE:" := by
          have := (List.cons.injEq _ _ _ _ ▸ hpe).2
          exact this.symm
        have hpre : isPrefixL p₂ (escapeStr d') = isPrefixL p₂ d' :=
          escape_prefix d' p₂ (by rw [hp₂]; decide)
        have h2p' : isPrefixL p₂ (escapeStr d') = true := (isPrefixL_iff _ _).mpr h2p
        have h2d : p₂ <+: d' := (isPrefixL_iff _ _).mp (hpre ▸ h2p')
        rcases h2d with ⟨t, ht⟩
        have : markerL <+: c :: d' := by
          rw [hmk, ← hcE, ← hp₂]
          exact ⟨t, by rw [List.cons_append, ht]⟩
        exact (markerFree_iff _).mp hmf this.isInfix
      · cases p₁ with
        | nil => exact absurd rfl h1n
        | cons z zs =>
          have hz : z ∈ escChar c := by
            rcases h1s with ⟨u, hu⟩
            exact hu ▸ List.mem_append_right u (List.mem_cons_self z zs)
          have hzm : z ∈ markerL := hpe ▸ List.mem_append_left p₂ (List.mem_cons_self z zs)
          exact absurd hzm (hmem z hz)

/-! Decomposition of `splitLT` over an append, and goodness of appends. -/

theorem extLast_nil_r : ∀ sx : List Str, extLast sx [] = sx := by
  intro sx
  induction sx with
  | nil => rfl
  | cons t rest ih =>
    cases rest with
    | nil => show [t ++ []] = [t]; rw [List.append_nil]
    | cons s ss =>
      show t :: extLast (s :: ss) [] = t :: s :: ss
      rw [ih]

theorem extLast_cons {a : Str} {rest : List Str} (h : rest ≠ []) (u : Str) :
    extLast (a :: rest) u = a :: extLast rest u := by
  cases rest with
  | nil => exact absurd rfl h
  | cons s ss => rfl

theorem splitLT_cons (c : Char) (rest : Str) :
    splitLT (c :: rest) = if c == '<' then ([], (splitLT rest).1 :: (splitLT rest).2)
      else (c :: (splitLT rest).1, (splitLT rest).2) := rfl

theorem splitLT_append : ∀ x y : Str, splitLT (x ++ y) =
    if (splitLT x).2.isEmpty then ((splitLT x).1 ++ (splitLT y).1, (splitLT y).2)
    else ((splitLT x).1, extLast (splitLT x).2 (splitLT y).1 ++ (splitLT y).2) := by
  intro x y
  induction x with
  | nil => simp [splitLT]
  | cons c x' ih =>
    rw [List.cons_append, splitLT_cons, splitLT_cons]
    by_cases hc : (c == '<') = true
    · rw [if_pos hc, if_pos hc]
      simp only [List.isEmpty_cons, if_neg (by decide : ¬ (false = true))]
      rw [ih]
      by_cases he : (splitLT x').2.isEmpty = true
      · rw [if_pos he]
        have hx2 : (splitLT x').2 = [] := by
          cases hv : (splitLT x').2 with
          | nil => rfl
          | cons a b => rw [hv] at he; exact absurd he (by simp)
        rw [hx2]
        show (([] : Str), ((splitLT x').1 ++ (splitLT y).1) :: (splitLT y).2) =
          ([], extLast [(splitLT x').1] (splitLT y).1 ++ (splitLT y).2)
        rfl
      · rw [if_neg he]
        have hx2 : (splitLT x').2 ≠ [] := by
          intro hv; rw [hv] at he; exact he rfl
        rw [extLast_cons hx2]
        rfl
    · rw [if_neg hc, if_neg hc]
      simp only
      rw [ih]
      by_cases he : (splitLT x').2.isEmpty = true
      · rw [if_pos he, if_pos he]
        rw [List.cons_append]
      · rw [if_neg he, if_neg he]

theorem splitLT_preIsPrefix : ∀ s : Str, (splitLT s).1 <+: s := by
  intro s
  induction s with
  | nil => exact List.prefix_refl _
  | cons c rest ih =>
    rw [splitLT_cons]
    by_cases hc : (c == '<') = true
    · rw [if_pos hc]; exact List.nil_prefix
    · rw [if_neg hc]
      exact (List.cons_prefix_cons).mpr ⟨rfl, ih⟩

theorem splitLT_segIsInfix : ∀ s : Str, ∀ t ∈ (splitLT s).2, t <:+: s := by
  intro s
  induction s with
  | nil => simp [splitLT]
  | cons c rest ih =>
    intro t ht
    rw [splitLT_cons] at ht
    by_cases hc : (c == '<') = true
    · rw [if_pos hc] at ht
      rcases List.mem_cons.mp ht with rfl | ht
      · exact (splitLT_preIsPrefix rest).isInfix.trans (List.suffix_cons c rest).isInfix
      · exact (ih t ht).trans (List.suffix_cons c rest).isInfix
    · rw [if_neg hc] at ht
      exact (ih t ht).trans (List.suffix_cons c rest).isInfix

theorem goodSeg_of_markerFree {names : List Str} {t : Str} (h : markerFree t = true) :
    goodSeg names t = true := by
  unfold goodSeg
  rw [h]
  rfl

theorem markerFree_good (names : List Str) {s : Str} (h : markerFree s = true) :
    goodStr names s = true := by
  unfold goodStr
  rw [markerFree_mono h (splitLT_preIsPrefix s).isInfix]
  rw [Bool.true_and, List.all_eq_true]
  intro t ht
  exact goodSeg_of_markerFree (markerFree_mono h (splitLT_segIsInfix s t ht))

theorem goodStr_parts {names : List Str} {s : Str} (h : goodStr names s = true) :
    markerFree (splitLT s).1 = true ∧ ∀ t ∈ (splitLT s).2, goodSeg names t = true := by
  unfold goodStr at h
  rw [Bool.and_eq_true, List.all_eq_true] at h
  exact h

theorem goodStr_build {names : List Str} {s : Str}
    (h1 : markerFree (splitLT s).1 = true) (h2 : ∀ t ∈ (splitLT s).2, goodSeg names t = true) :
    goodStr names s = true := by
  unfold goodStr
  rw [Bool.and_eq_true, List.all_eq_true]
  exact ⟨h1, h2⟩

theorem splitLT_pre_head {y : Str} (h : (splitLT y).1 ≠ []) :
    (splitLT y).1.head? = y.head? := by
  conv_rhs => rw [← joinLT_splitLT y]
  unfold joinLT
  rw [List.head?_append_of_ne_nil _ h]

theorem splitLT_head_lt {y : Str} (h : y.head? = some '<') : (splitLT y).1 = [] := by
  cases y with
  | nil => simp at h
  | cons c y' =>
    have hc : c = '<' := by simpa using h
    rw [splitLT_cons, if_pos (by simp [hc])]

/-- Appending a string that opens a fresh `<`-segment preserves goodness. -/
theorem goodStr_append_lt {names : List Str} {x y : Str} (hx : goodStr names x = true)
    (hy : goodStr names y = true) (hh : y.head? = some '<') :
    goodStr names (x ++ y) = true := by
  have hpre : (splitLT y).1 = [] := splitLT_head_lt hh
  rcases goodStr_parts hx with ⟨hx1, hx2⟩
  rcases goodStr_parts hy with ⟨_, hy2⟩
  apply goodStr_build
  · rw [splitLT_append]
    by_cases he : (splitLT x).2.isEmpty = true
    · rw [if_pos he]
      simp only [hpre, List.append_nil]
      exact hx1
    · rw [if_neg he]
      exact hx1
  · rw [splitLT_append]
    by_cases he : (splitLT x).2.isEmpty = true
    · rw [if_pos he]
      exact hy2
    · rw [if_neg he]
      simp only [hpre, extLast_nil_r]
      intro t ht
      rcases List.mem_append.mp ht with ht | ht
      · exact hx2 t ht
      · exact hy2 t ht

theorem goodSeg_extend {names : List Str} (t u : Str) (ht : goodSeg names t = true)
    (hu : markerFree u = true)
    (hj : t = [] ∨ (∃ c, t.getLast? = some c ∧ c ∉ markerL) ∨
          (∃ c, u.head? = some c ∧ c ∉ markerL) ∨ u = []) :
    goodSeg names (t ++ u) = true := by
  rcases hj with rfl | hj
  · rw [List.nil_append]
    exact goodSeg_of_markerFree hu
  rcases hj with hj | hj
  rotate_left
  rcases hj with hj | rfl
  rotate_left
  · rw [List.append_nil]
    exact ht
  -- two live cases: junction via the last of `t`, or via the head of `u`;
  -- `hj2` turns either into the junction needed for any tail of `t`.
  all_goals {
    have hj2 : ∀ w : Str, (w ≠ [] → w.getLast? = t.getLast?) →
        ((∃ c, w.getLast? = some c ∧ c ∉ markerL) ∨
         (∃ c, u.head? = some c ∧ c ∉ markerL) ∨ w = [] ∨ u = []) := by
      intro w hw
      first
      | (rcases hj with ⟨c, hcl, hcm⟩
         by_cases hwn : w = []
         · exact Or.inr (Or.inr (Or.inl hwn))
         · exact Or.inl ⟨c, (hw hwn).trans hcl, hcm⟩)
      | exact Or.inr (Or.inl hj)
    unfold goodSeg at ht
    rw [Bool.or_eq_true] at ht
    rcases ht with ht | ht
    · exact goodSeg_of_markerFree (markerFree_append ht hu (hj2 t (fun _ => rfl)))
    · rw [List.any_eq_true] at ht
      rcases ht with ⟨nm, hnm, hcond⟩
      rw [Bool.and_eq_true] at hcond
      have hlen : (qOf nm).length ≤ t.length := ((isPrefixL_iff _ _).mp hcond.1).length_le
      unfold goodSeg
      rw [Bool.or_eq_true, List.any_eq_true]
      refine Or.inr ⟨nm, hnm, ?_⟩
      rw [Bool.and_eq_true]
      refine ⟨isPrefixL_extend _ _ _ hcond.1, ?_⟩
      rw [List.drop_append_of_le_length hlen]
      refine markerFree_append hcond.2 hu (hj2 _ ?_)
      intro hd
      conv_rhs => rw [← List.take_append_drop (qOf nm).length t]
      rw [List.getLast?_append_of_ne_nil _ hd]
  }

theorem joinLT_cons (pre t : Str) (rest : List Str) :
    joinLT pre (t :: rest) = joinLT (pre ++ '<' :: t) rest := by
  unfold joinLT
  simp only [List.map_cons, List.flatten_cons, List.append_assoc]

theorem getLast_joinLT : ∀ (sx : List Str) (pre : Str) (tl : Str),
    sx.getLast? = some tl → (joinLT pre sx).getLast? = ('<' :: tl).getLast? := by
  intro sx
  induction sx with
  | nil => intro pre tl h; simp at h
  | cons t rest ih =>
    intro pre tl h
    cases rest with
    | nil =>
      have htl : t = tl := by simpa using h
      subst htl
      unfold joinLT
      simp only [List.map_cons, List.map_nil, List.flatten_cons, List.flatten_nil,
        List.append_nil]
      rw [List.getLast?_append_of_ne_nil _ (by simp)]
    | cons s ss =>
      rw [joinLT_cons]
      refine ih _ tl ?_
      rw [← h]
      exact (List.getLast?_cons_cons ..).symm

theorem extLast_goodSeg {names : List Str} (u : Str) (hu : markerFree u = true) :
    ∀ sx : List Str, (∀ t ∈ sx, goodSeg names t = true) →
      ((∀ tl, sx.getLast? = some tl →
          (tl = [] ∨ ∃ c, tl.getLast? = some c ∧ c ∉ markerL)) ∨
       (∃ c, u.head? = some c ∧ c ∉ markerL) ∨ u = []) →
      ∀ t ∈ extLast sx u, goodSeg names t = true := by
  intro sx
  induction sx with
  | nil => intro _ _ t ht; simp [extLast] at ht
  | cons t0 rest ih =>
    intro hall hjs t ht
    cases rest with
    | nil =>
      have he : extLast [t0] u = [t0 ++ u] := rfl
      rw [he] at ht
      rcases List.mem_singleton.mp ht with rfl
      refine goodSeg_extend t0 u (hall t0 (List.mem_cons_self ..)) hu ?_
      rcases hjs with hjs | hjs | hjs
      · rcases hjs t0 (by simp) with h0 | h0
        · exact Or.inl h0
        · exact Or.inr (Or.inl h0)
      · exact Or.inr (Or.inr (Or.inl hjs))
      · exact Or.inr (Or.inr (Or.inr hjs))
    | cons s ss =>
      rw [extLast_cons (by simp) u] at ht
      rcases List.mem_cons.mp ht with rfl | ht
      · exact hall t (List.mem_cons_self ..)
      · refine ih (fun x hx => hall x (List.mem_cons_of_mem _ hx)) ?_ t ht
        rcases hjs with hjs | hjs
        · refine Or.inl ?_
          intro tl htl
          exact hjs tl (by rw [List.getLast?_cons_cons]; exact htl)
        · exact Or.inr hjs

/-- Appending a marker-free string (which may contain `<`) preserves
goodness when the junction characters are outside the marker alphabet. -/
theorem goodStr_append_mf {names : List Str} {x y : Str} (hx : goodStr names x = true)
    (hy : markerFree y = true)
    (hj : (∃ c, x.getLast? = some c ∧ c ∉ markerL) ∨
          (∃ c, y.head? = some c ∧ c ∉ markerL) ∨ x = [] ∨ y = []) :
    goodStr names (x ++ y) = true := by
  by_cases hxnil : x = []
  · rw [hxnil, List.nil_append]
    exact markerFree_good names hy
  by_cases hynil : y = []
  · rw [hynil, List.append_nil]
    exact hx
  have hj' : (∃ c, x.getLast? = some c ∧ c ∉ markerL) ∨
      (∃ c, y.head? = some c ∧ c ∉ markerL) := by
    rcases hj with hj | hj | hj | hj
    · exact Or.inl hj
    · exact Or.inr hj
    · exact absurd hj hxnil
    · exact absurd hj hynil
  rcases goodStr_parts hx with ⟨hx1, hx2⟩
  have hy1 : markerFree (splitLT y).1 = true :=
    markerFree_mono hy (splitLT_preIsPrefix y).isInfix
  have hy2 : ∀ t ∈ (splitLT y).2, markerFree t = true :=
    fun t ht => markerFree_mono hy (splitLT_segIsInfix y t ht)
  by_cases he : (splitLT x).2.isEmpty = true
  · have hx2e : (splitLT x).2 = [] := by
      cases hv : (splitLT x).2 with
      | nil => rfl
      | cons a b => rw [hv] at he; simp at he
    have hxeq : (splitLT x).1 = x := by
      have hd := joinLT_splitLT x
      rw [hx2e] at hd
      unfold joinLT at hd
      simpa using hd
    apply goodStr_build
    · rw [splitLT_append, if_pos he]
      refine markerFree_append hx1 hy1 ?_
      rcases hj' with ⟨c, hcl, hcm⟩ | ⟨c, hch, hcm⟩
      · exact Or.inl ⟨c, by rw [hxeq]; exact hcl, hcm⟩
      · by_cases hp : (splitLT y).1 = []
        · exact Or.inr (Or.inr (Or.inr hp))
        · exact Or.inr (Or.inl ⟨c, by rw [splitLT_pre_head hp]; exact hch, hcm⟩)
    · rw [splitLT_append, if_pos he]
      intro t ht
      exact goodSeg_of_markerFree (hy2 t ht)
  · apply goodStr_build
    · rw [splitLT_append, if_neg he]
      exact hx1
    · rw [splitLT_append, if_neg he]
      intro t ht
      rcases List.mem_append.mp ht with ht | ht
      · refine extLast_goodSeg (splitLT y).1 hy1 (splitLT x).2 hx2 ?_ t ht
        rcases hj' with ⟨c, hcl, hcm⟩ | ⟨c, hch, hcm⟩
        · refine Or.inl ?_
          intro tl htl
          by_cases htln : tl = []
          · exact Or.inl htln
          · refine Or.inr ⟨c, ?_, hcm⟩
            have hxl : x.getLast? = ('<' :: tl).getLast? := by
              conv_lhs => rw [← joinLT_splitLT x]
              exact getLast_joinLT (splitLT x).2 (splitLT x).1 tl htl
            have h5 : ('<' :: tl).getLast? = tl.getLast? := by
              show (['<'] ++ tl).getLast? = tl.getLast?
              exact List.getLast?_append_of_ne_nil _ htln
            rw [← h5, ← hxl]
            exact hcl
        · by_cases hp : (splitLT y).1 = []
          · exact Or.inr (Or.inr hp)
          · exact Or.inr (Or.inl ⟨c, by rw [splitLT_pre_head hp]; exact hch, hcm⟩)
      · exact goodSeg_of_markerFree (hy2 t ht)

theorem splitLT_of_free : ∀ p : Str, '<' ∉ p → splitLT p = (p, []) := by
  intro p
  induction p with
  | nil => intro _; rfl
  | cons c cs ihp =>
    intro hp
    have hc : c ≠ '<' := fun h => hp (h ▸ List.mem_cons_self ..)
    rw [splitLT_cons, if_neg (by simpa using hc)]
    rw [ihp (fun h => hp (List.mem_cons_of_mem _ h))]

theorem splitLT_joinLT : ∀ (segs : List Str) (pre : Str), '<' ∉ pre →
    (∀ t ∈ segs, '<' ∉ t) → splitLT (joinLT pre segs) = (pre, segs) := by
  intro segs
  induction segs with
  | nil =>
    intro pre hpre _
    have hj : joinLT pre [] = pre := by
      unfold joinLT
      simp
    rw [hj, splitLT_of_free pre hpre]
  | cons t rest ih =>
    intro pre hpre hsegs
    induction pre with
    | nil =>
      have h1 : joinLT [] (t :: rest) = '<' :: joinLT t rest := by
        unfold joinLT
        simp
      rw [h1, splitLT_cons, if_pos (by simp)]
      rw [ih t (hsegs t (List.mem_cons_self ..))
        (fun u hu => hsegs u (List.mem_cons_of_mem _ hu))]
    | cons c pre' ihp =>
      have hc : c ≠ '<' := fun h => hpre (h ▸ List.mem_cons_self ..)
      have h1 : joinLT (c :: pre') (t :: rest) = c :: joinLT pre' (t :: rest) := by
        unfold joinLT
        simp
      rw [h1, splitLT_cons, if_neg (by simpa using hc)]
      rw [ihp (fun h => hpre (List.mem_cons_of_mem _ h))]

/-- Appending two good strings is good when the junction is safe. -/
theorem goodStr_append {names : List Str} {x y : Str} (hx : goodStr names x = true)
    (hy : goodStr names y = true)
    (hj : (∃ c, x.getLast? = some c ∧ c ∉ markerL) ∨
          (∃ c, y.head? = some c ∧ c ∉ markerL) ∨ x = [] ∨ y = []) :
    goodStr names (x ++ y) = true := by
  by_cases hynil : y = []
  · rw [hynil, List.append_nil]
    exact hx
  have hdec := joinLT_splitLT y
  rcases goodStr_parts hy with ⟨hy1, hy2⟩
  have hfree := splitLT_free y
  cases hsy : (splitLT y).2 with
  | nil =>
    have hyeq : (splitLT y).1 = y := by
      have hd := hdec
      rw [hsy] at hd
      unfold joinLT at hd
      simpa using hd
    refine goodStr_append_mf hx ?_ hj
    rw [hyeq] at hy1
    exact hy1
  | cons t0 rest =>
    have hflat : y = (splitLT y).1 ++ joinLT [] (splitLT y).2 := by
      conv_lhs => rw [← hdec]
      unfold joinLT
      simp
    have hlt : (joinLT [] (splitLT y).2).head? = some '<' := by
      rw [hsy]
      unfold joinLT
      simp
    have hgoodflat : goodStr names (joinLT [] (splitLT y).2) = true := by
      apply goodStr_build
      · rw [splitLT_joinLT (splitLT y).2 [] (by simp) hfree.2]
        show markerFree ([] : Str) = true
        decide
      · rw [splitLT_joinLT (splitLT y).2 [] (by simp) hfree.2]
        show ∀ t ∈ (splitLT y).2, goodSeg names t = true
        exact hy2
    rw [hflat, ← List.append_assoc]
    refine goodStr_append_lt ?_ hgoodflat hlt
    refine goodStr_append_mf hx hy1 ?_
    rcases hj with hj | ⟨c, hch, hcm⟩ | hj | hj
    · exact Or.inl hj
    · by_cases hp : (splitLT y).1 = []
      · exact Or.inr (Or.inr (Or.inr hp))
      · exact Or.inr (Or.inl ⟨c, by rw [splitLT_pre_head hp]; exact hch, hcm⟩)
    · exact Or.inr (Or.inr (Or.inl hj))
    · exact absurd hj hynil

/-! Goodness of rendered trees. -/

theorem markerFree_nil : markerFree ([] : Str) = true := by decide

theorem goodStr_nil (names : List Str) : goodStr names [] = true :=
  markerFree_good names markerFree_nil

theorem renderAttrs_markerFree : ∀ attrs : List (Str × Str),
    (∀ kv ∈ attrs, markerFree kv.1 = true ∧ markerFree kv.2 = true) →
    markerFree (renderAttrs attrs) = true := by
  intro attrs
  induction attrs with
  | nil => intro _; exact markerFree_nil
  | cons kv rest ih =>
    intro hall
    obtain ⟨k, v⟩ := kv
    rcases hall (k, v) (List.mem_cons_self ..) with ⟨hk, hv⟩
    have e1 : markerFree (escapeStr v ++ ['"']) = true :=
      markerFree_append (escape_markerFree v hv) (by decide)
        (Or.inr (Or.inl ⟨'"', rfl, by decide⟩))
    have e2 : markerFree ('=' :: '"' :: (escapeStr v ++ ['"'])) = true := by
      show markerFree ((['=', '"'] : Str) ++ (escapeStr v ++ ['"'])) = true
      exact markerFree_append (by decide) e1 (Or.inl ⟨'"', by decide, by decide⟩)
    have e3 : markerFree (k ++ '=' :: '"' :: escapeStr v ++ ['"']) = true := by
      have hsh : k ++ '=' :: '"' :: escapeStr v ++ ['"'] =
          k ++ ('=' :: '"' :: (escapeStr v ++ ['"'])) := by
        simp [List.append_assoc]
      rw [hsh]
      exact markerFree_append hk e2 (Or.inr (Or.inl ⟨'=', rfl, by decide⟩))
    have e4 : markerFree ((k ++ '=' :: '"' :: escapeStr v ++ ['"']) ++ renderAttrs rest)
        = true := by
      refine markerFree_append e3 (ih (fun x hx => hall x (List.mem_cons_of_mem _ hx))) ?_
      cases rest with
      | nil => exact Or.inr (Or.inr (Or.inr rfl))
      | cons kv2 rest2 =>
        obtain ⟨k2, v2⟩ := kv2
        exact Or.inr (Or.inl ⟨' ', rfl, by decide⟩)
    show markerFree (' ' :: ((k ++ '=' :: '"' :: escapeStr v ++ ['"']) ++ renderAttrs rest))
      = true
    rw [show (' ' :: ((k ++ '=' :: '"' :: escapeStr v ++ ['"']) ++ renderAttrs rest) : Str) =
      [' '] ++ ((k ++ '=' :: '"' :: escapeStr v ++ ['"']) ++ renderAttrs rest) from rfl]
    exact markerFree_append (by decide) e4 (Or.inl ⟨' ', by decide, by decide⟩)

theorem qOf_getLast (nm : Str) : (qOf nm).getLast? = some '>' := by
  unfold qOf
  rw [List.getLast?_append_of_ne_nil _ (by decide)]
  decide

theorem qOf_ne_nil (nm : Str) : qOf nm ≠ [] := by
  unfold qOf
  intro h
  rcases List.append_eq_nil.mp h with ⟨h1, _⟩
  rcases List.append_eq_nil.mp h1 with ⟨h2, _⟩
  exact absurd h2 (by decide)

/-- The rendering of a placeholder comment of a known name is good. -/
theorem goodStr_placeholder {names : List Str} {nm : Str} (hmem : nm ∈ names)
    (hslug : isSlug nm = true) : goodStr names ('<' :: qOf nm) = true := by
  have hsp : splitLT ('<' :: qOf nm) = ([], [qOf nm]) := by
    rw [splitLT_cons, if_pos (by simp), splitLT_of_free _ (qOf_free hslug)]
  apply goodStr_build
  · rw [hsp]
    exact markerFree_nil
  · rw [hsp]
    intro t ht
    rcases List.mem_singleton.mp ht with rfl
    unfold goodSeg
    rw [Bool.or_eq_true, List.any_eq_true]
    refine Or.inr ⟨nm, hmem, ?_⟩
    rw [Bool.and_eq_true]
    refine ⟨(isPrefixL_iff _ _).mpr (List.prefix_refl _), ?_⟩
    rw [List.drop_length]
    exact markerFree_nil

theorem ntype_beq_true {t : NType} (h : t = NType.textNode) :
    (t == NType.textNode) = true := by
  subst h
  rfl

theorem ntype_beq_false {t : NType} (h : t ≠ NType.textNode) :
    (t == NType.textNode) = false := by
  cases t
  case textNode => exact absurd rfl h
  all_goals rfl

theorem cleanNode_parts {names : List Str} {t : NType} {d : Str} {attrs : List (Str × Str)}
    {ch : List HNode} (h : cleanNode names (HNode.mk t d attrs ch) = true) :
    (markerFree d = true ∨
      (t = NType.commentNode ∧ ∃ nm ∈ names, d = str "EJS_INCLUDE:" ++ nm)) ∧
    (∀ kv ∈ attrs, markerFree kv.1 = true ∧ markerFree kv.2 = true) ∧
    cleanForest names ch = true := by
  cases t
  case commentNode =>
    have h2 : ((markerFree d || names.any (fun nm => d == str "EJS_INCLUDE:" ++ nm)) &&
        attrs.all (fun kv => markerFree kv.1 && markerFree kv.2) &&
        cleanForest names ch) = true := h
    rw [Bool.and_eq_true, Bool.and_eq_true] at h2
    refine ⟨?_, fun kv hkv => ?_, h2.2⟩
    · have hor := h2.1.1
      rw [Bool.or_eq_true] at hor
      rcases hor with hh | hh
      · exact Or.inl hh
      · rw [List.any_eq_true] at hh
        rcases hh with ⟨nm, hnm, hbq⟩
        exact Or.inr ⟨rfl, nm, hnm, by simpa using hbq⟩
    · have := (List.all_eq_true.mp h2.1.2) kv hkv
      rw [Bool.and_eq_true] at this
      exact this
  all_goals {
    have h2 : (markerFree d &&
        attrs.all (fun kv => markerFree kv.1 && markerFree kv.2) &&
        cleanForest names ch) = true := h
    rw [Bool.and_eq_true, Bool.and_eq_true] at h2
    refine ⟨Or.inl h2.1.1, fun kv hkv => ?_, h2.2⟩
    have := (List.all_eq_true.mp h2.1.2) kv hkv
    rw [Bool.and_eq_true] at this
    exact this
  }

theorem cleanNode_text_data {names : List Str} {n : HNode} (h : cleanNode names n = true)
    (ht : n.ntype = NType.textNode) : markerFree n.data = true := by
  obtain ⟨t, d, a, ch⟩ := n
  have ht' : t = NType.textNode := ht
  subst ht'
  have h2 : (markerFree d &&
      a.all (fun kv => markerFree kv.1 && markerFree kv.2) &&
      cleanForest names ch) = true := h
  rw [Bool.and_eq_true, Bool.and_eq_true] at h2
  exact h2.1.1

theorem normalNode_parts {t : NType} {d : Str} {attrs : List (Str × Str)} {ch : List HNode}
    (h : normalNode (HNode.mk t d attrs ch) = true) :
    adjacentTextFree ch = true ∧ ch.all (fun c => c.ntype != NType.documentNode) = true ∧
    normalForest ch = true := by
  have h2 : (adjacentTextFree ch && ch.all (fun c => c.ntype != NType.documentNode) &&
      normalForest ch) = true := h
  rw [Bool.and_eq_true, Bool.and_eq_true] at h2
  exact ⟨h2.1.1, h2.1.2, h2.2⟩

theorem cleanForest_parts {names : List Str} {c : HNode} {rest : List HNode}
    (h : cleanForest names (c :: rest) = true) :
    cleanNode names c = true ∧ cleanForest names rest = true := by
  have h2 : (cleanNode names c && cleanForest names rest) = true := h
  rw [Bool.and_eq_true] at h2
  exact h2

theorem normalForest_parts {c : HNode} {rest : List HNode}
    (h : normalForest (c :: rest) = true) :
    normalNode c = true ∧ normalForest rest = true := by
  have h2 : (normalNode c && normalForest rest) = true := h
  rw [Bool.and_eq_true] at h2
  exact h2

theorem adjacentTextFree_parts {c : HNode} {rest : List HNode}
    (h : adjacentTextFree (c :: rest) = true) :
    adjacentTextFree rest = true ∧
    (∀ c2 r2, rest = c2 :: r2 → ¬(c.ntype = NType.textNode ∧ c2.ntype = NType.textNode)) := by
  cases rest with
  | nil => exact ⟨rfl, fun c2 r2 hh => by cases hh⟩
  | cons c2 r2 =>
    have h2 : ((!(c.ntype == NType.textNode && c2.ntype == NType.textNode)) &&
        adjacentTextFree (c2 :: r2)) = true := h
    rw [Bool.and_eq_true] at h2
    refine ⟨h2.2, ?_⟩
    intro c2' r2' heq hboth
    have hc2 : c2' = c2 := by injection heq with h3 _; exact h3.symm ▸ rfl
    have hb := h2.1
    rw [ntype_beq_true hboth.1, ntype_beq_true (hc2 ▸ hboth.2)] at hb
    exact absurd hb (by decide)

theorem ntype_bne_doc {t : NType} (h : (t != NType.documentNode) = true) :
    t ≠ NType.documentNode := by
  intro heq
  rw [heq] at h
  exact absurd h (by decide)

/-- Rendering a clean, parser-shaped tree (fuel-indexed strong induction on
node size): the rendering of a non-document node is a good string; non-text
nodes render starting with `<` and ending with `>`; text nodes render
marker-free.  The two forest renderings satisfy the same goodness, and start
with `<` whenever the first child is not a text node. -/
theorem render_good_fuel (names : List Str) (hnames : ∀ nm ∈ names, isSlug nm = true) :
    ∀ k : Nat,
      (∀ n : HNode, sizeOf n < k → cleanNode names n = true → normalNode n = true →
        n.ntype ≠ NType.documentNode →
        goodStr names (renderNode n) = true ∧
        (n.ntype ≠ NType.textNode →
          (renderNode n).head? = some '<' ∧ (renderNode n).getLast? = some '>') ∧
        (n.ntype = NType.textNode → markerFree (renderNode n) = true)) ∧
      (∀ ch : List HNode, sizeOf ch < k → cleanForest names ch = true →
        adjacentTextFree ch = true →
        ch.all (fun c => c.ntype != NType.documentNode) = true →
        normalForest ch = true →
        goodStr names (renderForest ch) = true ∧
        (∀ c0 : HNode, ch.head? = some c0 → c0.ntype ≠ NType.textNode →
          (renderForest ch).head? = some '<')) ∧
      (∀ ch : List HNode, sizeOf ch < k → cleanForest names ch = true →
        adjacentTextFree ch = true →
        ch.all (fun c => c.ntype != NType.documentNode) = true →
        normalForest ch = true →
        goodStr names (renderRawForest ch) = true ∧
        (∀ c0 : HNode, ch.head? = some c0 → c0.ntype ≠ NType.textNode →
          (renderRawForest ch).head? = some '<')) := by
  intro k
  induction k using Nat.strong_induction_on with
  | _ k ih =>
  refine ⟨?_, ?_, ?_⟩
  · -- single node
    intro n hsz hclean hnorm hdoc
    obtain ⟨t, d, attrs, ch⟩ := n
    rcases cleanNode_parts hclean with ⟨hdata, hattrs, hchclean⟩
    rcases normalNode_parts hnorm with ⟨hadj, hnodoc, hchnorm⟩
    have hszch : sizeOf ch < sizeOf (HNode.mk t d attrs ch) := by
      simp only [HNode.mk.sizeOf_spec]
      omega
    have hfor := (ih (sizeOf (HNode.mk t d attrs ch)) hsz).2.1 ch hszch
      hchclean hadj hnodoc hchnorm
    have hrawfor := (ih (sizeOf (HNode.mk t d attrs ch)) hsz).2.2 ch hszch
      hchclean hadj hnodoc hchnorm
    cases t with
    | documentNode => exact absurd rfl hdoc
    | textNode =>
      have hd' : markerFree d = true := by
        rcases hdata with h | ⟨hcn, _⟩
        · exact h
        · exact absurd hcn (fun hh => NType.noConfusion hh)
      have hmf : markerFree (escapeStr d) = true := escape_markerFree d hd'
      exact ⟨markerFree_good names hmf, fun hne => absurd rfl hne, fun _ => hmf⟩
    | commentNode =>
      have hshape : renderNode (HNode.mk NType.commentNode d attrs ch) =
          str "<!--" ++ d ++ str "-->" := rfl
      rcases hdata with hmf | ⟨_, nm, hnm, rfl⟩
      · have h1 : markerFree (str "<!--" ++ d) = true :=
          markerFree_append (by decide) hmf (Or.inl ⟨'-', by decide, by decide⟩)
        have h2 : markerFree (str "<!--" ++ d ++ str "-->") = true :=
          markerFree_append h1 (by decide) (Or.inr (Or.inl ⟨'-', by decide, by decide⟩))
        rw [hshape]
        refine ⟨markerFree_good names h2, ?_, fun hh => NType.noConfusion hh⟩
        intro _
        constructor
        · rw [List.head?_append_of_ne_nil _
            (fun hn => absurd (List.append_eq_nil.mp hn).1 (by decide)),
            List.head?_append_of_ne_nil _ (by decide)]
          decide
        · rw [List.getLast?_append_of_ne_nil _ (by decide)]
          decide
      · have hslug := hnames nm hnm
        have heq : str "<!--" ++ (str "EJS_INCLUDE:" ++ nm) ++ str "-->" = '<' :: qOf nm := by
          unfold qOf
          rw [show str "<!--" = '<' :: str "!--" from by decide]
          simp only [List.cons_append, List.append_assoc]
          rw [← List.append_assoc (str "!--") (str "EJS_INCLUDE:") _,
            show str "!--" ++ str "EJS_INCLUDE:" = str "!--EJS_INCLUDE:" from by decide]
        rw [hshape, heq]
        refine ⟨goodStr_placeholder hnm hslug, ?_, fun hh => NType.noConfusion hh⟩
        intro _
        refine ⟨rfl, ?_⟩
        rw [show ('<' :: qOf nm : Str) = ['<'] ++ qOf nm from rfl,
          List.getLast?_append_of_ne_nil _ (qOf_ne_nil nm)]
        exact qOf_getLast nm
    | doctypeNode =>
      have hd' : markerFree d = true := by
        rcases hdata with h | ⟨hcn, _⟩
        · exact h
        · exact absurd hcn (fun hh => NType.noConfusion hh)
      have hshape : renderNode (HNode.mk NType.doctypeNode d attrs ch) =
          str "<!DOCTYPE " ++ d ++ str ">" := rfl
      have h1 : markerFree (str "<!DOCTYPE " ++ d) = true :=
        markerFree_append (by decide) hd' (Or.inl ⟨' ', by decide, by decide⟩)
      have h2 : markerFree (str "<!DOCTYPE " ++ d ++ str ">") = true :=
        markerFree_append h1 (by decide) (Or.inr (Or.inl ⟨'>', by decide, by decide⟩))
      rw [hshape]
      refine ⟨markerFree_good names h2, ?_, fun hh => NType.noConfusion hh⟩
      intro _
      constructor
      · rw [List.head?_append_of_ne_nil _
          (fun hn => absurd (List.append_eq_nil.mp hn).1 (by decide)),
          List.head?_append_of_ne_nil _ (by decide)]
        decide
      · rw [List.getLast?_append_of_ne_nil _ (by decide)]
        decide
    | elementNode =>
      have hd' : markerFree d = true := by
        rcases hdata with h | ⟨hcn, _⟩
        · exact h
        · exact absurd hcn (fun hh => NType.noConfusion hh)
      have hopen : goodStr names ('<' :: (d ++ renderAttrs attrs)) = true := by
        show goodStr names (['<'] ++ (d ++ renderAttrs attrs)) = true
        refine goodStr_append_mf (markerFree_good names (by decide)) ?_
          (Or.inl ⟨'<', by decide, by decide⟩)
        refine markerFree_append hd' (renderAttrs_markerFree attrs hattrs) ?_
        cases attrs with
        | nil => exact Or.inr (Or.inr (Or.inr rfl))
        | cons kv r2 =>
          obtain ⟨k2, v2⟩ := kv
          exact Or.inr (Or.inl ⟨' ', rfl, by decide⟩)
      have hbody : ∀ A : Str, goodStr names A = true →
          goodStr names (('<' :: (d ++ renderAttrs attrs)) ++
            '>' :: (A ++ str "</" ++ d ++ str ">")) = true ∧
          (('<' :: (d ++ renderAttrs attrs)) ++
            '>' :: (A ++ str "</" ++ d ++ str ">")).head? = some '<' ∧
          (('<' :: (d ++ renderAttrs attrs)) ++
            '>' :: (A ++ str "</" ++ d ++ str ">")).getLast? = some '>' := by
        intro A hA
        have hg1 : goodStr names (('<' :: (d ++ renderAttrs attrs)) ++ ['>']) = true :=
          goodStr_append_mf hopen (by decide) (Or.inr (Or.inl ⟨'>', rfl, by decide⟩))
        have hg1last : ((('<' :: (d ++ renderAttrs attrs)) ++ ['>']).getLast? = some '>') := by
          rw [List.getLast?_append_of_ne_nil _ (by decide)]
          rfl
        have hg2 : goodStr names ((('<' :: (d ++ renderAttrs attrs)) ++ ['>']) ++ A) = true :=
          goodStr_append hg1 hA (Or.inl ⟨'>', hg1last, by decide⟩)
        have hg3 : goodStr names (((('<' :: (d ++ renderAttrs attrs)) ++ ['>']) ++ A) ++
            str "</") = true :=
          goodStr_append_mf hg2 (by decide) (Or.inr (Or.inl ⟨'<', by decide, by decide⟩))
        have hg3last : (((('<' :: (d ++ renderAttrs attrs)) ++ ['>']) ++ A) ++
            str "</").getLast? = some '/' := by
          rw [List.getLast?_append_of_ne_nil _ (by decide)]
          decide
        have hg4 : goodStr names ((((('<' :: (d ++ renderAttrs attrs)) ++ ['>']) ++ A) ++
            str "</") ++ d) = true :=
          goodStr_append_mf hg3 hd' (Or.inl ⟨'/', hg3last, by decide⟩)
        have hg5 : goodStr names (((((('<' :: (d ++ renderAttrs attrs)) ++ ['>']) ++ A) ++
            str "</") ++ d) ++ str ">") = true :=
          goodStr_append_mf hg4 (by decide) (Or.inr (Or.inl ⟨'>', by decide, by decide⟩))
        have hassoc : ('<' :: (d ++ renderAttrs attrs)) ++
            '>' :: (A ++ str "</" ++ d ++ str ">") =
            ((((('<' :: (d ++ renderAttrs attrs)) ++ ['>']) ++ A) ++ str "</") ++ d) ++
              str ">" := by
          simp [List.append_assoc]
        refine ⟨by rw [hassoc]; exact hg5, rfl, ?_⟩
        rw [List.getLast?_append_of_ne_nil _ (List.cons_ne_nil _ _),
          show ('>' :: (A ++ str "</" ++ d ++ str ">") : Str) =
            ['>'] ++ (A ++ str "</" ++ d ++ str ">") from rfl,
          List.getLast?_append_of_ne_nil _
            (fun hn => absurd (List.append_eq_nil.mp hn).2 (by decide)),
          List.getLast?_append_of_ne_nil _ (by decide)]
        decide
      have hshape : renderNode (HNode.mk NType.elementNode d attrs ch) =
          (if voidTags.contains d then ('<' :: (d ++ renderAttrs attrs)) ++ str "/>"
           else if rawTextTags.contains d then ('<' :: (d ++ renderAttrs attrs)) ++
             '>' :: (renderRawForest ch ++ str "</" ++ d ++ str ">")
           else ('<' :: (d ++ renderAttrs attrs)) ++
             '>' :: (renderForest ch ++ str "</" ++ d ++ str ">")) := rfl
      by_cases hvoid : voidTags.contains d = true
      · rw [hshape, if_pos hvoid]
        refine ⟨goodStr_append_mf hopen (by decide)
          (Or.inr (Or.inl ⟨'/', by decide, by decide⟩)), ?_, fun hh => NType.noConfusion hh⟩
        intro _
        refine ⟨rfl, ?_⟩
        rw [List.getLast?_append_of_ne_nil _ (by decide)]
        decide
      · rw [hshape, if_neg hvoid]
        by_cases hrawtag : rawTextTags.contains d = true
        · rw [if_pos hrawtag]
          rcases hbody (renderRawForest ch) hrawfor.1 with ⟨hb1, hb2, hb3⟩
          exact ⟨hb1, fun _ => ⟨hb2, hb3⟩, fun hh => NType.noConfusion hh⟩
        · rw [if_neg hrawtag]
          rcases hbody (renderForest ch) hfor.1 with ⟨hb1, hb2, hb3⟩
          exact ⟨hb1, fun _ => ⟨hb2, hb3⟩, fun hh => NType.noConfusion hh⟩
  · -- forest
    intro ch hsz hclean hadj hnodoc hnorm
    cases ch with
    | nil =>
      refine ⟨goodStr_nil names, ?_⟩
      intro c0 hc0 _
      simp at hc0
    | cons c rest =>
      rcases cleanForest_parts hclean with ⟨hcc, hcr⟩
      rcases normalForest_parts hnorm with ⟨hnc, hnr⟩
      rcases adjacentTextFree_parts hadj with ⟨hadjr, hpair⟩
      have hnd := hnodoc
      rw [List.all_cons, Bool.and_eq_true] at hnd
      obtain ⟨hdc, hdr⟩ := hnd
      have hP := ih (sizeOf (c :: rest)) hsz
      have hnode := hP.1 c (by simp only [List.cons.sizeOf_spec]; omega) hcc hnc
        (ntype_bne_doc hdc)
      have hforest := hP.2.1 rest (by simp only [List.cons.sizeOf_spec]; omega)
        hcr hadjr hdr hnr
      have hshape : renderForest (c :: rest) = renderNode c ++ renderForest rest := rfl
      by_cases hct : c.ntype = NType.textNode
      · have hmfc : markerFree (renderNode c) = true := hnode.2.2 hct
        cases rest with
        | nil =>
          rw [hshape]
          refine ⟨?_, ?_⟩
          · rw [show renderForest ([] : List HNode) = [] from rfl, List.append_nil]
            exact markerFree_good names hmfc
          · intro c0 hc0 hc0t
            have hc0c : c = c0 := by simpa using hc0
            rw [← hc0c] at hc0t
            exact absurd hct hc0t
        | cons c2 r2 =>
          have hc2t : c2.ntype ≠ NType.textNode := by
            intro hh
            exact hpair c2 r2 rfl ⟨hct, hh⟩
          have hheadr : (renderForest (c2 :: r2)).head? = some '<' :=
            hforest.2 c2 rfl hc2t
          rw [hshape]
          refine ⟨goodStr_append_lt (markerFree_good names hmfc) hforest.1 hheadr, ?_⟩
          intro c0 hc0 hc0t
          have hc0c : c = c0 := by simpa using hc0
          rw [← hc0c] at hc0t
          exact absurd hct hc0t
      · have hh := hnode.2.1 hct
        rw [hshape]
        refine ⟨goodStr_append hnode.1 hforest.1 (Or.inl ⟨'>', hh.2, by decide⟩), ?_⟩
        intro c0 hc0 _
        rw [List.head?_append_of_ne_nil _ (by
          intro hnil
          rw [hnil] at hh
          exact absurd hh.1 (by decide))]
        exact hh.1
  · -- raw-text forest
    intro ch hsz hclean hadj hnodoc hnorm
    cases ch with
    | nil =>
      refine ⟨goodStr_nil names, ?_⟩
      intro c0 hc0 _
      simp at hc0
    | cons c rest =>
      rcases cleanForest_parts hclean with ⟨hcc, hcr⟩
      rcases normalForest_parts hnorm with ⟨hnc, hnr⟩
      rcases adjacentTextFree_parts hadj with ⟨hadjr, hpair⟩
      have hnd := hnodoc
      rw [List.all_cons, Bool.and_eq_true] at hnd
      obtain ⟨hdc, hdr⟩ := hnd
      have hP := ih (sizeOf (c :: rest)) hsz
      have hnode := hP.1 c (by simp only [List.cons.sizeOf_spec]; omega) hcc hnc
        (ntype_bne_doc hdc)
      have hforest := hP.2.2 rest (by simp only [List.cons.sizeOf_spec]; omega)
        hcr hadjr hdr hnr
      have hshape : renderRawForest (c :: rest) =
          (if c.ntype == NType.textNode then c.data else renderNode c) ++
            renderRawForest rest := rfl
      by_cases hct : c.ntype = NType.textNode
      · have hmfc : markerFree c.data = true := cleanNode_text_data hcc hct
        rw [hshape, ntype_beq_true hct, if_pos rfl]
        cases rest with
        | nil =>
          refine ⟨?_, ?_⟩
          · rw [show renderRawForest ([] : List HNode) = [] from rfl, List.append_nil]
            exact markerFree_good names hmfc
          · intro c0 hc0 hc0t
            have hc0c : c = c0 := by simpa using hc0
            rw [← hc0c] at hc0t
            exact absurd hct hc0t
        | cons c2 r2 =>
          have hc2t : c2.ntype ≠ NType.textNode := by
            intro hh
            exact hpair c2 r2 rfl ⟨hct, hh⟩
          have hheadr : (renderRawForest (c2 :: r2)).head? = some '<' :=
            hforest.2 c2 rfl hc2t
          refine ⟨goodStr_append_lt (markerFree_good names hmfc) hforest.1 hheadr, ?_⟩
          intro c0 hc0 hc0t
          have hc0c : c = c0 := by simpa using hc0
          rw [← hc0c] at hc0t
          exact absurd hct hc0t
      · have hh := hnode.2.1 hct
        rw [hshape, ntype_beq_false hct, if_neg (by decide)]
        refine ⟨goodStr_append hnode.1 hforest.1 (Or.inl ⟨'>', hh.2, by decide⟩), ?_⟩
        intro c0 hc0 _
        rw [List.head?_append_of_ne_nil _ (by
          intro hnil
          rw [hnil] at hh
          exact absurd hh.1 (by decide))]
        exact hh.1

/-! Goodness and cleanliness are monotone in the name list, survive
`getNode`, and are preserved by the marker replacement. -/

theorem goodSeg_mono {names names' : List Str} (hsub : ∀ nm ∈ names, nm ∈ names') {t : Str}
    (h : goodSeg names t = true) : goodSeg names' t = true := by
  unfold goodSeg at h ⊢
  rw [Bool.or_eq_true] at h ⊢
  rcases h with h | h
  · exact Or.inl h
  · rw [List.any_eq_true] at h ⊢
    rcases h with ⟨nm, hnm, hc⟩
    exact Or.inr ⟨nm, hsub nm hnm, hc⟩

theorem goodStr_mono {names names' : List Str} (hsub : ∀ nm ∈ names, nm ∈ names') {s : Str}
    (h : goodStr names s = true) : goodStr names' s = true := by
  rcases goodStr_parts h with ⟨h1, h2⟩
  exact goodStr_build h1 (fun t ht => goodSeg_mono hsub (h2 t ht))

theorem cleanForest_iff_mem {names : List Str} : ∀ ch : List HNode,
    cleanForest names ch = true ↔ ∀ c ∈ ch, cleanNode names c = true := by
  intro ch
  induction ch with
  | nil => exact ⟨fun _ c hc => absurd hc (List.not_mem_nil c), fun _ => rfl⟩
  | cons c rest ih =>
    constructor
    · intro h x hx
      rcases cleanForest_parts h with ⟨h1, h2⟩
      rcases List.mem_cons.mp hx with rfl | hx
      · exact h1
      · exact ih.mp h2 x hx
    · intro h
      show (cleanNode names c && cleanForest names rest) = true
      rw [Bool.and_eq_true]
      exact ⟨h c (List.mem_cons_self ..),
        ih.mpr (fun x hx => h x (List.mem_cons_of_mem _ hx))⟩

theorem normalForest_iff_mem : ∀ ch : List HNode,
    normalForest ch = true ↔ ∀ c ∈ ch, normalNode c = true := by
  intro ch
  induction ch with
  | nil => exact ⟨fun _ c hc => absurd hc (List.not_mem_nil c), fun _ => rfl⟩
  | cons c rest ih =>
    constructor
    · intro h x hx
      rcases normalForest_parts h with ⟨h1, h2⟩
      rcases List.mem_cons.mp hx with rfl | hx
      · exact h1
      · exact ih.mp h2 x hx
    · intro h
      show (normalNode c && normalForest rest) = true
      rw [Bool.and_eq_true]
      exact ⟨h c (List.mem_cons_self ..),
        ih.mpr (fun x hx => h x (List.mem_cons_of_mem _ hx))⟩

theorem clean_mono_fuel (names names' : List Str) (hsub : ∀ nm ∈ names, nm ∈ names') :
    ∀ k : Nat, ∀ n : HNode, sizeOf n < k →
      cleanNode names n = true → cleanNode names' n = true := by
  intro k
  induction k using Nat.strong_induction_on with
  | _ k ih =>
  intro n hsz h
  obtain ⟨t, d, attrs, ch⟩ := n
  rcases cleanNode_parts h with ⟨hd, hattrs, hch⟩
  have hch' : cleanForest names' ch = true := by
    rw [cleanForest_iff_mem]
    intro c hc
    have hc1 : cleanNode names c = true := (cleanForest_iff_mem ch).mp hch c hc
    have hcsz : sizeOf c < sizeOf (HNode.mk t d attrs ch) := by
      have h1 := List.sizeOf_lt_of_mem hc
      simp only [HNode.mk.sizeOf_spec]
      omega
    exact ih (sizeOf (HNode.mk t d attrs ch)) hsz c hcsz hc1
  have hattrs' : attrs.all (fun kv => markerFree kv.1 && markerFree kv.2) = true := by
    rw [List.all_eq_true]
    intro kv hkv
    rw [Bool.and_eq_true]
    exact hattrs kv hkv
  cases t
  case commentNode =>
    show ((markerFree d || names'.any (fun nm => d == str "EJS_INCLUDE:" ++ nm)) &&
        attrs.all (fun kv => markerFree kv.1 && markerFree kv.2) &&
        cleanForest names' ch) = true
    rw [Bool.and_eq_true, Bool.and_eq_true, Bool.or_eq_true]
    refine ⟨⟨?_, hattrs'⟩, hch'⟩
    rcases hd with hh | ⟨_, nm, hnm, rfl⟩
    · exact Or.inl hh
    · refine Or.inr ?_
      rw [List.any_eq_true]
      exact ⟨nm, hsub nm hnm, by simp⟩
  all_goals {
    show (markerFree d &&
        attrs.all (fun kv => markerFree kv.1 && markerFree kv.2) &&
        cleanForest names' ch) = true
    rw [Bool.and_eq_true, Bool.and_eq_true]
    refine ⟨⟨?_, hattrs'⟩, hch'⟩
    rcases hd with hh | ⟨hcn, _⟩
    · exact hh
    · exact absurd hcn (fun hh2 => NType.noConfusion hh2)
  }

theorem cleanNode_mono {names names' : List Str} (hsub : ∀ nm ∈ names, nm ∈ names')
    {n : HNode} (h : cleanNode names n = true) : cleanNode names' n = true :=
  clean_mono_fuel names names' hsub (sizeOf n + 1) n (Nat.lt_succ_self _) h

theorem placeholder_clean {names : List Str} {nm : Str} (hnm : nm ∈ names) :
    cleanNode names (placeholderComment nm) = true := by
  show ((markerFree (str "EJS_INCLUDE:" ++ nm) ||
      names.any (fun nm2 => str "EJS_INCLUDE:" ++ nm == str "EJS_INCLUDE:" ++ nm2)) &&
      ([] : List (Str × Str)).all (fun kv => markerFree kv.1 && markerFree kv.2) &&
      cleanForest names []) = true
  rw [Bool.and_eq_true, Bool.and_eq_true, Bool.or_eq_true]
  refine ⟨⟨Or.inr ?_, rfl⟩, rfl⟩
  rw [List.any_eq_true]
  exact ⟨nm, hnm, by simp⟩

theorem placeholder_normal (nm : Str) : normalNode (placeholderComment nm) = true := rfl

theorem getNode_clean {names : List Str} : ∀ (p : Path) (tr n : HNode),
    cleanNode names tr = true → getNode tr p = some n → cleanNode names n = true := by
  intro p
  induction p with
  | nil =>
    intro tr n h hg
    have hg2 : some tr = some n := hg
    injection hg2 with hh
    exact hh ▸ h
  | cons i p2 ih =>
    intro tr n h hg
    obtain ⟨t, d, a, ch⟩ := tr
    have hg2 : (match ch.get? i with
      | some c => getNode c p2
      | none => none) = some n := hg
    cases hc : ch.get? i with
    | none => rw [hc] at hg2; exact Option.noConfusion hg2
    | some c =>
      rw [hc] at hg2
      have hcm : c ∈ ch := List.get?_mem hc
      have hcl : cleanNode names c = true := by
        rcases cleanNode_parts h with ⟨_, _, hch⟩
        exact (cleanForest_iff_mem ch).mp hch c hcm
      exact ih c n hcl hg2

theorem getNode_normal : ∀ (p : Path) (tr n : HNode),
    normalNode tr = true → getNode tr p = some n → normalNode n = true := by
  intro p
  induction p with
  | nil =>
    intro tr n h hg
    have hg2 : some tr = some n := hg
    injection hg2 with hh
    exact hh ▸ h
  | cons i p2 ih =>
    intro tr n h hg
    obtain ⟨t, d, a, ch⟩ := tr
    have hg2 : (match ch.get? i with
      | some c => getNode c p2
      | none => none) = some n := hg
    cases hc : ch.get? i with
    | none => rw [hc] at hg2; exact Option.noConfusion hg2
    | some c =>
      rw [hc] at hg2
      have hcm : c ∈ ch := List.get?_mem hc
      have hcl : normalNode c = true := by
        rcases normalNode_parts h with ⟨_, _, hch⟩
        exact (normalForest_iff_mem ch).mp hch c hcm
      exact ih c n hcl hg2

theorem replaceChild_mem {ch : List HNode} {i : Nat} {nm : Str} {x : HNode}
    (h : x ∈ replaceChildWithMarker ch i nm) : x ∈ ch ∨ x = placeholderComment nm := by
  unfold replaceChildWithMarker removeChild insertBefore at h
  have h2 := (List.eraseIdx_sublist _ (i + 1)).mem h
  rcases List.mem_append.mp h2 with hx | hx
  · exact Or.inl ((List.take_sublist _ _).mem hx)
  · rcases List.mem_cons.mp hx with rfl | hx
    · exact Or.inr rfl
    · exact Or.inl ((List.drop_sublist _ _).mem hx)

theorem replaceChild_eq_append {ch : List HNode} {i : Nat} (hge : ch.length ≤ i) (nm : Str) :
    replaceChildWithMarker ch i nm = ch ++ [placeholderComment nm] := by
  unfold replaceChildWithMarker removeChild insertBefore
  rw [List.take_of_length_le hge, List.drop_eq_nil_of_le hge]
  exact List.eraseIdx_of_length_le (by simp; omega)

theorem adjacentTextFree_set : ∀ (ch : List HNode) (i : Nat) (v : HNode),
    (∀ c, ch.get? i = some c → v.ntype = NType.textNode → c.ntype = NType.textNode) →
    adjacentTextFree ch = true → adjacentTextFree (ch.set i v) = true := by
  intro ch
  induction ch with
  | nil => intro i v _ _; rfl
  | cons c rest ih =>
    intro i v hv h
    have hparts := adjacentTextFree_parts h
    cases i with
    | zero =>
      have hvc := hv c rfl
      rw [List.set_cons_zero]
      cases rest with
      | nil => rfl
      | cons c2 r2 =>
        have hpair := hparts.2 c2 r2 rfl
        show ((!(v.ntype == NType.textNode && c2.ntype == NType.textNode)) &&
          adjacentTextFree (c2 :: r2)) = true
        rw [Bool.and_eq_true]
        refine ⟨?_, hparts.1⟩
        by_cases hvt : v.ntype = NType.textNode
        · have hc2 : c2.ntype ≠ NType.textNode := fun hh => hpair ⟨hvc hvt, hh⟩
          rw [ntype_beq_true hvt, ntype_beq_false hc2]
          rfl
        · rw [ntype_beq_false hvt]
          rfl
    | succ j =>
      rw [List.set_cons_succ]
      cases rest with
      | nil => rfl
      | cons c2 r2 =>
        have h2 : ((!(c.ntype == NType.textNode && c2.ntype == NType.textNode)) &&
          adjacentTextFree (c2 :: r2)) = true := h
        rw [Bool.and_eq_true] at h2
        cases j with
        | zero =>
          rw [List.set_cons_zero]
          show ((!(c.ntype == NType.textNode && v.ntype == NType.textNode)) &&
            adjacentTextFree (v :: r2)) = true
          rw [Bool.and_eq_true]
          constructor
          · by_cases hvt : v.ntype = NType.textNode
            · have hc2t : c2.ntype = NType.textNode := hv c2 rfl hvt
              have hcn : c.ntype ≠ NType.textNode := fun hh => hparts.2 c2 r2 rfl ⟨hh, hc2t⟩
              rw [ntype_beq_false hcn]
              rfl
            · rw [ntype_beq_false hvt, Bool.and_false]
              rfl
          · have h9 := ih 0 v (fun cc hcc => hv cc hcc) hparts.1
            rw [List.set_cons_zero] at h9
            exact h9
        | succ j2 =>
          show ((!(c.ntype == NType.textNode && c2.ntype == NType.textNode)) &&
            adjacentTextFree ((c2 :: r2).set (j2 + 1) v)) = true
          rw [Bool.and_eq_true]
          exact ⟨h2.1, ih (j2 + 1) v (fun cc hcc => hv cc hcc) hparts.1⟩

theorem adjacentTextFree_append_nontext {v : HNode} (hv : v.ntype ≠ NType.textNode) :
    ∀ ch : List HNode, adjacentTextFree ch = true → adjacentTextFree (ch ++ [v]) = true := by
  intro ch
  induction ch with
  | nil => intro _; rfl
  | cons c rest ih =>
    intro h
    cases rest with
    | nil =>
      show ((!(c.ntype == NType.textNode && v.ntype == NType.textNode)) &&
        adjacentTextFree [v]) = true
      rw [ntype_beq_false hv, Bool.and_false]
      rfl
    | cons c2 r2 =>
      have h2 : ((!(c.ntype == NType.textNode && c2.ntype == NType.textNode)) &&
        adjacentTextFree (c2 :: r2)) = true := h
      rw [Bool.and_eq_true] at h2
      show ((!(c.ntype == NType.textNode && c2.ntype == NType.textNode)) &&
        adjacentTextFree ((c2 :: r2) ++ [v])) = true
      rw [Bool.and_eq_true]
      exact ⟨h2.1, ih h2.2⟩

theorem replaceChild_adjacent (ch : List HNode) (i : Nat) (nm : Str)
    (h : adjacentTextFree ch = true) :
    adjacentTextFree (replaceChildWithMarker ch i nm) = true := by
  rcases Nat.lt_or_ge i ch.length with hlt | hge
  · rw [replaceChildWithMarker_eq_set ch i nm hlt]
    exact adjacentTextFree_set ch i (placeholderComment nm)
      (fun c _ hv => NType.noConfusion hv) h
  · rw [replaceChild_eq_append hge nm]
    exact adjacentTextFree_append_nontext (fun hh => NType.noConfusion hh) ch h

theorem cleanNode_with_children {names : List Str} {t : NType} {d : Str}
    {a : List (Str × Str)} {ch ch' : List HNode}
    (h : cleanNode names (HNode.mk t d a ch) = true)
    (hch : cleanForest names ch' = true) : cleanNode names (HNode.mk t d a ch') = true := by
  rcases cleanNode_parts h with ⟨hd, hattrs, _⟩
  have hattrs' : a.all (fun kv => markerFree kv.1 && markerFree kv.2) = true := by
    rw [List.all_eq_true]
    intro kv hkv
    rw [Bool.and_eq_true]
    exact hattrs kv hkv
  cases t
  case commentNode =>
    show ((markerFree d || names.any (fun nm => d == str "EJS_INCLUDE:" ++ nm)) &&
        a.all (fun kv => markerFree kv.1 && markerFree kv.2) &&
        cleanForest names ch') = true
    rw [Bool.and_eq_true, Bool.and_eq_true, Bool.or_eq_true]
    refine ⟨⟨?_, hattrs'⟩, hch⟩
    rcases hd with hh | ⟨_, nm, hnm, rfl⟩
    · exact Or.inl hh
    · refine Or.inr ?_
      rw [List.any_eq_true]
      exact ⟨nm, hnm, by simp⟩
  all_goals {
    show (markerFree d &&
        a.all (fun kv => markerFree kv.1 && markerFree kv.2) &&
        cleanForest names ch') = true
    rw [Bool.and_eq_true, Bool.and_eq_true]
    refine ⟨⟨?_, hattrs'⟩, hch⟩
    rcases hd with hh | ⟨hcn, _⟩
    · exact hh
    · exact absurd hcn (fun hh2 => NType.noConfusion hh2)
  }

theorem normalNode_build {t : NType} {d : Str} {a : List (Str × Str)} {ch' : List HNode}
    (h1 : adjacentTextFree ch' = true)
    (h2 : ch'.all (fun c => c.ntype != NType.documentNode) = true)
    (h3 : normalForest ch' = true) : normalNode (HNode.mk t d a ch') = true := by
  show (adjacentTextFree ch' && ch'.all (fun c => c.ntype != NType.documentNode) &&
    normalForest ch') = true
  rw [Bool.and_eq_true, Bool.and_eq_true]
  exact ⟨⟨h1, h2⟩, h3⟩

theorem replaceMarker_ntype : ∀ (p : Path) (c : HNode) (nm : Str),
    (replaceMarker c p nm).ntype = c.ntype := by
  intro p c nm
  obtain ⟨t, d, a, ch⟩ := c
  cases p with
  | nil => rfl
  | cons i p2 =>
    cases p2 with
    | nil => rfl
    | cons j p3 =>
      show (match ch.get? i with
        | some c2 => HNode.mk t d a (ch.set i (replaceMarker c2 (j :: p3) nm))
        | none => HNode.mk t d a ch).ntype = t
      cases hc : ch.get? i with
      | none => rfl
      | some c2 => rfl

theorem replaceMarker_clean {names : List Str} {nm : Str} (hnm : nm ∈ names) :
    ∀ (p : Path) (tr : HNode), cleanNode names tr = true →
      cleanNode names (replaceMarker tr p nm) = true := by
  intro p
  induction p with
  | nil =>
    intro tr h
    obtain ⟨t, d, a, ch⟩ := tr
    exact h
  | cons i p2 ih =>
    intro tr h
    obtain ⟨t, d, a, ch⟩ := tr
    cases p2 with
    | nil =>
      show cleanNode names (HNode.mk t d a (replaceChildWithMarker ch i nm)) = true
      apply cleanNode_with_children h
      rw [cleanForest_iff_mem]
      intro x hx
      rcases replaceChild_mem hx with hx | rfl
      · exact (cleanForest_iff_mem ch).mp (cleanNode_parts h).2.2 x hx
      · exact placeholder_clean hnm
    | cons j p3 =>
      have he : replaceMarker (HNode.mk t d a ch) (i :: j :: p3) nm =
          (match ch.get? i with
           | some c => HNode.mk t d a (ch.set i (replaceMarker c (j :: p3) nm))
           | none => HNode.mk t d a ch) := rfl
      rw [he]
      cases hc : ch.get? i with
      | none => exact h
      | some c =>
        apply cleanNode_with_children h
        rw [cleanForest_iff_mem]
        intro x hx
        rcases List.mem_or_eq_of_mem_set hx with hx | rfl
        · exact (cleanForest_iff_mem ch).mp (cleanNode_parts h).2.2 x hx
        · exact ih c ((cleanForest_iff_mem ch).mp (cleanNode_parts h).2.2 c (List.get?_mem hc))

theorem replaceMarker_normal {nm : Str} :
    ∀ (p : Path) (tr : HNode), normalNode tr = true →
      normalNode (replaceMarker tr p nm) = true := by
  intro p
  induction p with
  | nil =>
    intro tr h
    obtain ⟨t, d, a, ch⟩ := tr
    exact h
  | cons i p2 ih =>
    intro tr h
    obtain ⟨t, d, a, ch⟩ := tr
    rcases normalNode_parts h with ⟨hadj, hnodoc, hnf⟩
    cases p2 with
    | nil =>
      show normalNode (HNode.mk t d a (replaceChildWithMarker ch i nm)) = true
      refine normalNode_build (replaceChild_adjacent ch i nm hadj) ?_ ?_
      · rw [List.all_eq_true]
        intro x hx
        rcases replaceChild_mem hx with hx | rfl
        · exact (List.all_eq_true.mp hnodoc) x hx
        · rfl
      · rw [normalForest_iff_mem]
        intro x hx
        rcases replaceChild_mem hx with hx | rfl
        · exact (normalForest_iff_mem ch).mp hnf x hx
        · exact placeholder_normal nm
    | cons j p3 =>
      have he : replaceMarker (HNode.mk t d a ch) (i :: j :: p3) nm =
          (match ch.get? i with
           | some c => HNode.mk t d a (ch.set i (replaceMarker c (j :: p3) nm))
           | none => HNode.mk t d a ch) := rfl
      rw [he]
      cases hc : ch.get? i with
      | none => exact h
      | some c =>
        refine normalNode_build ?_ ?_ ?_
        · refine adjacentTextFree_set ch i (replaceMarker c (j :: p3) nm) ?_ hadj
          intro cc hcc hvt
          rw [hc] at hcc
          injection hcc with hcc2
          rw [← hcc2]
          rw [replaceMarker_ntype (j :: p3) c nm] at hvt
          exact hvt
        · rw [List.all_eq_true]
          intro x hx
          rcases List.mem_or_eq_of_mem_set hx with hx | rfl
          · exact (List.all_eq_true.mp hnodoc) x hx
          · have hcm := List.get?_mem hc
            have hcd := (List.all_eq_true.mp hnodoc) c hcm
            rw [show (replaceMarker c (j :: p3) nm).ntype = c.ntype from
              replaceMarker_ntype (j :: p3) c nm]
            exact hcd
        · rw [normalForest_iff_mem]
          intro x hx
          rcases List.mem_or_eq_of_mem_set hx with hx | rfl
          · exact (normalForest_iff_mem ch).mp hnf x hx
          · exact ih c ((normalForest_iff_mem ch).mp hnf c (List.get?_mem hc))

/-- Any clean, parser-shaped node (the document root included) renders to a
good string. -/
theorem render_any_good (names : List Str) (hnames : ∀ nm ∈ names, isSlug nm = true)
    {n : HNode} (hclean : cleanNode names n = true) (hnorm : normalNode n = true) :
    goodStr names (renderNode n) = true := by
  by_cases hdoc : n.ntype = NType.documentNode
  · obtain ⟨t, d, a, ch⟩ := n
    have ht : t = NType.documentNode := hdoc
    subst ht
    rcases cleanNode_parts hclean with ⟨_, _, hchclean⟩
    rcases normalNode_parts hnorm with ⟨hadj, hnodoc, hchnorm⟩
    exact ((render_good_fuel names hnames (sizeOf ch + 1)).2.1 ch (Nat.lt_succ_self _)
      hchclean hadj hnodoc hchnorm).1
  · exact ((render_good_fuel names hnames (sizeOf n + 1)).1 n (Nat.lt_succ_self _)
      hclean hnorm hdoc).1

/-- One step of the extraction loop preserves the no-leakage invariant:
all resolved names are slugs, the working tree is clean with respect to the
resolved names and parser-shaped, and every captured body is good. -/
theorem resolveStep_c2_inv (st : ResolveState) (idx : Nat) (p : Path)
    (h : (∀ e ∈ st.resolved, isSlug e.name = true) ∧
      (∀ kv ∈ st.byContent, isSlug kv.2 = true) ∧
      cleanNode (st.resolved.map (fun e => e.name)) st.tree = true ∧
      normalNode st.tree = true ∧
      (∀ e ∈ st.resolved, goodStr (st.resolved.map (fun e => e.name)) e.html = true)) :
    (∀ e ∈ (resolveStep st idx p).resolved, isSlug e.name = true) ∧
    (∀ kv ∈ (resolveStep st idx p).byContent, isSlug kv.2 = true) ∧
    cleanNode ((resolveStep st idx p).resolved.map (fun e => e.name))
      (resolveStep st idx p).tree = true ∧
    normalNode (resolveStep st idx p).tree = true ∧
    (∀ e ∈ (resolveStep st idx p).resolved,
      goodStr ((resolveStep st idx p).resolved.map (fun e => e.name)) e.html = true) := by
  obtain ⟨hres, hbc, hcl, hno, hgood⟩ := h
  have hnames : ∀ nm ∈ st.resolved.map (fun e => e.name), isSlug nm = true := by
    intro nm hnm
    rcases List.mem_map.mp hnm with ⟨e, he, rfl⟩
    exact hres e he
  unfold resolveStep
  cases hN : getNode st.tree p with
  | none => exact ⟨hres, hbc, hcl, hno, hgood⟩
  | some node =>
    simp only
    have hnclean : cleanNode (st.resolved.map (fun e => e.name)) node = true :=
      getNode_clean p st.tree node hcl hN
    have hnnorm : normalNode node = true := getNode_normal p st.tree node hno hN
    have hcontent : goodStr (st.resolved.map (fun e => e.name))
        (renderNodeHTML node) = true :=
      render_any_good _ hnames hnclean hnnorm
    by_cases hT : (trimSpace (renderNodeHTML node)).isEmpty = true
    · simp only [hT, if_true]
      exact ⟨hres, hbc, hcl, hno, hgood⟩
    · simp only [hT, if_false]
      cases hL : lookupA st.byContent (trimSpace (renderNodeHTML node)) with
      | some nm =>
        have hnmslug : isSlug nm = true := by
          rcases lookupA_mem _ _ _ hL with ⟨kv, hkv, hkv2⟩
          exact hkv2 ▸ hbc kv hkv
        have hmapeq : (st.resolved ++ [(⟨nm, renderNodeHTML node, p⟩ : ResolvedComponent)]).map
            (fun e => e.name) = st.resolved.map (fun e => e.name) ++ [nm] := by
          rw [List.map_append]
          rfl
        have hsub :
            ∀ x ∈ st.resolved.map (fun e => e.name),
              x ∈ st.resolved.map (fun e => e.name) ++ [nm] :=
          fun x hx => List.mem_append.mpr (Or.inl hx)
        have hmm : nm ∈ st.resolved.map (fun e => e.name) ++ [nm] :=
          List.mem_append.mpr (Or.inr (List.mem_singleton_self nm))
        refine ⟨?_, hbc, ?_, ?_, ?_⟩
        · intro e he
          rcases List.mem_append.mp he with he | he
          · exact hres e he
          · rcases List.mem_singleton.mp he with rfl
            exact hnmslug
        · show cleanNode ((st.resolved ++ [(⟨nm, renderNodeHTML node, p⟩ :
            ResolvedComponent)]).map (fun e => e.name))
            (replaceMarker st.tree p nm) = true
          rw [hmapeq]
          exact replaceMarker_clean hmm p st.tree (cleanNode_mono hsub hcl)
        · exact replaceMarker_normal p st.tree hno
        · intro e he
          show goodStr ((st.resolved ++ [(⟨nm, renderNodeHTML node, p⟩ :
            ResolvedComponent)]).map (fun e => e.name)) e.html = true
          rw [hmapeq]
          rcases List.mem_append.mp he with he | he
          · exact goodStr_mono hsub (hgood e he)
          · rcases List.mem_singleton.mp he with rfl
            exact goodStr_mono hsub hcontent
      | none =>
        have hnuslug : isSlug (buildComponentName node idx st.used).1 = true :=
          buildComponentName_slug node idx st.used
        have hmapeq : (st.resolved ++ [(⟨(buildComponentName node idx st.used).1,
            renderNodeHTML node, p⟩ : ResolvedComponent)]).map (fun e => e.name) =
            st.resolved.map (fun e => e.name) ++ [(buildComponentName node idx st.used).1] := by
          rw [List.map_append]
          rfl
        have hsub : ∀ x ∈ st.resolved.map (fun e => e.name),
            x ∈ st.resolved.map (fun e => e.name) ++
              [(buildComponentName node idx st.used).1] :=
          fun x hx => List.mem_append.mpr (Or.inl hx)
        have hmm : (buildComponentName node idx st.used).1 ∈
            st.resolved.map (fun e => e.name) ++ [(buildComponentName node idx st.used).1] :=
          List.mem_append.mpr (Or.inr (List.mem_singleton_self _))
        refine ⟨?_, ?_, ?_, ?_, ?_⟩
        · intro e he
          rcases List.mem_append.mp he with he | he
          · exact hres e he
          · rcases List.mem_singleton.mp he with rfl
            exact hnuslug
        · intro kv hkv
          rcases List.mem_cons.mp hkv with rfl | hkv
          · exact hnuslug
          · exact hbc kv hkv
        · show cleanNode ((st.resolved ++ [(⟨(buildComponentName node idx st.used).1,
            renderNodeHTML node, p⟩ : ResolvedComponent)]).map (fun e => e.name))
            (replaceMarker st.tree p (buildComponentName node idx st.used).1) = true
          rw [hmapeq]
          exact replaceMarker_clean hmm p st.tree (cleanNode_mono hsub hcl)
        · exact replaceMarker_normal p st.tree hno
        · intro e he
          show goodStr ((st.resolved ++ [(⟨(buildComponentName node idx st.used).1,
            renderNodeHTML node, p⟩ : ResolvedComponent)]).map (fun e => e.name))
            e.html = true
          rw [hmapeq]
          rcases List.mem_append.mp he with he | he
          · exact goodStr_mono hsub (hgood e he)
          · rcases List.mem_singleton.mp he with rfl
            exact goodStr_mono hsub hcontent

theorem resolve_c2_inv (doc : HNode) (comps : List Path)
    (hclean : cleanNode [] doc = true) (hnorm : normalNode doc = true) :
    (∀ e ∈ (resolveComponents doc comps).resolved, isSlug e.name = true) ∧
    cleanNode ((resolveComponents doc comps).resolved.map (fun e => e.name))
      (resolveComponents doc comps).tree = true ∧
    normalNode (resolveComponents doc comps).tree = true ∧
    (∀ e ∈ (resolveComponents doc comps).resolved,
      goodStr ((resolveComponents doc comps).resolved.map (fun e => e.name))
        e.html = true) := by
  unfold resolveComponents
  have h := List.foldlRecOn comps.enum (fun st ip => resolveStep st ip.1 ip.2)
    (⟨[], [], [], doc⟩ : ResolveState)
    (motive := fun st => (∀ e ∈ st.resolved, isSlug e.name = true) ∧
      (∀ kv ∈ st.byContent, isSlug kv.2 = true) ∧
      cleanNode (st.resolved.map (fun e => e.name)) st.tree = true ∧
      normalNode st.tree = true ∧
      (∀ e ∈ st.resolved, goodStr (st.resolved.map (fun e => e.name)) e.html = true))
    ⟨by simp, by simp, hclean, hnorm, by simp⟩ ?_
  · exact ⟨h.1, h.2.2.1, h.2.2.2.1, h.2.2.2.2⟩
  · intro st hst ip _
    exact resolveStep_c2_inv st ip.1 ip.2 hst

theorem buildPartialsMap_vals (resolved : List ResolvedComponent) (reps : List (Str × Str)) :
    ∀ kv ∈ buildPartialsMap resolved reps,
      ∃ e ∈ resolved, kv.2 = applyIncludeReplacements e.html reps := by
  unfold buildPartialsMap
  refine List.foldlRecOn resolved
    (fun acc comp => if acc.any (fun kv => kv.1 == comp.name) then acc
      else acc ++ [(comp.name, applyIncludeReplacements comp.html reps)]) []
    (motive := fun acc => ∀ kv ∈ acc,
      ∃ e ∈ resolved, kv.2 = applyIncludeReplacements e.html reps) (by simp) ?_
  intro acc hacc e he
  show ∀ kv ∈ (if acc.any (fun kv => kv.1 == e.name) then acc
    else acc ++ [(e.name, applyIncludeReplacements e.html reps)]), _
  by_cases hc : acc.any (fun kv => kv.1 == e.name) = true
  · rw [if_pos hc]
    exact hacc
  · rw [if_neg hc]
    intro kv hkv
    rcases List.mem_append.mp hkv with hkv | hkv
    · exact hacc kv hkv
    · rcases List.mem_singleton.mp hkv with rfl
      exact ⟨e, he, rfl⟩

/-! The final substitution pass erases every marker from a good string. -/

theorem marker_infix_qOf (nm : Str) : markerL <:+: qOf nm := by
  refine ⟨str "!--", nm ++ str "-->", ?_⟩
  unfold qOf
  rw [show str "!--EJS_INCLUDE:" = str "!--" ++ markerL from by decide]
  simp [List.append_assoc]

theorem rOf_getLast (nm : Str) : (rOf nm).getLast? = some '>' := by
  unfold rOf
  rw [List.getLast?_append_of_ne_nil _ (List.cons_ne_nil _ _)]
  decide

theorem rOf_markerFree {nm : Str} (h : isSlug nm = true) : markerFree (rOf nm) = true := by
  rw [markerFree_iff]
  intro hm
  have hE : ('E' : Char) ∈ rOf nm := hm.subset (by decide)
  unfold rOf at hE
  rcases List.mem_append.mp hE with hE | hE
  · rcases List.mem_append.mp hE with hE | hE
    · rcases List.mem_append.mp hE with hE | hE
      · exact absurd hE (by decide)
      · rcases List.mem_cons.mp hE with hE | hE
        · exact absurd hE (by decide)
        · exact absurd hE (by decide)
    · simp only [isSlug, Bool.and_eq_true, List.all_eq_true] at h
      have := h.1.1.1.2 'E' hE
      exact absurd this (by decide)
  · rcases List.mem_cons.mp hE with hE | hE
    · exact absurd hE (by decide)
    · exact absurd hE (by decide)

theorem not_markerFree_of_qOfPrefix {nm t : Str} (h : isPrefixL (qOf nm) t = true) :
    markerFree t = false := by
  cases hv : markerFree t with
  | false => rfl
  | true =>
    exfalso
    have h2 := (isPrefixL_iff _ _).mp h
    exact (markerFree_iff t).mp hv ((marker_infix_qOf nm).trans h2.isInfix)

theorem qOf_inj {n₁ n₂ : Str} (h₁ : isSlug n₁ = true) (h₂ : isSlug n₂ = true)
    (h : qOf n₁ = qOf n₂) : n₁ = n₂ := by
  by_contra hne
  exact qOf_notPrefix h₁ h₂ hne (h ▸ List.prefix_refl _)

theorem buildRep_key : ∀ (comps : List ResolvedComponent) (acc : List (Str × Str))
    (e : ResolvedComponent),
    (e ∈ comps ∨ ∃ pr ∈ acc, pr.1 = placeholderFor e.name) →
    ∃ pr ∈ comps.foldl (fun acc comp =>
        if acc.any (fun pr => pr.1 == placeholderFor comp.name) then acc
        else acc ++ [(placeholderFor comp.name, includeFor comp.name)]) acc,
      pr.1 = placeholderFor e.name := by
  intro comps
  induction comps with
  | nil =>
    intro acc e h
    rcases h with h | h
    · exact absurd h (List.not_mem_nil e)
    · exact h
  | cons c rest ih =>
    intro acc e h
    rw [List.foldl_cons]
    rcases h with h | h
    · rcases List.mem_cons.mp h with rfl | h
      · refine ih _ e (Or.inr ?_)
        by_cases hc : acc.any (fun pr => pr.1 == placeholderFor e.name) = true
        · rw [if_pos hc]
          rw [List.any_eq_true] at hc
          rcases hc with ⟨pr, hpr, hbq⟩
          exact ⟨pr, hpr, beq_iff_eq.mp hbq⟩
        · rw [if_neg hc]
          exact ⟨(placeholderFor e.name, includeFor e.name),
            List.mem_append.mpr (Or.inr (List.mem_singleton_self _)), rfl⟩
      · exact ih _ e (Or.inl h)
    · refine ih _ e (Or.inr ?_)
      rcases h with ⟨pr, hpr, hpr1⟩
      by_cases hc : acc.any (fun pr => pr.1 == placeholderFor c.name) = true
      · rw [if_pos hc]
        exact ⟨pr, hpr, hpr1⟩
      · rw [if_neg hc]
        exact ⟨pr, List.mem_append.mpr (Or.inl hpr), hpr1⟩

/-- Every resolved name has its replacement pair in the substitution map. -/
theorem buildRep_complete (comps : List ResolvedComponent)
    (hslugs : ∀ e ∈ comps, isSlug e.name = true) :
    ∀ e ∈ comps, (placeholderFor e.name, includeFor e.name) ∈
      buildIncludeReplacements comps := by
  intro e he
  rcases buildRep_key comps [] e (Or.inl he) with ⟨pr, hpr, hpr1⟩
  rcases buildIncludeReplacements_mem comps pr hpr with ⟨e2, he2, rfl⟩
  have hnm : e2.name = e.name := by
    have h2 : '<' :: qOf e2.name = '<' :: qOf e.name := by
      rw [← placeholderFor_shape, ← placeholderFor_shape]
      exact hpr1
    injection h2 with _ h3
    exact qOf_inj (hslugs e2 he2) (hslugs e he) h3
  rw [hnm] at hpr
  exact hpr

theorem segFold_markerFree : ∀ (reps : List (Str × Str)),
    (∀ pr ∈ reps, ∃ nm, isSlug nm = true ∧ pr = ('<' :: qOf nm, '<' :: rOf nm)) →
    ∀ t : Str,
      (markerFree t = true ∨ ∃ nm, isSlug nm = true ∧
        ('<' :: qOf nm, '<' :: rOf nm) ∈ reps ∧ isPrefixL (qOf nm) t = true ∧
        markerFree (t.drop (qOf nm).length) = true) →
      markerFree (reps.foldl (fun u pr => segRep pr.1.tail pr.2.tail u) t) = true := by
  intro reps
  induction reps with
  | nil =>
    intro _ t h
    rcases h with h | ⟨nm, _, hmem, _, _⟩
    · exact h
    · exact absurd hmem (List.not_mem_nil _)
  | cons pr rest ih =>
    intro hsh t h
    rcases hsh pr (List.mem_cons_self ..) with ⟨nm2, hs2, rfl⟩
    rw [List.foldl_cons]
    have hstep : segRep ('<' :: qOf nm2).tail ('<' :: rOf nm2).tail t =
        segRep (qOf nm2) (rOf nm2) t := rfl
    rw [hstep]
    have hshr := fun pr2 hpr2 => hsh pr2 (List.mem_cons_of_mem _ hpr2)
    rcases h with hmf | ⟨nm, hs, hmem, hpre, hdrop⟩
    · have hnof : isPrefixL (qOf nm2) t = false := by
        cases hv : isPrefixL (qOf nm2) t with
        | false => rfl
        | true =>
          rw [not_markerFree_of_qOfPrefix hv] at hmf
          exact Bool.noConfusion hmf
      rw [show segRep (qOf nm2) (rOf nm2) t = t from by
        unfold segRep; rw [if_neg (by simp [hnof])]]
      exact ih hshr t (Or.inl hmf)
    · by_cases hee : nm2 = nm
      · subst hee
        rw [show segRep (qOf nm2) (rOf nm2) t = rOf nm2 ++ t.drop (qOf nm2).length from by
          unfold segRep; rw [if_pos hpre]]
        refine ih hshr _ (Or.inl ?_)
        exact markerFree_append (rOf_markerFree hs2) hdrop
          (Or.inl ⟨'>', rOf_getLast nm2, by decide⟩)
      · have hnof : isPrefixL (qOf nm2) t = false := by
          cases hv : isPrefixL (qOf nm2) t with
          | false => rfl
          | true =>
            exfalso
            have h1 := (isPrefixL_iff _ _).mp hv
            have h2 := (isPrefixL_iff _ _).mp hpre
            rcases prefixTotal h1 h2 with hgo | hgo
            · exact qOf_notPrefix hs2 hs hee hgo
            · exact qOf_notPrefix hs hs2 (fun hh => hee hh.symm) hgo
        rw [show segRep (qOf nm2) (rOf nm2) t = t from by
          unfold segRep; rw [if_neg (by simp [hnof])]]
        refine ih hshr t (Or.inr ⟨nm, hs, ?_, hpre, hdrop⟩)
        rcases List.mem_cons.mp hmem with heq | hmem2
        · exfalso
          have h3 : '<' :: qOf nm = '<' :: qOf nm2 := congrArg Prod.fst heq
          injection h3 with _ h4
          exact hee (qOf_inj hs hs2 h4).symm
        · exact hmem2

theorem markerFree_joinLT : ∀ (segs : List Str) (pre : Str), markerFree pre = true →
    (∀ t ∈ segs, markerFree t = true) → markerFree (joinLT pre segs) = true := by
  intro segs
  induction segs with
  | nil =>
    intro pre hpre _
    rw [show joinLT pre [] = pre from by unfold joinLT; simp]
    exact hpre
  | cons t rest ih =>
    intro pre hpre hall
    rw [joinLT_cons]
    refine ih (pre ++ '<' :: t) ?_ (fun u hu => hall u (List.mem_cons_of_mem _ hu))
    have h1 : markerFree ('<' :: t : Str) = true := by
      show markerFree (['<'] ++ t) = true
      exact markerFree_append (by decide) (hall t (List.mem_cons_self ..))
        (Or.inl ⟨'<', by decide, by decide⟩)
    exact markerFree_append hpre h1 (Or.inr (Or.inl ⟨'<', rfl, by decide⟩))

/-- Applying the replacement map of a component list to a string that is
good with respect to the component names yields a marker-free string. -/
theorem apply_reps_markerFree (comps : List ResolvedComponent) (s : Str)
    (hslugs : ∀ e ∈ comps, isSlug e.name = true)
    (hgood : goodStr (comps.map (fun e => e.name)) s = true) :
    markerFree (applyIncludeReplacements s (buildIncludeReplacements comps)) = true := by
  have hsh : ∀ pr ∈ buildIncludeReplacements comps,
      ∃ nm, isSlug nm = true ∧ pr = ('<' :: qOf nm, '<' :: rOf nm) := by
    intro pr hpr
    rcases buildIncludeReplacements_mem comps pr hpr with ⟨e, he, rfl⟩
    exact ⟨e.name, hslugs e he, by rw [placeholderFor_shape, includeFor_shape]⟩
  have hshape : ∀ pr ∈ buildIncludeReplacements comps,
      ∃ q r, pr = ('<' :: q, '<' :: r) ∧ '<' ∉ q ∧ '<' ∉ r := by
    intro pr hpr
    rcases hsh pr hpr with ⟨nm, hnm, rfl⟩
    exact ⟨qOf nm, rOf nm, rfl, qOf_free hnm, rOf_free hnm⟩
  have hfree := splitLT_free s
  have hdecomp := joinLT_splitLT s
  rcases goodStr_parts hgood with ⟨hpre, hsegs⟩
  rw [← hdecomp]
  rw [applyAll_seg (buildIncludeReplacements comps) hshape (splitLT s).2 (splitLT s).1
    hfree.1 hfree.2]
  refine markerFree_joinLT _ _ hpre ?_
  intro t2 ht2
  rcases List.mem_map.mp ht2 with ⟨t, ht, rfl⟩
  refine segFold_markerFree (buildIncludeReplacements comps) hsh t ?_
  have hg := hsegs t ht
  unfold goodSeg at hg
  rw [Bool.or_eq_true] at hg
  rcases hg with hg | hg
  · exact Or.inl hg
  · rw [List.any_eq_true] at hg
    rcases hg with ⟨nm, hnm, hcond⟩
    rw [Bool.and_eq_true] at hcond
    rcases List.mem_map.mp hnm with ⟨e, he, rfl⟩
    refine Or.inr ⟨e.name, hslugs e he, ?_, hcond.1, hcond.2⟩
    have hcomp := buildRep_complete comps hslugs e he
    rw [placeholderFor_shape, includeFor_shape] at hcomp
    exact hcomp

theorem views_core_markerFree (format : Str → Option Str)
    (hfmt : ∀ (names : List Str) (s t : Str), format s = some t →
      goodStr names s = true → goodStr names t = true)
    (resolved : List ResolvedComponent) (tree : HNode)
    (hslugs : ∀ e ∈ resolved, isSlug e.name = true)
    (hcl : cleanNode (resolved.map (fun e => e.name)) tree = true)
    (hno : normalNode tree = true)
    (hgoods : ∀ e ∈ resolved, goodStr (resolved.map (fun e => e.name)) e.html = true) :
    markerFree (applyIncludeReplacements
      (match format (renderNode tree) with
       | some f => f
       | none => renderNode tree)
      (buildIncludeReplacements resolved)) = true ∧
    ∀ kv ∈ buildPartialsMap resolved (buildIncludeReplacements resolved),
      markerFree kv.2 = true := by
  have hnames : ∀ nm ∈ resolved.map (fun e => e.name), isSlug nm = true := by
    intro nm hnm
    rcases List.mem_map.mp hnm with ⟨e, he, rfl⟩
    exact hslugs e he
  have hrgood := render_any_good _ hnames hcl hno
  have hrend2 : goodStr (resolved.map (fun e => e.name))
      (match format (renderNode tree) with
       | some f => f
       | none => renderNode tree) = true := by
    cases hfv : format (renderNode tree) with
    | none => exact hrgood
    | some f => exact hfmt _ _ _ hfv hrgood
  constructor
  · exact apply_reps_markerFree resolved _ hslugs hrend2
  · intro kv hkv
    rcases buildPartialsMap_vals resolved _ kv hkv with ⟨e, he, hkv2⟩
    rw [hkv2]
    exact apply_reps_markerFree resolved _ hslugs (hgoods e he)

/-- C2 (amended) — For every input whose original string and parsed tree are
themselves free of the internal marker `EJS_INCLUDE:` (text, comments and
attribute values contain no occurrence of it), and for any formatter
collaborator that does not manufacture marker occurrences (it preserves the
goodness structure of its input), the main document string and every
partial body returned by view generation contain zero occurrences of
`EJS_INCLUDE:`: every placeholder comment inserted during rewriting is
replaced by an include directive in both the main document and all partial
bodies.  Without the marker-free-input proviso the claim fails (see the
counterexample): input text containing the literal marker survives into a
partial body. -/
theorem claim_C2_no_leakage (format : Str → Option Str) (htmlContent : Str) (doc : HNode)
    (hmfc : markerFree htmlContent = true)
    (hclean : cleanNode [] doc = true) (hnorm : normalNode doc = true)
    (hfmt : ∀ (names : List Str) (s t : Str), format s = some t →
      goodStr names s = true → goodStr names t = true) :
    markerFree (generateEJSViews format htmlContent doc).main = true ∧
    ∀ kv ∈ (generateEJSViews format htmlContent doc).parts, markerFree kv.2 = true := by
  cases hf : findElementPathD doc (str "body") with
  | none =>
    unfold generateEJSViews
    rw [hf]
    exact ⟨hmfc, by simp⟩
  | some bp =>
    cases hg : getNode doc bp with
    | none =>
      unfold generateEJSViews
      simp only [hf, hg]
      exact ⟨hmfc, by simp⟩
    | some body =>
      unfold generateEJSViews
      simp only [hf, hg]
      by_cases hc : (collectBodyComponents doc (bp ++ selectComponentRoot body)).isEmpty = true
      · rw [if_pos hc]
        exact ⟨hmfc, by simp⟩
      · rw [if_neg hc]
        obtain ⟨hslugs, hcl2, hno2, hgoods⟩ := resolve_c2_inv doc
          (collectBodyComponents doc (bp ++ selectComponentRoot body)) hclean hnorm
        exact views_core_markerFree format hfmt _ _ hslugs hcl2 hno2 hgoods

/-- Witness for C2 (amended) at a concrete extraction run: `docCollide` is
marker-free and parser-shaped, and the identity formatter preserves
goodness. -/
theorem claim_C2_no_leakage_witness :
    markerFree (generateEJSViews fmtIdF (str "X") docCollide).main = true ∧
    ∀ kv ∈ (generateEJSViews fmtIdF (str "X") docCollide).parts,
      markerFree kv.2 = true :=
  claim_C2_no_leakage fmtIdF (str "X") docCollide (by decide) (by decide) (by decide)
    (fun names s t h hg => by
      injection h with hh
      rw [← hh]
      exact hg)

end Uncluster
